import Mathlib

/-! Verification development for `gman622/go_aoc`.

Shallow embedding of the puzzle solvers of the repository and theorems about
them.  Go slices and strings are lists, Go `int` values are `Int`/`Nat`; where
the 64-bit width of `int` decides the result it is made explicit with
`wrapInt`.
-/

/-- Two's-complement wrap of an integer to the range of a 64-bit Go `int`. -/
def wrapInt (z : Int) : Int := (z + 2 ^ 63) % 2 ^ 64 - 2 ^ 63

namespace Day10

/-- The `Machine` struct of `day10/types.go`.  Button entries are the indices
the parser produces (non-negative). -/
structure Machine where
  TargetLights : List Bool
  Buttons : List (List Nat)
  Joltages : List Int

/-- Read `mat[i][j]` (0 outside the matrix). -/
def cell (mat : List (List Nat)) (i j : Nat) : Nat := (mat.getD i []).getD j 0

/-- The assignment `mat[i][j] = v`. -/
def setCell (mat : List (List Nat)) (i j v : Nat) : List (List Nat) :=
  mat.set i ((mat.getD i []).set j v)

/-- The inner loop `mat[row][c] ^= mat[pivotRow][c]` over all columns. -/
def xorRow (a b : List Nat) : List Nat := List.zipWith Nat.xor a b

/-- The loop "Eliminate all other 1s in this column" of `solveMinimalGF2`. -/
def eliminateGF2 (mat : List (List Nat)) (rows pivotRow col : Nat) : List (List Nat) :=
  (List.range rows).foldl
    (fun m row =>
      if row ≠ pivotRow ∧ cell m row col = 1 then
        m.set row (xorRow (m.getD row []) (m.getD pivotRow []))
      else m)
    mat

/-- Exchange of two rows, `mat[a], mat[b] = mat[b], mat[a]`. -/
def swapRows (mat : List (List Nat)) (a b : Nat) : List (List Nat) :=
  (mat.set a (mat.getD b [])).set b (mat.getD a [])

/-- State of the forward elimination loop: matrix, `pivotRow`, `pivotCols`. -/
structure ElimState where
  mat : List (List Nat)
  pivotRow : Nat
  pivotCols : List Nat

/-- One iteration of the column loop of `solveMinimalGF2` (the loop condition
`pivotRow < rows` is checked first; once it fails the loop has ended). -/
def elimStep (rows : Nat) (s : ElimState) (col : Nat) : ElimState :=
  if s.pivotRow < rows then
    match (List.range rows).find? (fun row => decide (s.pivotRow ≤ row) && (cell s.mat row col == 1)) with
    | none => s
    | some row =>
      let mat1 := swapRows s.mat s.pivotRow row
      { mat := eliminateGF2 mat1 rows s.pivotRow col
        pivotRow := s.pivotRow + 1
        pivotCols := s.pivotCols ++ [col] }
  else s

/-- The check "for inconsistency": a row whose coefficients are all not 1 and
whose augmented entry is 1. -/
def inconsistentGF2 (mat : List (List Nat)) (rows cols : Nat) : Bool :=
  (List.range rows).any (fun row =>
    (List.range cols).all (fun col => cell mat row col != 1) && (cell mat row cols == 1))

/-- The loop that reads the pivot variables off the reduced matrix for a given
setting of the free variables held in `solution`. -/
def computePivots (mat : List (List Nat)) (pivotCols : List Nat) (rows cols : Nat)
    (solution : List Nat) : List Nat :=
  (List.range (min pivotCols.length rows)).foldl
    (fun sol row =>
      let pivotCol := pivotCols.getD row 0
      let value := (List.range cols).foldl
        (fun v col => if cell mat row col = 1 ∧ col ≠ pivotCol then Nat.xor v (sol.getD col 0) else v)
        (cell mat row cols)
      sol.set pivotCol value)
    solution

/-- The solution built for one value of `combo`. -/
def comboSolution (mat : List (List Nat)) (pivotCols freeVarList : List Nat)
    (rows cols numVars combo : Nat) : List Nat :=
  let sol0 := (List.range freeVarList.length).foldl
    (fun sol i => if (combo >>> i) &&& 1 = 1 then sol.set (freeVarList.getD i 0) 1 else sol)
    (List.replicate numVars 0)
  computePivots mat pivotCols rows cols sol0

/-- The function `solveMinimalGF2` of `day10/solution.go`.  The free variables
are enumerated in increasing order (Go iterates its map in an unspecified
order; the minimum over all combinations does not depend on it). -/
def solveMinimalGF2 (matrix : List (List Nat)) (numVars : Nat) : Int :=
  let rows := matrix.length
  if rows = 0 then 0 else
  let cols := (matrix.getD 0 []).length - 1
  let s := (List.range cols).foldl (elimStep rows) { mat := matrix, pivotRow := 0, pivotCols := [] }
  let mat := s.mat
  let pivotCols := s.pivotCols
  if inconsistentGF2 mat rows cols then -1 else
  let freeVarList := (List.range cols).filter (fun col => !pivotCols.contains col)
  if freeVarList.length = 0 then
    let solution := (List.range (min pivotCols.length rows)).foldl
      (fun sol row => sol.set (pivotCols.getD row 0) (cell mat row cols))
      (List.replicate numVars 0)
    (solution.sum : Int)
  else
    let numCombinations := wrapInt (2 ^ freeVarList.length)
    (List.range numCombinations.toNat).foldl
      (fun minPresses combo =>
        let count : Int := ((comboSolution mat pivotCols freeVarList rows cols numVars combo).sum : Nat)
        if count < minPresses then count else minPresses)
      ((numVars : Int) + 1)

/-- The augmented matrix `[A|b]` built by `SolveMinPresses`. -/
def buildLightMatrix (m : Machine) : List (List Nat) :=
  let numLights := m.TargetLights.length
  let numButtons := m.Buttons.length
  let init := m.TargetLights.map (fun t => List.replicate numButtons 0 ++ [if t then 1 else 0])
  (List.zip (List.range numButtons) m.Buttons).foldl
    (fun mat jb => jb.2.foldl
      (fun mat lightIdx => if lightIdx < numLights then setCell mat lightIdx jb.1 1 else mat) mat)
    init

/-- The function `SolveMinPresses` of `day10/solution.go`. -/
def SolveMinPresses (m : Machine) : Int :=
  let numButtons := m.Buttons.length
  if numButtons = 0 then
    if m.TargetLights.any (fun t => t) then -1 else 0
  else
    solveMinimalGF2 (buildLightMatrix m) numButtons

/-- Read `matrix[i][j]` of an integer matrix (0 outside the matrix). -/
def cellI (mat : List (List Int)) (i j : Nat) : Int := (mat.getD i []).getD j 0

/-- The coefficient matrix built at the start of `solveMinJoltageInteger`:
`matrix[counter][button] = 1` when the button lists the counter. -/
def buildJoltageMatrix (buttons : List (List Nat)) (numButtons numCounters : Nat) :
    List (List Int) :=
  (List.zip (List.range buttons.length) buttons).foldl
    (fun mat jb => jb.2.foldl
      (fun mat counterIdx =>
        if counterIdx < numCounters then
          mat.set counterIdx ((mat.getD counterIdx []).set jb.1 1)
        else mat) mat)
    (List.replicate numCounters (List.replicate numButtons 0))

/-- The scoring loop of `solveGreedySimple` for one button: the pair
`(score, willOvershoot)`; the loop stops at the first overshoot. -/
def scoreButton (matrix : List (List Int)) (targets counters : List Int)
    (numCounters btn : Nat) : Int × Bool :=
  (List.range numCounters).foldl
    (fun (st : Int × Bool) c =>
      if st.2 then st
      else if cellI matrix c btn = 1 then
        if counters.getD c 0 < targets.getD c 0 then (wrapInt (st.1 + 1), false)
        else (st.1, true)
      else st)
    (0, false)

/-- The search for the best button for counter `ctr` in `solveGreedySimple`:
the pair `(bestBtn, bestScore)`, both -1 when no button qualifies. -/
def bestButton (matrix : List (List Int)) (targets counters : List Int)
    (numButtons numCounters ctr : Nat) : Int × Int :=
  (List.range numButtons).foldl
    (fun (best : Int × Int) btn =>
      if cellI matrix ctr btn = 0 then best
      else
        let sc := scoreButton matrix targets counters numCounters btn
        if !sc.2 && decide (sc.1 > best.2) then ((btn : Int), sc.1) else best)
    (-1, -1)

/-- The main loop of `solveGreedySimple` over the counters still to visit;
`none` is the early `return -1`. -/
def greedyLoop (matrix : List (List Int)) (targets : List Int) (numButtons numCounters : Nat) :
    List Nat → List Int × List Int → Option (List Int × List Int)
  | [], st => some st
  | ctr :: rest, (counters, presses) =>
    if counters.getD ctr 0 ≥ targets.getD ctr 0 then
      greedyLoop matrix targets numButtons numCounters rest (counters, presses)
    else
      let best := bestButton matrix targets counters numButtons numCounters ctr
      if best.1 = -1 then none
      else
        let bestBtn := best.1.toNat
        let needed := wrapInt (targets.getD ctr 0 - counters.getD ctr 0)
        let presses1 := presses.set bestBtn (wrapInt (presses.getD bestBtn 0 + needed))
        let counters1 := (List.range numCounters).foldl
          (fun cs c =>
            if cellI matrix c bestBtn = 1 then cs.set c (wrapInt (cs.getD c 0 + needed)) else cs)
          counters
        greedyLoop matrix targets numButtons numCounters rest (counters1, presses1)

/-- The function `solveGreedySimple` of `day10/solution.go`; the sums and
differences of `int` values wrap to 64 bits, here and in its loops. -/
def solveGreedySimple (matrix : List (List Int)) (targets : List Int)
    (numButtons numCounters : Nat) : Int :=
  match greedyLoop matrix targets numButtons numCounters (List.range numCounters)
      (List.replicate numCounters 0, List.replicate numButtons 0) with
  | none => -1
  | some (counters, presses) =>
    if (List.range numCounters).any (fun i => counters.getD i 0 != targets.getD i 0) then -1
    else presses.foldl (fun total p => wrapInt (total + p)) 0

/-- The type of the two later strategies of the cascade, `solveJoltageGreedy`
and `solveWithFloatGaussian` (the latter computes in `float64`); they are
parameters of the embedding. -/
abbrev Strategy := List (List Int) → List Int → Nat → Nat → Int

/-- The function `solveMinJoltageInteger` of `day10/solution.go`. -/
def solveMinJoltageInteger (solveJoltageGreedy solveWithFloatGaussian : Strategy)
    (buttons : List (List Nat)) (targets : List Int) (numButtons numCounters : Nat) : Int :=
  let matrix := buildJoltageMatrix buttons numButtons numCounters
  let greedy := solveGreedySimple matrix targets numButtons numCounters
  if greedy ≥ 0 then greedy
  else
    let gaussian := solveJoltageGreedy matrix targets numButtons numCounters
    if gaussian ≥ 0 then gaussian
    else solveWithFloatGaussian matrix targets numButtons numCounters

/-- The function `SolveMinJoltage` of `day10/solution.go`. -/
def SolveMinJoltage (solveJoltageGreedy solveWithFloatGaussian : Strategy) (m : Machine) : Int :=
  let numCounters := m.Joltages.length
  let numButtons := m.Buttons.length
  if numButtons = 0 then
    if m.Joltages.any (fun t => t != 0) then -1 else 0
  else
    solveMinJoltageInteger solveJoltageGreedy solveWithFloatGaussian
      m.Buttons m.Joltages numButtons numCounters

/-! ### What the puzzle asks for -/

/-- Every button lists distinct indices below `n`. -/
def buttonsWellFormed (buttons : List (List Nat)) (n : Nat) : Prop :=
  ∀ b ∈ buttons, b.Nodup ∧ ∀ i ∈ b, i < n

instance (buttons : List (List Nat)) (n : Nat) : Decidable (buttonsWellFormed buttons n) := by
  unfold buttonsWellFormed; infer_instance

/-- State of light `i` after pressing once each button whose index is in
`pressed`, starting from all lights off. -/
def lightAfter (m : Machine) (pressed : List Nat) (i : Nat) : Bool :=
  (pressed.filter (fun j => (m.Buttons.getD j []).contains i)).length % 2 == 1

/-- The set `pressed` of buttons turns the all-off lights into `TargetLights`. -/
def reachesLights (m : Machine) (pressed : List Nat) : Prop :=
  pressed.Nodup ∧ (∀ j ∈ pressed, j < m.Buttons.length) ∧
    ∀ i < m.TargetLights.length, lightAfter m pressed i = m.TargetLights.getD i false

instance (m : Machine) (pressed : List Nat) : Decidable (reachesLights m pressed) := by
  unfold reachesLights; infer_instance

/-- Value of counter `i` after pressing button `j` exactly `presses[j]` times. -/
def counterAfter (m : Machine) (presses : List Nat) (i : Nat) : Int :=
  ((List.range m.Buttons.length).map
    (fun j => if (m.Buttons.getD j []).contains i then (presses.getD j 0 : Int) else 0)).sum

/-- The press counts `presses` make every counter equal its target joltage. -/
def reachesJoltages (m : Machine) (presses : List Nat) : Prop :=
  presses.length = m.Buttons.length ∧
    ∀ i < m.Joltages.length, counterAfter m presses i = m.Joltages.getD i 0

instance (m : Machine) (presses : List Nat) : Decidable (reachesJoltages m presses) := by
  unfold reachesJoltages; infer_instance

/-- A machine with one light that must stay off and 64 buttons wired to it. -/
def machine64off : Machine :=
  { TargetLights := [false], Buttons := List.replicate 64 [0], Joltages := [0] }

/-- A machine with one light that must be on and 64 buttons wired to it. -/
def machine64on : Machine :=
  { TargetLights := [true], Buttons := List.replicate 64 [0], Joltages := [1] }

/-- A machine with four counters on which the greedy strategy overspends. -/
def machineGreedy : Machine :=
  { TargetLights := [false, false, false, false]
    Buttons := [[0], [1, 2, 3], [0, 1], [2], [3]]
    Joltages := [1, 1, 1, 1] }

/-- A machine with one button per counter and both target joltages at the
largest `int`, the line `[..] (0) (1) {9223372036854775807,9223372036854775807}`. -/
def machineTwoMax : Machine :=
  { TargetLights := [false, false]
    Buttons := [[0], [1]]
    Joltages := [9223372036854775807, 9223372036854775807] }

/-- The character class `[.#]` of the pattern for the lights. -/
def isLightChar (ch : Char) : Bool := ch == '.' || ch == '#'

/-- The decimal digits `0` to `9`. -/
def isDigit (ch : Char) : Bool := decide (48 ≤ ch.toNat ∧ ch.toNat ≤ 57)

/-- The character class `[0-9,]` of the patterns for buttons and joltages. -/
def isNumChar (ch : Char) : Bool := isDigit ch || ch == ','

/-- A match of one of the patterns `\[([.#]+)\]`, `\(([0-9,]+)\)` and
`\{([0-9,]+)\}` of `ParseMachine` at the start of the text: the opening
character `o`, one or more characters of the class, the closing character `c`.
The class never holds the closing character, so the run of class characters
taken is the longest one.  The result is the captured group and the text after
the match. -/
def matchGroup (o c : Char) (cls : Char → Bool) (s : List Char) :
    Option (List Char × List Char) :=
  match s with
  | [] => none
  | h :: t =>
    if h = o then
      match t.dropWhile cls with
      | [] => none
      | x :: rest => if t.takeWhile cls ≠ [] ∧ x = c then some (t.takeWhile cls, rest) else none
    else none

/-- The method `FindStringSubmatch` of `regexp` for these patterns: the
leftmost match, as the captured group and the text after the match (`none`
when the pattern does not match). -/
def findSubmatch (o c : Char) (cls : Char → Bool) : List Char → Option (List Char × List Char)
  | [] => none
  | h :: t =>
    match matchGroup o c cls (h :: t) with
    | some r => some r
    | none => findSubmatch o c cls t

/-- The method `FindAllStringSubmatch` of `regexp` for these patterns: the
captured groups of the successive matches, each search starting where the
match before ended; `fuel` bounds the number of matches. -/
def findAllSubmatch (o c : Char) (cls : Char → Bool) : Nat → List Char → List (List Char)
  | 0, _ => []
  | fuel + 1, s =>
    match findSubmatch o c cls s with
    | none => []
    | some (group, rest) => group :: findAllSubmatch o c cls fuel rest

/-- The call `strings.Split(s, ",")`. -/
def splitComma : List Char → List (List Char)
  | [] => [[]]
  | ch :: rest =>
    if ch = ',' then [] :: splitComma rest
    else
      match splitComma rest with
      | [] => [[ch]]
      | piece :: pieces => (ch :: piece) :: pieces

/-- The white space of `unicode.IsSpace`. -/
def isSpace (ch : Char) : Bool :=
  decide ((9 ≤ ch.toNat ∧ ch.toNat ≤ 13) ∨ ch.toNat = 32 ∨ ch.toNat = 133 ∨ ch.toNat = 160 ∨
    ch.toNat = 5760 ∨ (8192 ≤ ch.toNat ∧ ch.toNat ≤ 8202) ∨ ch.toNat = 8232 ∨
    ch.toNat = 8233 ∨ ch.toNat = 8239 ∨ ch.toNat = 8287 ∨ ch.toNat = 12288)

/-- The function `strings.TrimSpace`. -/
def TrimSpace (s : List Char) : List Char :=
  ((s.dropWhile isSpace).reverse.dropWhile isSpace).reverse

/-- The number written by a string of decimal digits. -/
def decimalValue (ds : List Char) : Nat :=
  ds.foldl (fun acc ch => acc * 10 + (ch.toNat - 48)) 0

/-- The function `strconv.Atoi` for a 64-bit `int`: an optional sign and one
or more decimal digits; `none` is an error, either of syntax or because the
number does not fit in an `int`. -/
def Atoi (s : List Char) : Option Int :=
  let digits := if s.head? = some '+' ∨ s.head? = some '-' then s.tail else s
  if digits = [] then none
  else if digits.all isDigit then
    let v : Int := if s.head? = some '-' then -(decimalValue digits : Int) else decimalValue digits
    if -2 ^ 63 ≤ v ∧ v ≤ 2 ^ 63 - 1 then some v else none
  else none

/-- The loops of `ParseMachine` that split a captured group at its commas and
convert the pieces; `none` is the return of an error. -/
def parseNumbers (group : List Char) : Option (List Int) :=
  (splitComma group).foldl
    (fun (acc : Option (List Int)) numStr =>
      match acc with
      | none => none
      | some nums =>
        match Atoi (TrimSpace numStr) with
        | none => none
        | some num => some (nums ++ [num]))
    (some [])

/-- The loop of `ParseMachine` over the button matches; `none` is the return
of an error. -/
def parseButtons (buttonMatches : List (List Char)) : Option (List (List Int)) :=
  buttonMatches.foldl
    (fun (acc : Option (List (List Int))) group =>
      match acc with
      | none => none
      | some buttons =>
        match parseNumbers group with
        | none => none
        | some button => some (buttons ++ [button]))
    (some [])

/-- The function `ParseMachine` of `day10/types.go` on the characters of the
line; `none` is the return of an error.  The captured lights are ASCII, so the
byte offsets of the `range` loop are the positions in the string.  The button
entries are stored as naturals: the pattern only captures digits and commas,
so `Atoi` never returns a negative number here. -/
def ParseMachine (line : List Char) : Option Machine :=
  match findSubmatch '[' ']' isLightChar line with
  | none => none
  | some (lightsStr, _) =>
    let targetLights := lightsStr.map (fun ch => ch == '#')
    let buttonMatches := findAllSubmatch '(' ')' isNumChar line.length line
    match parseButtons buttonMatches with
    | none => none
    | some buttons =>
      match findSubmatch '{' '}' isNumChar line with
      | none =>
        some { TargetLights := targetLights
               Buttons := buttons.map (fun button => button.map Int.toNat)
               Joltages := [] }
      | some (group, _) =>
        match parseNumbers group with
        | none => none
        | some joltages =>
          some { TargetLights := targetLights
                 Buttons := buttons.map (fun button => button.map Int.toNat)
                 Joltages := joltages }

/-- The string is a decimal number: one or more decimal digits. -/
def isNumeral (ds : List Char) : Prop := ds ≠ [] ∧ ∀ ch ∈ ds, isDigit ch = true

instance (ds : List Char) : Decidable (isNumeral ds) := by
  unfold isNumeral
  infer_instance

/-- The numbers joined by commas. -/
def commaList : List (List Char) → List Char
  | [] => []
  | [n] => n
  | n :: m :: rest => n ++ ',' :: commaList (m :: rest)

/-- One parenthesised list of the line, after `b.1` spaces. -/
def groupText (b : Nat × List (List Char)) : List Char :=
  List.replicate b.1 ' ' ++ '(' :: (commaList b.2 ++ [')'])

/-- The line made of the bracketed pattern `p`, the parenthesised lists
`buttons` and the braced list `joltages`; each parenthesised list comes with
the number of spaces written before it, and `gap` spaces are written before
the brace. -/
def renderLine (p : List Char) (buttons : List (Nat × List (List Char))) (gap : Nat)
    (joltages : List (List Char)) : List Char :=
  '[' :: (p ++ ']' ::
    (buttons.flatMap groupText ++
      (List.replicate gap ' ' ++ '{' :: (commaList joltages ++ ['}']))))

end Day10

namespace Day3

/-- The expression `int(bank[i] - '0')`: the subtraction is on bytes and wraps
modulo 256. -/
def digitOf (b : Nat) : Int := ((b + 256 - 48) % 256 : Nat)

/-- The digit read at index `i` of the bank. -/
def digitAt (bank : List Nat) (i : Nat) : Int := digitOf (bank.getD i 0)

/-- The loop `for i := lo; i < hi; i++` that tracks `(maxDigit, maxIdx)`, both
starting at -1, and takes a digit only when it is strictly larger. -/
def scanMax (bank : List Nat) (lo hi : Nat) : Int × Int :=
  (List.range' lo (hi - lo)).foldl
    (fun (st : Int × Int) i => if digitAt bank i > st.1 then (digitAt bank i, (i : Int)) else st)
    (-1, -1)

/-- What the scanning loop has established after visiting `n` indices from
`lo`: nothing yet, or the first position of the largest digit seen. -/
def ScanInv (bank : List Nat) (lo n : Nat) (st : Int × Int) : Prop :=
  (n = 0 ∧ st = (-1, -1)) ∨
  (∃ idx : Nat, st.2 = (idx : Int) ∧ lo ≤ idx ∧ idx < lo + n ∧ st.1 = digitAt bank idx ∧
    (∀ i, lo ≤ i → i < lo + n → digitAt bank i ≤ st.1) ∧
    (∀ i, lo ≤ i → i < idx → digitAt bank i < st.1))

/-- The function `findMaxJoltage` of `day3/part1.go`. -/
def findMaxJoltage (bank : List Nat) : Int :=
  if bank.length < 2 then 0
  else
    let first := scanMax bank 0 bank.length
    let maxDigit := first.1
    let maxIdx := first.2
    if maxIdx = (bank.length : Int) - 1 then
      let secondMax := (scanMax bank 0 maxIdx.toNat).1
      secondMax * 10 + maxDigit
    else
      let secondMax := (scanMax bank (maxIdx + 1).toNat bank.length).1
      maxDigit * 10 + secondMax

/-- The selection loop of `findMaxJoltage12`; `remaining` is
`numDigits - len(selected)`. -/
def selectLoop (bank : List Nat) : (remaining : Nat) → (startIdx : Nat) → List Int → List Int
  | 0, _, selected => selected
  | remaining + 1, startIdx, selected =>
    let searchEnd := bank.length - (remaining + 1) + 1
    let found := scanMax bank startIdx searchEnd
    selectLoop bank remaining (found.2 + 1).toNat (selected ++ [found.1])

/-- The conversion `result = result*10 + digit` over the selected digits. -/
def digitsToNumber (selected : List Int) : Int :=
  selected.foldl (fun result digit => result * 10 + digit) 0

/-- The function `findMaxJoltage12` of `day3/part2.go`. -/
def findMaxJoltage12 (bank : List Nat) : Int :=
  if bank.length < 12 then 0
  else digitsToNumber (selectLoop bank 12 0 [])

/-- Positional value of a list of decimal digits, most significant first. -/
def positional : List Int → Int
  | [] => 0
  | d :: rest => d * 10 ^ rest.length + positional rest

/-- The number written by a string of digit bytes. -/
def decimalValue (s : List Nat) : Int := positional (s.map (fun (b : Nat) => (b : Int) - 48))

/-- The bank is a string of decimal digits (bytes `'0'` to `'9'`). -/
def isDigitString (bank : List Nat) : Prop := ∀ b ∈ bank, 48 ≤ b ∧ b ≤ 57

instance (bank : List Nat) : Decidable (isDigitString bank) := by
  unfold isDigitString; infer_instance

end Day3

namespace Day1

/-- The `Rotation` struct of `day1/parser.go`. -/
structure Rotation where
  Direction : Char
  Distance : Int

/-- The function `applyRotation` of `day1/counter.go`; `%` is Go's truncated
remainder, and the sum or difference wraps to 64 bits. -/
def applyRotation (r : Rotation) (position : Int) : Int :=
  let newPos :=
    if r.Direction = 'L' then wrapInt (position - r.Distance) else wrapInt (position + r.Distance)
  let newPos := newPos.tmod 100
  if newPos < 0 then newPos + 100 else newPos

/-- The function `countZeroCrossings` of `day1/counter.go`; `/` is Go's
truncated division, and every sum or difference wraps to 64 bits. -/
def countZeroCrossings (r : Rotation) («from» : Int) : Int :=
  if r.Direction = 'L' then
    if «from» = 0 then r.Distance.tdiv 100
    else if r.Distance ≥ «from» then wrapInt (1 + (wrapInt (r.Distance - «from»)).tdiv 100)
    else 0
  else
    (wrapInt («from» + r.Distance)).tdiv 100

/-- The position of the 100-position dial after `k` single clicks in the
direction `dir` from `start`. -/
def dialAfter (dir : Char) (start : Int) (k : Nat) : Int :=
  if dir = 'L' then (start - (k : Int)) % 100 else (start + (k : Int)) % 100

/-- Number of single-click steps `k` in `1..distance` after which the dial,
moved `k` clicks in direction `dir` from `start`, points at 0. -/
def clicksAtZero (dir : Char) (start : Int) (distance : Nat) : Nat :=
  ((List.range distance).filter (fun (k : Nat) => dialAfter dir start (k + 1) == 0)).length

end Day1

namespace Day2

/-- The decimal text `strconv.Itoa(id)` of the Go standard library. -/
def Itoa (id : Int) : List Char :=
  if id < 0 then '-' :: Nat.toDigits 10 id.natAbs else Nat.toDigits 10 id.toNat

/-- The method `ExactlyTwiceValidator.IsInvalid` of `day2/validator.go`. -/
def ExactlyTwiceValidator_IsInvalid (id : Int) : Bool :=
  let s := Itoa id
  if s.length % 2 ≠ 0 then false
  else if s.head? = some '0' then false
  else
    let mid := s.length / 2
    s.take mid == s.drop mid

/-- The inner loop `for i := patternLen; i < n; i += patternLen` of
`AtLeastTwiceValidator.IsInvalid`: the value of `isRepeating`. -/
def isRepeatingFrom (s : List Char) (patternLen : Nat) : (fuel : Nat) → (i : Nat) → Bool
  | 0, _ => true
  | fuel + 1, i =>
    if i < s.length then
      if (s.drop i).take patternLen ≠ s.take patternLen then false
      else isRepeatingFrom s patternLen fuel (i + patternLen)
    else true

/-- The method `AtLeastTwiceValidator.IsInvalid` of `day2/validator.go`. -/
def AtLeastTwiceValidator_IsInvalid (id : Int) : Bool :=
  let s := Itoa id
  if s.head? = some '0' then false
  else
    let n := s.length
    (List.range (n / 2)).any (fun k =>
      let patternLen := k + 1
      decide (n % patternLen = 0) && isRepeatingFrom s patternLen n patternLen)

end Day2

namespace Day4

/-- The eight direction vectors `[rowOffset, colOffset]`. -/
def directions : List (Int × Int) :=
  [(-1, -1), (-1, 0), (-1, 1), (0, -1), (0, 1), (1, -1), (1, 0), (1, 1)]

/-- The bounds check followed by `grid[newRow][newCol] == '@'`. -/
def isRollAt (grid : List (List Char)) (newRow newCol : Int) : Bool :=
  decide (newRow ≥ 0) && decide (newRow < grid.length) &&
  decide (newCol ≥ 0) && decide (newCol < (grid.getD newRow.toNat []).length) &&
  ((grid.getD newRow.toNat []).getD newCol.toNat ' ' == '@')

/-- The function `isAccessible` of `day4/part1.go` (and its copy
`isAccessibleMutable` of `day4/part2.go`, which has the same body). -/
def isAccessible (grid : List (List Char)) (row col : Nat) : Bool :=
  let adjacentCount :=
    (directions.filter (fun dir => isRollAt grid ((row : Int) + dir.1) ((col : Int) + dir.2))).length
  decide (adjacentCount < 4)

/-- The cells visited by the nested loops `for row ... for col ...`, in order. -/
def allCells (grid : List (List Char)) : List (Nat × Nat) :=
  (List.range grid.length).flatMap
    (fun row => (List.range (grid.getD row []).length).map (fun col => (row, col)))

/-- The byte `grid[row][col]`. -/
def charAt (grid : List (List Char)) (row col : Nat) : Char := (grid.getD row []).getD col ' '

/-- The counting loop of `Part1` of `day4/part1.go`, on the parsed grid. -/
def Part1 (grid : List (List Char)) : Nat :=
  (allCells grid).foldl
    (fun count p => if charAt grid p.1 p.2 = '@' ∧ isAccessible grid p.1 p.2 = true then count + 1 else count)
    0

/-- The function `findAccessibleRolls` of `day4/part2.go`. -/
def findAccessibleRolls (grid : List (List Char)) : List (Nat × Nat) :=
  (allCells grid).filter (fun p => charAt grid p.1 p.2 == '@' && isAccessible grid p.1 p.2)

/-- One removal, `grid[pos.row][pos.col] = '.'`. -/
def removeOne (g : List (List Char)) (pos : Nat × Nat) : List (List Char) :=
  g.set pos.1 ((g.getD pos.1 []).set pos.2 '.')

/-- The batch removal `grid[pos.row][pos.col] = '.'` for every position. -/
def removeRolls (grid : List (List Char)) (accessible : List (Nat × Nat)) : List (List Char) :=
  accessible.foldl (fun g pos => g.set pos.1 ((g.getD pos.1 []).set pos.2 '.')) grid

/-- The removal loop of `Part2` of `day4/part2.go`, run for at most `fuel`
iterations: the final grid and `totalRemoved`, or `none` when the loop has not
stopped yet. -/
def removalLoop : (fuel : Nat) → List (List Char) → Nat → Option (List (List Char) × Nat)
  | 0, _, _ => none
  | fuel + 1, grid, totalRemoved =>
    let accessible := findAccessibleRolls grid
    if accessible.length = 0 then some (grid, totalRemoved)
    else removalLoop fuel (removeRolls grid accessible) (totalRemoved + accessible.length)

/-- Number of `'@'` cells of a grid. -/
def countRolls (grid : List (List Char)) : Nat :=
  (grid.map (fun line => line.count '@')).sum

/-- The function `Part2` of `day4/part2.go` on the parsed grid; the loop is
given one iteration more than there are rolls. -/
def Part2 (grid : List (List Char)) : Option Nat :=
  (removalLoop (countRolls grid + 1) grid 0).map (fun r => r.2)

/-- Number of in-bounds neighbours (horizontal, vertical, diagonal) of
`(row, col)` that hold `'@'`. -/
def adjacentRolls (grid : List (List Char)) (row col : Nat) : Nat :=
  ((allCells grid).filter (fun p =>
    decide (p ≠ (row, col)) &&
    decide (((p.1 : Int) - row).natAbs ≤ 1) && decide (((p.2 : Int) - col).natAbs ≤ 1) &&
    (charAt grid p.1 p.2 == '@'))).length

/-- The example grid of `day4/example_test.go`. -/
def exampleGrid : List (List Char) :=
  ["..@@.@@@@.", "@@@.@.@.@@", "@@@@@.@.@@", "@.@@@@..@.", "@@.@@@@.@@",
   ".@@@@@@@.@", ".@.@.@.@@@", "@.@@@.@@@@", ".@@@@@@@@.", "@.@.@@@.@."].map String.toList

end Day4

namespace Day5

/-- Modelled from the spec: the `Range` struct of package `day5`, whose
declaration is not among the sources; `mergeRanges` and `Part2` read its
integer fields `Start` and `End`, the inclusive ends of the range. -/
structure Range where
  Start : Int
  End : Int
deriving DecidableEq, Repr

/-- Modelled from the spec: the method `Range.Contains` used by `isFresh`,
whose declaration is not among the sources: the id lies in the range, both
ends included. -/
def Range.Contains (r : Range) (id : Int) : Bool := decide (r.Start ≤ id) && decide (id ≤ r.End)

/-- The function `isFresh` of `day5/part1.go`. -/
def isFresh (id : Int) (ranges : List Range) : Bool := ranges.any (fun r => r.Contains id)

/-- The merging loop of `mergeRanges`.  The slice `merged` is never empty; it
is kept as the ranges before its last element (`done`) and the last element
(`last`), which the loop extends in place.  The sum `last.End+1` wraps to 64
bits. -/
def mergeLoop : List Range → List Range → Range → List Range
  | [], done, last => done ++ [last]
  | current :: rest, done, last =>
    if current.Start ≤ wrapInt (last.End + 1) then
      if current.End > last.End then mergeLoop rest done { last with End := current.End }
      else mergeLoop rest done last
    else mergeLoop rest (done ++ [last]) current

/-- What the merging loop keeps true: the ranges put aside and the range
being extended are well formed and separated by gaps. -/
def MergeInv (done : List Range) (last : Range) : Prop :=
  (done ++ [last]).Chain' (fun a b => a.End + 1 < b.Start) ∧
    ∀ r ∈ done ++ [last], r.Start ≤ r.End

/-- The function `mergeRanges` of `day5/part2.go`.  `sortSlice` stands for the
library call `sort.Slice(sorted, less)` with `less` comparing `Start`: it
returns the ranges in some order in which no range has a smaller `Start` than
a range before it. -/
def mergeRanges (sortSlice : List Range → List Range) (ranges : List Range) : List Range :=
  if ranges.length = 0 then []
  else
    match sortSlice ranges with
    | [] => []
    | first :: rest => mergeLoop rest [] first

/-- The function `Part2` of `day5/part2.go` on the parsed ranges; every sum
and difference wraps to 64 bits. -/
def Part2 (sortSlice : List Range → List Range) (ranges : List Range) : Int :=
  (mergeRanges sortSlice ranges).foldl
    (fun totalCount r => wrapInt (totalCount + wrapInt (wrapInt (r.End - r.Start) + 1))) 0

/-- An insertion sort by `Start`, one admissible behaviour of `sort.Slice`. -/
def sortByStart (ranges : List Range) : List Range :=
  ranges.insertionSort (fun a b => a.Start ≤ b.Start)

/-- The integers that lie (inclusively) in at least one of the ranges. -/
def covered (ranges : List Range) : Finset Int :=
  ranges.foldr (fun r s => Finset.Icc r.Start r.End ∪ s) ∅

/-- The range from 0 to the largest `int`, and a range inside it. -/
def rangesUpToMax : List Range := [⟨0, 9223372036854775807⟩, ⟨5, 10⟩]

/-- The range that holds only the largest `int`, listed twice. -/
def rangesAtMax : List Range :=
  [⟨9223372036854775807, 9223372036854775807⟩, ⟨9223372036854775807, 9223372036854775807⟩]

end Day5

namespace Day9

/-- The `Point` struct of `day9/types.go`. -/
structure Point where
  X : Int
  Y : Int
deriving DecidableEq, Repr

/-- The function `abs` of `day9/types.go`. -/
def abs (x : Int) : Int := if x < 0 then -x else x

/-- The function `min` of `day9/types.go`. -/
def min (a b : Int) : Int := if a < b then a else b

/-- The function `max` of `day9/types.go`. -/
def max (a b : Int) : Int := if a > b then a else b

/-- The method `Point.RectangleArea` of `day9/types.go`; every difference,
negation, sum and product wraps to 64 bits. -/
def Point.RectangleArea (p other : Point) : Int :=
  let width := wrapInt (wrapInt (abs (wrapInt (p.X - other.X))) + 1)
  let height := wrapInt (wrapInt (abs (wrapInt (p.Y - other.Y))) + 1)
  wrapInt (width * height)

/-- The number of tiles in the inclusive rectangle with `p` and `q` as
opposite corners, `(|p.X - q.X| + 1) * (|p.Y - q.Y| + 1)`. -/
def tiles (p q : Point) : Int :=
  (((p.X - q.X).natAbs : Int) + 1) * (((p.Y - q.Y).natAbs : Int) + 1)

/-- The pairs `(l[i], l[j])` with `i < j`, in the order of the nested loops
`for i := 0 ...; for j := i + 1 ...`. -/
def orderedPairs {α : Type} : List α → List (α × α)
  | [] => []
  | a :: rest => rest.map (fun b => (a, b)) ++ orderedPairs rest

/-- The function `Part1` of `day9/part1.go` on the parsed points; `none` is the
error return for fewer than 2 points. -/
def Part1 (points : List Point) : Option Int :=
  if points.length < 2 then none
  else
    some ((orderedPairs points).foldl
      (fun maxArea pq =>
        let area := pq.1.RectangleArea pq.2
        if area > maxArea then area else maxArea)
      0)

/-- The values `lo, lo+1, ..., hi` visited by `for v := lo; v <= hi; v++`. -/
def intRange (lo hi : Int) : List Int :=
  (List.range (hi - lo + 1).toNat).map (fun (k : Nat) => lo + (k : Int))

/-- The function `addLineTiles` of `day9/solution.go`; the map is kept as the
list of its keys (all are set to `true`), newest first. -/
def addLineTiles (greenTiles : List Point) («from» «to» : Point) : List Point :=
  if «from».X = «to».X then
    (intRange (min «from».Y «to».Y) (max «from».Y «to».Y)).foldl
      (fun g y =>
        let p : Point := { X := «from».X, Y := y }
        if p ≠ «from» ∧ p ≠ «to» then p :: g else g)
      greenTiles
  else if «from».Y = «to».Y then
    (intRange (min «from».X «to».X) (max «from».X «to».X)).foldl
      (fun g x =>
        let p : Point := { X := x, Y := «from».Y }
        if p ≠ «from» ∧ p ≠ «to» then p :: g else g)
      greenTiles
  else greenTiles

/-- The point `polygon[i]` (the index is always in range in the source). -/
def pointAt (polygon : List Point) (i : Nat) : Point := polygon.getD i { X := 0, Y := 0 }

/-- The function `isInsidePolygon` of `day9/solution.go`; `/` is Go's
truncated division and `&&` does not evaluate its right side when the left
side is false (so no division by zero happens). -/
def isInsidePolygon (point : Point) (polygon : List Point) : Bool :=
  let n := polygon.length
  (List.range n).foldl
    (fun inside i =>
      let j := (i + 1) % n
      let p1 := pointAt polygon i
      let p2 := pointAt polygon j
      if (decide (p1.Y > point.Y) != decide (p2.Y > point.Y)) &&
          decide (point.X < ((p2.X - p1.X) * (point.Y - p1.Y)).tdiv (p2.Y - p1.Y) + p1.X) then
        !inside
      else inside)
    false

/-- The edge loop shared by `BuildGreenTiles`, `Part2` and `Part2BruteForce`:
`addLineTiles` from every tile to the next one, wrapping around. -/
def buildEdgeTiles (tiles : List Point) : List Point :=
  let n := tiles.length
  (List.range n).foldl
    (fun g i => addLineTiles g (pointAt tiles i) (pointAt tiles ((i + 1) % n)))
    []

/-- The bounding-box fold `minX = min(minX, p.X)` and its three siblings of
`BuildGreenTiles`: `(minX, maxX, minY, maxY)`. -/
def boundingBox (redTiles : List Point) : Int × Int × Int × Int :=
  let first := pointAt redTiles 0
  redTiles.foldl
    (fun (b : Int × Int × Int × Int) p =>
      (min b.1 p.X, max b.2.1 p.X, min b.2.2.1 p.Y, max b.2.2.2 p.Y))
    (first.X, first.X, first.Y, first.Y)

/-- The points `{x, y}` visited by `for x := x0..x1 { for y := y0..y1 }`, in
order. -/
def gridPoints (x0 x1 y0 y1 : Int) : List Point :=
  (intRange x0 x1).flatMap (fun x => (intRange y0 y1).map (fun y => ({ X := x, Y := y } : Point)))

/-- The function `BuildGreenTiles` of `day9/solution.go`; the returned map is
the list of its keys. -/
def BuildGreenTiles (redTiles : List Point) : List Point :=
  let greenTiles := buildEdgeTiles redTiles
  if redTiles.length = 0 then greenTiles
  else
    let b := boundingBox redTiles
    (gridPoints b.1 b.2.1 b.2.2.1 b.2.2.2).foldl
      (fun g p =>
        if g.contains p then g
        else if redTiles.contains p then g
        else if isInsidePolygon p redTiles then p :: g
        else g)
      greenTiles

/-- The closure `isValid` of `isRectangleValid`: the answer and the cache
after the call.  A read-only map is its lookup function; the cache maps a
point to its stored answer, if any. -/
def isValid (redSet edgeTiles : Point → Bool) (polygon : List Point)
    (cache : Point → Option Bool) (p : Point) : Bool × (Point → Option Bool) :=
  if redSet p || edgeTiles p then (true, cache)
  else
    match cache p with
    | some result => (result, cache)
    | none =>
      let result := isInsidePolygon p polygon
      (result, fun q => if q = p then some result else cache q)

/-- A loop `for p in pts { if !isValid(p) { return false } }`: whether it ran
to the end, and the cache when it stopped. -/
def checkTiles (redSet edgeTiles : Point → Bool) (polygon : List Point) :
    List Point → (Point → Option Bool) → Bool × (Point → Option Bool)
  | [], cache => (true, cache)
  | p :: rest, cache =>
    let r := isValid redSet edgeTiles polygon cache p
    if !r.1 then (false, r.2) else checkTiles redSet edgeTiles polygon rest r.2

/-- The tiles tested by the loop over the top and bottom edges, in order:
`{x, minY}` then `{x, maxY}` for every `x`. -/
def topBottomTiles (minX maxX minY maxY : Int) : List Point :=
  (intRange minX maxX).flatMap (fun x => [({ X := x, Y := minY } : Point), { X := x, Y := maxY }])

/-- The tiles tested by the loop over the left and right edges, in order:
`{minX, y}` then `{maxX, y}` for `minY < y < maxY`. -/
def leftRightTiles (minX maxX minY maxY : Int) : List Point :=
  (intRange (minY + 1) (maxY - 1)).flatMap
    (fun y => [({ X := minX, Y := y } : Point), { X := maxX, Y := y }])

/-- The function `isRectangleValid` of `day9/solution.go`: the answer and the
cache after the call.  Each of its loops returns `false` at the first invalid
tile, so the loops that follow one another test the concatenation of their
tiles. -/
def isRectangleValid (p1 p2 : Point) (redSet edgeTiles : Point → Bool) (polygon : List Point)
    (cache : Point → Option Bool) : Bool × (Point → Option Bool) :=
  let minX := min p1.X p2.X
  let maxX := max p1.X p2.X
  let minY := min p1.Y p2.Y
  let maxY := max p1.Y p2.Y
  let width := maxX - minX + 1
  let height := maxY - minY + 1
  let area := width * height
  if area ≤ 1000 then
    checkTiles redSet edgeTiles polygon (gridPoints minX maxX minY maxY) cache
  else
    let border := topBottomTiles minX maxX minY maxY ++ leftRightTiles minX maxX minY maxY
    if area > 5000 then
      checkTiles redSet edgeTiles polygon border cache
    else
      checkTiles redSet edgeTiles polygon
        (border ++ gridPoints (minX + 1) (maxX - 1) (minY + 1) (maxY - 1)) cache

/-- A tile is valid: it is a red tile, an edge tile, or inside the polygon
according to `isInsidePolygon`. -/
def tileValid (redSet edgeTiles : Point → Bool) (polygon : List Point) (p : Point) : Prop :=
  redSet p = true ∨ edgeTiles p = true ∨ isInsidePolygon p polygon = true

instance (redSet edgeTiles : Point → Bool) (polygon : List Point) (p : Point) :
    Decidable (tileValid redSet edgeTiles polygon p) := by
  unfold tileValid; infer_instance

/-- The pair loop of `Part2BruteForce` (`day9/part2_bruteforce.go`) on the
parsed tiles: `maxArea`, with the polygon cache threaded through the calls;
`none` is the error return for fewer than 2 tiles. -/
def Part2BruteForce (redTiles : List Point) : Option Int :=
  if redTiles.length < 2 then none
  else
    let redSet := fun p => redTiles.contains p
    let edges := buildEdgeTiles redTiles
    let edgeTiles := fun p => edges.contains p
    some ((orderedPairs redTiles).foldl
      (fun (st : Int × (Point → Option Bool)) pq =>
        let r := isRectangleValid pq.1 pq.2 redSet edgeTiles redTiles st.2
        if r.1 then
          let area := pq.1.RectangleArea pq.2
          (if area > st.1 then area else st.1, r.2)
        else (st.1, r.2))
      (0, fun _ => none)).1

/-- Insertion of a value into a strictly increasing list, keeping it strictly
increasing (a value already present is not repeated). -/
def insertCoord (v : Int) : List Int → List Int
  | [] => [v]
  | a :: rest => if v < a then v :: a :: rest else if v = a then a :: rest else a :: insertCoord v rest

/-- The distinct values of a coordinate in increasing order: the key set of
`xSet` (or `ySet`) after `sort.Ints`. -/
def sortedCoords (vs : List Int) : List Int := vs.foldl (fun acc v => insertCoord v acc) []

/-- The map `xToCompressed` (or `yToCompressed`): the rank of a value in the
sorted coordinates. -/
def toCompressed (coords : List Int) (v : Int) : Int := (coords.indexOf v : Nat)

/-- The function `isRectangleValidCompressed` of `day9/part2.go`. -/
def isRectangleValidCompressed (p1 p2 : Point) (interior : Point → Bool) : Bool :=
  let minX := min p1.X p2.X
  let maxX := max p1.X p2.X
  let minY := min p1.Y p2.Y
  let maxY := max p1.Y p2.Y
  (gridPoints minX maxX minY maxY).all (fun p => interior p)

/-- The function `Part2` of `day9/part2.go` on the parsed tiles; `none` is the
error return for fewer than 2 tiles. -/
def Part2 (redTiles : List Point) : Option Int :=
  if redTiles.length < 2 then none
  else
    let xCoords := sortedCoords (redTiles.map (fun p => p.X))
    let yCoords := sortedCoords (redTiles.map (fun p => p.Y))
    let compressedRed := redTiles.map
      (fun p => ({ X := toCompressed xCoords p.X, Y := toCompressed yCoords p.Y } : Point))
    let edges := buildEdgeTiles compressedRed
    let cells := gridPoints 0 ((xCoords.length : Int) - 1) 0 ((yCoords.length : Int) - 1)
    let interiorList := cells.filter
      (fun p => compressedRed.contains p || edges.contains p || isInsidePolygon p compressedRed)
    let interior := fun p => interiorList.contains p
    some ((orderedPairs (List.zip compressedRed redTiles)).foldl
      (fun maxArea pq =>
        if isRectangleValidCompressed pq.1.1 pq.2.1 interior then
          let area := pq.1.2.RectangleArea pq.2.2
          if area > maxArea then area else maxArea
        else maxArea)
      0)

/-- The example polygon of `day9/part2_test.go`. -/
def examplePolygon : List Point :=
  [⟨7, 1⟩, ⟨11, 1⟩, ⟨11, 7⟩, ⟨9, 7⟩, ⟨9, 5⟩, ⟨2, 5⟩, ⟨2, 3⟩, ⟨7, 3⟩]

/-- A closed rectilinear polygon with a notch two tiles wide cut from its top
side. -/
def notchPolygon : List Point :=
  [⟨0, 0⟩, ⟨4, 0⟩, ⟨4, 2⟩, ⟨3, 2⟩, ⟨3, 1⟩, ⟨1, 1⟩, ⟨1, 2⟩, ⟨0, 2⟩]

/-- The outline of the square with corners (0,0) and (70,70), walked twice. -/
def doubleSquare : List Point :=
  [⟨0, 0⟩, ⟨70, 0⟩, ⟨70, 70⟩, ⟨0, 70⟩, ⟨0, 0⟩, ⟨70, 0⟩, ⟨70, 70⟩, ⟨0, 70⟩]

end Day9

namespace Day25

/-- The type `Node` of `day25/types.go`. -/
abbrev Node := String

/-- The type `Graph` of `day25/types.go`, `map[Node]map[Node]int`.  A map is
kept as the list of its entries; a loop over the map visits them in list order
(Go leaves that order unspecified). -/
abbrev Graph := List (Node × List (Node × Int))

/-- The inner map `graph[node]` (empty when the node has no entry). -/
def edgesOf (graph : Graph) (node : Node) : List (Node × Int) :=
  (graph.lookup node).getD []

/-- The method `Node.IsReactor` of `day25/types.go`. -/
def IsReactor (n : Node) : Bool := "REACTOR_".toList.isPrefixOf n.toList

/-- The method `Graph.GetReactors` of `day25/types.go`; a node is in `seen`
exactly when it has been appended to `reactors`. -/
def GetReactors (g : Graph) : List Node :=
  g.foldl
    (fun reactors entry =>
      let reactors1 :=
        if IsReactor entry.1 && !reactors.contains entry.1 then reactors ++ [entry.1] else reactors
      entry.2.foldl
        (fun rs e => if IsReactor e.1 && !rs.contains e.1 then rs ++ [e.1] else rs)
        reactors1)
    []

/-- The memo table `map[Node]*big.Int`: its entries, newest first. -/
abbrev Memo := List (Node × Nat)

/-- The function `CountPathsDAG` of `day25/pathcount.go`, with the depth of
the recursion bounded by `fuel` (`none` when the bound is hit): the count and
the memo table after the call. -/
def CountPathsDAG (graph : Graph) (target : Node) : Nat → Node → Memo → Option (Nat × Memo)
  | 0, _, _ => none
  | fuel + 1, start, memo =>
    if start = target then some (1, memo)
    else
      match memo.lookup start with
      | some count => some (count, memo)
      | none =>
        let r := (edgesOf graph start).foldl
          (fun (acc : Option (Nat × Memo)) neighbor =>
            match acc with
            | none => none
            | some (totalPaths, m) =>
              match CountPathsDAG graph target fuel neighbor.1 m with
              | none => none
              | some (paths, m1) => some (totalPaths + paths, m1))
          (some (0, memo))
        match r with
        | none => none
        | some (totalPaths, m) => some (totalPaths, (start, totalPaths) :: m)

/-- The function `CountAllPathsToReactors` of `day25/pathcount.go`, each call
of `CountPathsDAG` being given the recursion bound `fuel`. -/
def CountAllPathsToReactors (graph : Graph) (fuel : Nat) : Option Nat :=
  let reactors := GetReactors graph
  if reactors.length = 0 then some 0
  else
    (reactors.foldl
      (fun (acc : Option (Nat × Memo)) reactor =>
        match acc with
        | none => none
        | some (totalPaths, memo) =>
          match CountPathsDAG graph reactor fuel "START" memo with
          | none => none
          | some (paths, memo1) => some (totalPaths + paths, memo1))
      (some (0, []))).map (fun r => r.1)

/-- The directed paths (as node sequences) from `start` to `target` with at
most `fuel` edges. -/
def pathsTo (graph : Graph) (target : Node) : Nat → Node → List (List Node)
  | 0, start => if start = target then [[start]] else []
  | fuel + 1, start =>
    if start = target then [[start]]
    else (edgesOf graph start).flatMap
      (fun e => (pathsTo graph target fuel e.1).map (fun p => start :: p))

/-- A DAG with two reactors: one path leads from START to REACTOR_A and two
lead to REACTOR_B. -/
def twoReactors : Graph :=
  [("START", [("REACTOR_A", 1), ("M", 1), ("REACTOR_B", 1)]), ("M", [("REACTOR_B", 1)])]

/-- The same DAG as `twoReactors`, with the entries of START in another
order. -/
def twoReactorsSwapped : Graph :=
  [("START", [("REACTOR_B", 1), ("M", 1), ("REACTOR_A", 1)]), ("M", [("REACTOR_B", 1)])]

/-- The struct `DijkstraState` of `day25/dijkstra.go`; the field `index` is
only written by the queue and is left out. -/
structure DijkstraState where
  node : Node
  dist : Int
deriving DecidableEq

/-- The type `PriorityQueue` of `day25/dijkstra.go`, a slice of states. -/
abbrev PriorityQueue := List DijkstraState

/-- The contract of `heap.Push` and `heap.Pop` of the standard library for a
queue whose `Less` compares the field `dist`: on the slices that satisfy the
heap invariant `isHeap`, `heap.Push` adds the state, and `heap.Pop` removes and
returns a state that no other state of the queue is `Less` than. -/
structure HeapLaws (heapPush : PriorityQueue → DijkstraState → PriorityQueue)
    (heapPop : PriorityQueue → Option (DijkstraState × PriorityQueue))
    (isHeap : PriorityQueue → Prop) : Prop where
  empty : isHeap []
  push : ∀ q s, isHeap q → isHeap (heapPush q s) ∧ (heapPush q s).Perm (s :: q)
  pop : ∀ q, isHeap q → q ≠ [] →
    ∃ s rest, heapPop q = some (s, rest) ∧ isHeap rest ∧ (s :: rest).Perm q ∧
      ∀ t ∈ q, s.dist ≤ t.dist

/-- The local variables of `Dijkstra`: the maps `dist` and `visited` (the
keys set to true) and the queue `pq`. -/
structure LoopState where
  dist : Node → Option Int
  pq : PriorityQueue
  visited : List Node

/-- The assignment `dist[k] = d`. -/
def setDist (dist : Node → Option Int) (k : Node) (d : Int) : Node → Option Int :=
  fun v => if v = k then some d else dist v

/-- The body of the loop over `graph[current]` in `Dijkstra`, for the entry
`edge` (neighbor and edge cost); the sum `dist[current] + edgeCost` wraps to
64 bits. -/
def exploreStep (heapPush : PriorityQueue → DijkstraState → PriorityQueue) (current : Node)
    (st : LoopState) (edge : Node × Int) : LoopState :=
  if edge.1 ∈ st.visited then st
  else
    let newDist := wrapInt ((st.dist current).getD 0 + edge.2)
    let ok := (st.dist edge.1).isSome
    let oldDist := (st.dist edge.1).getD 0
    if !ok || decide (newDist < oldDist) then
      { st with
        dist := setDist st.dist edge.1 newDist
        pq := heapPush st.pq { node := edge.1, dist := newDist } }
    else st

/-- The loop `for pq.Len() > 0` of `Dijkstra`, with the number of iterations
bounded by `fuel` (`none` when the bound is hit, or when `heap.Pop` fails). -/
def dijkstraLoop (heapPush : PriorityQueue → DijkstraState → PriorityQueue)
    (heapPop : PriorityQueue → Option (DijkstraState × PriorityQueue)) (graph : Graph) :
    Nat → LoopState → Option LoopState
  | 0, _ => none
  | fuel + 1, st =>
    if st.pq.length > 0 then
      match heapPop st.pq with
      | none => none
      | some (state, pq1) =>
        let current := state.node
        if current ∈ st.visited then
          dijkstraLoop heapPush heapPop graph fuel { st with pq := pq1 }
        else
          dijkstraLoop heapPush heapPop graph fuel
            ((edgesOf graph current).foldl (exploreStep heapPush current)
              { st with pq := pq1, visited := current :: st.visited })
    else some st

/-- The function `Dijkstra` of `day25/dijkstra.go`: the map `dist` returned,
`heap.Push` and `heap.Pop` being given and the loop running for at most `fuel`
iterations. -/
def Dijkstra (heapPush : PriorityQueue → DijkstraState → PriorityQueue)
    (heapPop : PriorityQueue → Option (DijkstraState × PriorityQueue)) (graph : Graph)
    (start : Node) (fuel : Nat) : Option (Node → Option Int) :=
  (dijkstraLoop heapPush heapPop graph fuel
    { dist := setDist (fun _ => none) start 0
      pq := heapPush [] { node := start, dist := 0 }
      visited := [] }).map (fun st => st.dist)

/-- There is a path from `start` to the node, following entries of the
graph, of the given total cost. -/
inductive IsPath (graph : Graph) (start : Node) : Node → Int → Prop
  | nil : IsPath graph start start 0
  | snoc (v w : Node) (c e : Int) :
      IsPath graph start v c → (w, e) ∈ edgesOf graph v → IsPath graph start w (c + e)

/-- The number of entries of the inner maps of the graph. -/
def edgeCount (graph : Graph) : Nat := (graph.map (fun entry => entry.2.length)).sum

/-- The number of entries of the inner maps of the nodes not yet visited. -/
def remaining (graph : Graph) (visited : List Node) : Nat :=
  ((graph.filter (fun entry => decide (entry.1 ∉ visited))).map
    (fun entry => entry.2.length)).sum

/-- The edges `es` out of the visited node `u` have been followed: the
distance of their target is at most the distance of `u` plus the cost. -/
def Relaxed (st : LoopState) (u : Node) (es : List (Node × Int)) : Prop :=
  ∀ w e, (w, e) ∈ es →
    ∃ du dw, st.dist u = some du ∧ st.dist w = some dw ∧ dw ≤ du + e

/-- What holds of the local variables of `Dijkstra` at every iteration. -/
structure Core (graph : Graph) (start : Node) (isHeap : PriorityQueue → Prop)
    (st : LoopState) : Prop where
  heap : isHeap st.pq
  path : ∀ v d, st.dist v = some d → IsPath graph start v d
  startZero : st.dist start = some 0
  visDist : ∀ u, u ∈ st.visited → ∃ d, st.dist u = some d
  pqHas : ∀ v d, v ∉ st.visited → st.dist v = some d →
    ({ node := v, dist := d } : DijkstraState) ∈ st.pq
  pqGe : ∀ s, s ∈ st.pq → ∃ d, st.dist s.node = some d ∧ d ≤ s.dist
  mono : ∀ u, u ∈ st.visited → ∀ du, st.dist u = some du → ∀ s, s ∈ st.pq → du ≤ s.dist

/-- A queue kept as a plain list: pushing appends the state. -/
def listPush (q : PriorityQueue) (s : DijkstraState) : PriorityQueue := q ++ [s]

/-- A queue kept as a plain list: popping removes a state of least `dist`. -/
def popMin : PriorityQueue → Option (DijkstraState × PriorityQueue)
  | [] => none
  | s :: rest =>
    match popMin rest with
    | none => some (s, [])
    | some (m, rest1) => if s.dist ≤ m.dist then some (s, rest) else some (m, s :: rest1)

/-- A small network with a shortcut through `A` and an unreachable node. -/
def sampleNetwork : Graph :=
  [("START", [("A", 1), ("B", 5)]), ("A", [("START", 1), ("B", 2)]),
   ("B", [("START", 5), ("A", 2), ("REACTOR_1", 0)]), ("REACTOR_1", [("B", 0)]),
   ("C", [("D", 1)]), ("D", [("C", 1)])]

/-- The network of the lines `START-A:1`, `A-B:9223372036854775807` and
`START-B:5`, each edge entered in both directions. -/
def longTunnel : Graph :=
  [("START", [("A", 1), ("B", 5)]), ("A", [("START", 1), ("B", 9223372036854775807)]),
   ("B", [("A", 9223372036854775807), ("START", 5)])]

end Day25

namespace Day8

/-- The `UnionFind` struct of `day8/types.go`. -/
structure UnionFind where
  parent : List Nat
  rank : List Nat
  size : List Nat

/-- The function `NewUnionFind` of `day8/types.go`. -/
def NewUnionFind (n : Nat) : UnionFind :=
  (List.range n).foldl
    (fun uf i => { uf with parent := uf.parent.set i i, size := uf.size.set i 1 })
    { parent := List.replicate n 0, rank := List.replicate n 0, size := List.replicate n 0 }

/-- The method `UnionFind.Find` of `day8/types.go` with the depth of the
recursion bounded by `fuel` (`none` when the bound is hit): the returned root
and the structure after path compression. -/
def findAux : Nat → UnionFind → Nat → Option (Nat × UnionFind)
  | 0, _, _ => none
  | fuel + 1, uf, x =>
    if uf.parent.getD x 0 ≠ x then
      match findAux fuel uf (uf.parent.getD x 0) with
      | none => none
      | some (r, uf1) =>
        let uf2 : UnionFind := { uf1 with parent := uf1.parent.set x r }
        some (uf2.parent.getD x 0, uf2)
    else some (uf.parent.getD x 0, uf)

/-- The method `UnionFind.Find`; a chain of parents needs at most as many
calls as there are elements. -/
def Find (uf : UnionFind) (x : Nat) : Option (Nat × UnionFind) :=
  findAux uf.parent.length uf x

/-- The linking step of `Union` for two different roots. -/
def link (uf : UnionFind) (rootX rootY : Nat) : UnionFind :=
  if uf.rank.getD rootX 0 < uf.rank.getD rootY 0 then
    { uf with
      parent := uf.parent.set rootX rootY
      size := uf.size.set rootY (uf.size.getD rootY 0 + uf.size.getD rootX 0) }
  else if uf.rank.getD rootX 0 > uf.rank.getD rootY 0 then
    { uf with
      parent := uf.parent.set rootY rootX
      size := uf.size.set rootX (uf.size.getD rootX 0 + uf.size.getD rootY 0) }
  else
    { parent := uf.parent.set rootY rootX
      size := uf.size.set rootX (uf.size.getD rootX 0 + uf.size.getD rootY 0)
      rank := uf.rank.set rootX (uf.rank.getD rootX 0 + 1) }

/-- The method `UnionFind.Union` of `day8/types.go`: the returned flag and the
structure after the call. -/
def Union (uf : UnionFind) (x y : Nat) : Option (Bool × UnionFind) :=
  match Find uf x with
  | none => none
  | some (rootX, uf1) =>
    match Find uf1 y with
    | none => none
    | some (rootY, uf2) =>
      if rootX = rootY then some (false, uf2)
      else some (true, link uf2 rootX rootY)

/-- The assignment `sizes[root] = v` on a map kept as the list of its
entries. -/
def mapSet (sizes : List (Nat × Nat)) (root v : Nat) : List (Nat × Nat) :=
  if sizes.any (fun e => e.1 == root) then
    sizes.map (fun e => if e.1 = root then (root, v) else e)
  else sizes ++ [(root, v)]

/-- The first loop of `ComponentSizes` over the elements still to visit. -/
def sizesLoop : List Nat → List (Nat × Nat) → UnionFind → Option (List (Nat × Nat) × UnionFind)
  | [], sizes, uf => some (sizes, uf)
  | i :: rest, sizes, uf =>
    match Find uf i with
    | none => none
    | some (root, uf1) => sizesLoop rest (mapSet sizes root (uf1.size.getD root 0)) uf1

/-- The method `UnionFind.ComponentSizes` of `day8/types.go`: the values of
the map `sizes` (Go returns them in an unspecified order) and the structure
after the calls of `Find`. -/
def ComponentSizes (uf : UnionFind) : Option (List Nat × UnionFind) :=
  (sizesLoop (List.range uf.parent.length) [] uf).map (fun r => (r.1.map (fun e => e.2), r.2))

/-- The states reached from `NewUnionFind(n)` by calls of `Find` and `Union`
on elements below `n`. -/
inductive Reached (n : Nat) : UnionFind → Prop
  | new : Reached n (NewUnionFind n)
  | find (uf uf1 : UnionFind) (x r : Nat) :
      Reached n uf → x < n → Find uf x = some (r, uf1) → Reached n uf1
  | union (uf uf1 : UnionFind) (x y : Nat) (b : Bool) :
      Reached n uf → x < n → y < n → Union uf x y = some (b, uf1) → Reached n uf1

/-- The element `r` is a root: it is its own parent. -/
def IsRoot (uf : UnionFind) (r : Nat) : Prop := uf.parent.getD r 0 = r

/-- Following parent links from `x` leads to `r`. -/
def leadsTo (uf : UnionFind) (x r : Nat) : Prop :=
  ∃ k : Nat, (fun z => uf.parent.getD z 0)^[k] x = r

/-- The elements `x` and `y` are in the same set: their parent links lead to
the same root. -/
def sameSet (uf : UnionFind) (x y : Nat) : Prop :=
  ∃ r, IsRoot uf r ∧ leadsTo uf x r ∧ leadsTo uf y r

/-- What every reached structure satisfies, for a function `rep` that names
the root of each element: the three slices have length `n`, `rep` is constant
along parent links and fixes the roots, ranks grow along parent links, and a
root's `size` is the number of elements it represents and exceeds its rank. -/
structure Inv (n : Nat) (rep : Nat → Nat) (uf : UnionFind) : Prop where
  lenP : uf.parent.length = n
  lenR : uf.rank.length = n
  lenS : uf.size.length = n
  repLt : ∀ x, x < n → rep x < n
  repRoot : ∀ x, x < n → uf.parent.getD (rep x) 0 = rep x
  repParent : ∀ x, x < n → rep (uf.parent.getD x 0) = rep x
  rootRep : ∀ x, x < n → uf.parent.getD x 0 = x → rep x = x
  parentLt : ∀ x, x < n → uf.parent.getD x 0 < n
  rankInc : ∀ x, x < n → uf.parent.getD x 0 ≠ x →
    uf.rank.getD x 0 < uf.rank.getD (uf.parent.getD x 0) 0
  sizeRoot : ∀ r, r < n → uf.parent.getD r 0 = r →
    uf.size.getD r 0 = ((Finset.range n).filter (fun x => rep x = r)).card
  rankSize : ∀ r, r < n → uf.parent.getD r 0 = r → uf.rank.getD r 0 < uf.size.getD r 0

end Day8

namespace Cmd

/-- The type `func(string) (int, error)` of the solve functions. -/
abbrev SolveFunc := String → Except String Int

/-- The struct `solver` of `cmd/main.go`. -/
structure solver where
  day : Int
  part : Int
  solve : SolveFunc

/-- The function `register` of `cmd/main.go`: the package variable `solvers`
after the call, given its value before. -/
def register (solvers : List solver) (day : Int) (parts : List SolveFunc) : List solver :=
  (List.zip (List.range parts.length) parts).foldl
    (fun solvers ip => solvers ++ [{ day := day, part := (ip.1 : Int) + 1, solve := ip.2 }])
    solvers

/-- The function `init` of `cmd/main.go`: the variable `solvers` after the
thirteen calls of `register`; `Parts d` is the variable `Parts` of the package
of day `d`. -/
def init (Parts : Int → List SolveFunc) : List solver :=
  ([1, 2, 3, 4, 5, 6, 7, 8, 9, 10, 11, 12, 25] : List Int).foldl
    (fun solvers d => register solvers d (Parts d)) []

/-- The function `filterSolvers` of `cmd/main.go`, on the value of the
variable `solvers`. -/
def filterSolvers (solvers : List solver) (day part : Int) : List solver :=
  if day = 0 then solvers
  else
    solvers.foldl
      (fun filtered s =>
        if s.day = day ∧ (part = 0 ∨ s.part = part) then filtered ++ [s] else filtered)
      []

/-- The solver matches the request: its day is `day` (any day when `day` is
0) and its part is `part` (any part when `part` is 0). -/
def matchesRequest (day part : Int) (s : solver) : Bool :=
  (decide (day = 0) || decide (s.day = day)) && (decide (part = 0) || decide (s.part = part))

end Cmd

/-! ## Theorems -/

/-- A value in the range of a 64-bit `int` is not changed by the wrap. -/
theorem wrapInt_eq_self (z : Int) (hlo : -2 ^ 63 ≤ z) (hhi : z < 2 ^ 63) : wrapInt z = z := by
  unfold wrapInt
  rw [Int.emod_eq_of_lt (by omega) (by omega)]
  omega

namespace Day10

set_option maxRecDepth 100000 in
/-- C1: on the well-formed machine `machine64off` (one light that must stay
off, 64 buttons wired to it) pressing no button at all reaches the target, so
the smallest set of buttons has size 0; `SolveMinPresses` returns 65, because
`1 << 63` wraps to a negative `numCombinations` and the enumeration loop never
runs. -/
theorem SolveMinPresses_machine64off :
    buttonsWellFormed machine64off.Buttons machine64off.TargetLights.length ∧
      reachesLights machine64off [] ∧ SolveMinPresses machine64off = 65 := by
  refine ⟨by decide, by decide, by decide⟩

set_option maxRecDepth 100000 in
/-- C2: on the machine `machine64on` (one light that must be on, 64 buttons
wired to it) pressing button 0 reaches the target, yet `SolveMinPresses`
returns 65, which is neither -1 nor a value between 0 and the number of
buttons (64). -/
theorem SolveMinPresses_machine64on_out_of_range :
    reachesLights machine64on [0] ∧ machine64on.Buttons.length = 64 ∧
      SolveMinPresses machine64on = 65 ∧
      ¬ (0 ≤ SolveMinPresses machine64on ∧
          SolveMinPresses machine64on ≤ machine64on.Buttons.length) := by
  refine ⟨by decide, by decide, by decide, by decide⟩

set_option maxRecDepth 100000 in
/-- C3: on the well-formed machine `machineGreedy` the press counts
`[1, 1, 0, 0, 0]` reach every target joltage with 2 presses in total, yet
`SolveMinJoltage` returns the greedy result 3, whatever the later strategies
of the cascade compute. -/
theorem SolveMinJoltage_machineGreedy_not_minimal
    (solveJoltageGreedy solveWithFloatGaussian : Strategy) :
    buttonsWellFormed machineGreedy.Buttons machineGreedy.Joltages.length ∧
      reachesJoltages machineGreedy [1, 1, 0, 0, 0] ∧
      ([1, 1, 0, 0, 0] : List Nat).sum = 2 ∧
      SolveMinJoltage solveJoltageGreedy solveWithFloatGaussian machineGreedy = 3 := by
  refine ⟨by decide, by decide, by decide, by rfl⟩

end Day10

namespace Day1

/-- Go's truncated remainder followed by the `+ 100` fix-up is the Euclidean
remainder. -/
theorem normalize_eq_emod (x : Int) :
    (if x.tmod 100 < 0 then x.tmod 100 + 100 else x.tmod 100) = x % 100 := by
  rcases Int.le_total 0 x with h | h
  · rw [Int.tmod_eq_emod h (by decide)]
    have := Int.emod_nonneg x (show (100 : Int) ≠ 0 by decide)
    rw [if_neg (by omega)]
  · have h1 : x.tmod 100 = -((-x) % 100) := by
      have h2 : x.tdiv 100 = -((-x) / 100) := by
        have h3 : x = -(-x) := by omega
        conv_lhs => rw [h3, Int.neg_tdiv, Int.tdiv_eq_ediv (by omega) (by decide)]
      rw [Int.tmod_def, h2]
      omega
    rw [h1]
    split <;> omega

/-- Where the difference does not leave the range of `int`, `applyRotation`
to the left is the position of the dial. -/
theorem applyRotation_left (k start : Int) (hlo : -2 ^ 63 ≤ start - k)
    (hhi : start - k < 2 ^ 63) :
    applyRotation { Direction := 'L', Distance := k } start = (start - k) % 100 := by
  simp only [applyRotation, if_true]
  rw [wrapInt_eq_self _ hlo hhi]
  exact normalize_eq_emod _

/-- Where the sum does not leave the range of `int`, `applyRotation` to the
right is the position of the dial. -/
theorem applyRotation_right (k start : Int) (hlo : -2 ^ 63 ≤ start + k)
    (hhi : start + k < 2 ^ 63) :
    applyRotation { Direction := 'R', Distance := k } start = (start + k) % 100 := by
  have h : ¬ ('R' = 'L') := by decide
  simp only [applyRotation, if_neg h]
  rw [wrapInt_eq_self _ hlo hhi]
  exact normalize_eq_emod _

theorem clicksAtZero_succ (dir : Char) (start : Int) (d : Nat) :
    clicksAtZero dir start (d + 1) = clicksAtZero dir start d +
      (if dialAfter dir start (d + 1) = 0 then 1 else 0) := by
  unfold clicksAtZero
  rw [List.range_succ, List.filter_append, List.length_append]
  by_cases h : dialAfter dir start (d + 1) = 0
  · simp [h]
  · simp [h]

/-- The number of clicks at 0 of a left rotation, in closed form. -/
theorem clicksAtZero_left (start : Int) (h0 : 0 ≤ start) (h99 : start ≤ 99) (d : Nat) :
    (clicksAtZero 'L' start d : Int) =
      if start = 0 then (d : Int) / 100
      else if (d : Int) ≥ start then 1 + ((d : Int) - start) / 100 else 0 := by
  induction d with
  | zero =>
    simp only [clicksAtZero]
    split
    · simp
    · split
      · have : start = 0 := by omega
        contradiction
      · simp
  | succ d ih =>
    rw [clicksAtZero_succ]
    push_cast
    rw [ih]
    simp only [dialAfter, if_true]
    push_cast
    by_cases hs : start = 0
    · subst hs
      simp only [if_true]
      split <;> omega
    · simp only [if_neg hs]
      by_cases h1 : (d : Int) ≥ start
      · have h2 : (d : Int) + 1 ≥ start := by omega
        rw [if_pos h1, if_pos h2]
        split <;> omega
      · rw [if_neg h1]
        by_cases h2 : (d : Int) + 1 ≥ start
        · rw [if_pos h2]
          split <;> omega
        · rw [if_neg h2]
          split <;> omega

/-- The number of clicks at 0 of a right rotation, in closed form. -/
theorem clicksAtZero_right (start : Int) (h0 : 0 ≤ start) (h99 : start ≤ 99) (d : Nat) :
    (clicksAtZero 'R' start d : Int) = (start + (d : Int)) / 100 := by
  have hR : ¬ ('R' = 'L') := by decide
  induction d with
  | zero =>
    simp only [clicksAtZero]
    simp
    omega
  | succ d ih =>
    rw [clicksAtZero_succ]
    push_cast
    rw [ih]
    simp only [dialAfter, if_neg hR]
    push_cast
    split <;> omega

set_option maxRecDepth 100000 in
/-- C6: for the rotation `R9223372036854775807` from the start position 50
the sum `from + r.Distance` wraps, and `countZeroCrossings` returns
-92233720368547757, whereas the dial points at 0 after 92233720368547758 of
the single-click steps. -/
theorem countZeroCrossings_right_wraps :
    countZeroCrossings { Direction := 'R', Distance := 9223372036854775807 } 50
        = -92233720368547757 ∧
      (clicksAtZero 'R' 50 (9223372036854775807 : Int).toNat : Int) = 92233720368547758 := by
  refine ⟨by decide, ?_⟩
  rw [clicksAtZero_right 50 (by decide) (by decide)]
  decide

/-- Where `from + r.Distance` does not leave the range of `int`: for every
start position in 0..99 and every rotation with direction `L` or `R` and
`Distance ≥ 0`, `countZeroCrossings` equals the number of single-click steps
`k` in `1..Distance` after which the dial, moved `k` clicks in the rotation's
direction from the start position, points at 0. -/
theorem countZeroCrossings_eq_clicksAtZero (r : Rotation) (start : Int)
    (h0 : 0 ≤ start) (h99 : start ≤ 99)
    (hdir : r.Direction = 'L' ∨ r.Direction = 'R') (hdist : 0 ≤ r.Distance)
    (hfit : start + r.Distance < 2 ^ 63) :
    countZeroCrossings r start = (clicksAtZero r.Direction start r.Distance.toNat : Int) := by
  obtain ⟨dir, dist⟩ := r
  obtain ⟨d, rfl⟩ := Int.eq_ofNat_of_zero_le hdist
  simp only [Int.toNat_ofNat]
  simp only at hfit
  rcases hdir with h | h
  · simp only at h; subst h
    rw [clicksAtZero_left start h0 h99 d]
    simp only [countZeroCrossings, if_true]
    by_cases hs : start = 0
    · rw [if_pos hs, if_pos hs, Int.tdiv_eq_ediv (by omega) (by decide)]
    · rw [if_neg hs, if_neg hs]
      by_cases h1 : (d : Int) ≥ start
      · have hin : wrapInt ((d : Int) - start) = (d : Int) - start :=
          wrapInt_eq_self _ (by omega) (by omega)
        rw [if_pos h1, if_pos h1, hin, Int.tdiv_eq_ediv (by omega) (by decide),
          wrapInt_eq_self _ (by omega) (by omega)]
      · rw [if_neg h1, if_neg h1]
  · simp only at h; subst h
    have hR : ¬ ('R' = 'L') := by decide
    rw [clicksAtZero_right start h0 h99 d]
    simp only [countZeroCrossings, if_neg hR]
    rw [wrapInt_eq_self _ (by omega) (by omega), Int.tdiv_eq_ediv (by omega) (by decide)]

/-- A left rotation of 250 clicks from position 50 passes 0 three times. -/
theorem countZeroCrossings_eq_clicksAtZero_witness :
    countZeroCrossings { Direction := 'L', Distance := 250 } 50
      = (clicksAtZero 'L' 50 (250 : Int).toNat : Int) :=
  countZeroCrossings_eq_clicksAtZero { Direction := 'L', Distance := 250 } 50
    (by decide) (by decide) (Or.inl rfl) (by decide) (by decide)

end Day1

namespace Day3

theorem digitAt_nonneg (bank : List Nat) (i : Nat) : 0 ≤ digitAt bank i := by
  unfold digitAt digitOf
  exact Int.ofNat_nonneg _

theorem scan_fold_inv (bank : List Nat) (lo n : Nat) :
    ScanInv bank lo n ((List.range' lo n).foldl
      (fun (st : Int × Int) i => if digitAt bank i > st.1 then (digitAt bank i, (i : Int)) else st)
      (-1, -1)) := by
  induction n with
  | zero => left; simp
  | succ n ih =>
    rw [List.range'_concat, List.foldl_append]
    simp only [List.foldl_cons, List.foldl_nil, Nat.one_mul]
    generalize (List.range' lo n).foldl
      (fun (st : Int × Int) i => if digitAt bank i > st.1 then (digitAt bank i, (i : Int)) else st)
      (-1, -1) = st at ih
    right
    rcases ih with ⟨hn, hst⟩ | ⟨idx, h2, hlo, hhi, h1, hmax, hfirst⟩
    · subst hn; subst hst
      have hpos := digitAt_nonneg bank lo
      have hgt : digitAt bank (lo + 0) > (-1 : Int) := by simpa using (by omega : digitAt bank lo > -1)
      simp only [hgt, if_true]
      refine ⟨lo, by simp, le_refl _, by omega, by simp, ?_, ?_⟩
      · intro i h1 h2
        have : i = lo := by omega
        subst this; simp
      · intro i h1 h2
        omega
    · by_cases hgt : digitAt bank (lo + n) > st.1
      · simp only [hgt, if_true]
        refine ⟨lo + n, rfl, by omega, by omega, rfl, ?_, ?_⟩
        · intro i h1 h2
          by_cases hi : i = lo + n
          · subst hi; exact le_refl _
          · have := hmax i h1 (by omega)
            omega
        · intro i h1 h2
          have := hmax i h1 h2
          omega
      · simp only [hgt, if_false]
        refine ⟨idx, h2, hlo, by omega, h1, ?_, hfirst⟩
        intro i h1 h2
        by_cases hi : i = lo + n
        · subst hi; omega
        · exact hmax i h1 (by omega)

theorem scanMax_inv (bank : List Nat) (lo hi : Nat) :
    ScanInv bank lo (hi - lo) (scanMax bank lo hi) :=
  scan_fold_inv bank lo (hi - lo)

/-- On a non-empty range `scanMax` returns the largest digit of the range and
the first index where it occurs. -/
theorem scanMax_spec (bank : List Nat) (lo hi : Nat) (h : lo < hi) :
    ∃ idx : Nat, (scanMax bank lo hi).2 = (idx : Int) ∧ lo ≤ idx ∧ idx < hi ∧
      (scanMax bank lo hi).1 = digitAt bank idx ∧
      (∀ i, lo ≤ i → i < hi → digitAt bank i ≤ (scanMax bank lo hi).1) ∧
      (∀ i, lo ≤ i → i < idx → digitAt bank i < (scanMax bank lo hi).1) := by
  rcases scanMax_inv bank lo hi with ⟨hn, _⟩ | ⟨idx, h2, hlo, hhi, h1, hmax, hfirst⟩
  · omega
  · exact ⟨idx, h2, hlo, by omega, h1, fun i a b => hmax i a (by omega), hfirst⟩

theorem digitAt_of_isDigitString (bank : List Nat) (hd : isDigitString bank) (i : Nat)
    (hi : i < bank.length) :
    digitAt bank i = (bank.getD i 0 : Int) - 48 ∧ digitAt bank i ≤ 9 := by
  have hmem : bank.getD i 0 ∈ bank := by
    rw [List.getD_eq_getElem _ _ hi]
    exact List.getElem_mem hi
  have := hd _ hmem
  unfold digitAt digitOf
  omega

/-- C4: for every string of decimal digits of length at least 2,
`findMaxJoltage` returns the maximum of `10 * d_i + d_j` over all index pairs
`i < j`, where `d_k` is the digit at index `k`: the value is attained by some
pair and no pair exceeds it. -/
theorem findMaxJoltage_is_max_pair (bank : List Nat) (hd : isDigitString bank)
    (hlen : 2 ≤ bank.length) :
    (∃ i j, i < j ∧ j < bank.length ∧
      findMaxJoltage bank = 10 * ((bank.getD i 0 : Int) - 48) + ((bank.getD j 0 : Int) - 48)) ∧
    (∀ i j, i < j → j < bank.length →
      10 * ((bank.getD i 0 : Int) - 48) + ((bank.getD j 0 : Int) - 48) ≤ findMaxJoltage bank) := by
  have hdig := digitAt_of_isDigitString bank hd
  have key : (∃ i j, i < j ∧ j < bank.length ∧
      findMaxJoltage bank = 10 * digitAt bank i + digitAt bank j) ∧
    (∀ i j, i < j → j < bank.length →
      10 * digitAt bank i + digitAt bank j ≤ findMaxJoltage bank) := by
    unfold findMaxJoltage
    rw [if_neg (by omega)]
    obtain ⟨idx, h2, -, hhi, h1, hmax, hfirst⟩ := scanMax_spec bank 0 bank.length (by omega)
    by_cases hlast : (scanMax bank 0 bank.length).2 = (bank.length : Int) - 1
    · rw [if_pos hlast]
      have hidx : idx = bank.length - 1 := by omega
      have htn : (scanMax bank 0 bank.length).2.toNat = idx := by rw [h2]; simp
      rw [htn]
      obtain ⟨i2, -, -, hhi2, h12, hmax2, -⟩ := scanMax_spec bank 0 idx (by omega)
      refine ⟨⟨i2, idx, hhi2, hhi, by rw [h12, h1]; ring⟩, ?_⟩
      intro i j hij hj
      have a := hmax2 i (Nat.zero_le _) (by omega)
      have b := hmax j (Nat.zero_le _) hj
      show 10 * digitAt bank i + digitAt bank j
        ≤ (scanMax bank 0 idx).1 * 10 + (scanMax bank 0 bank.length).1
      omega
    · rw [if_neg hlast]
      have hidx : idx + 1 < bank.length := by omega
      have htn : ((scanMax bank 0 bank.length).2 + 1).toNat = idx + 1 := by rw [h2]; omega
      rw [htn]
      obtain ⟨i2, -, hlo2, hhi2, h12, hmax2, -⟩ := scanMax_spec bank (idx + 1) bank.length hidx
      refine ⟨⟨idx, i2, by omega, hhi2, by rw [h12, h1]; ring⟩, ?_⟩
      intro i j hij hj
      have a := hmax i (Nat.zero_le _) (by omega)
      have hj9 := (hdig j hj).2
      have hs0 : 0 ≤ (scanMax bank (idx + 1) bank.length).1 := by
        rw [h12]; exact digitAt_nonneg _ _
      show 10 * digitAt bank i + digitAt bank j
        ≤ (scanMax bank 0 bank.length).1 * 10 + (scanMax bank (idx + 1) bank.length).1
      by_cases hi : i < idx
      · have := hfirst i (Nat.zero_le _) hi
        omega
      · have b := hmax2 j (by omega) hj
        omega
  obtain ⟨⟨i, j, hij, hj, heq⟩, hub⟩ := key
  refine ⟨⟨i, j, hij, hj, ?_⟩, ?_⟩
  · rw [heq, (hdig i (by omega)).1, (hdig j hj).1]
  · intro i j hij hj
    rw [← (hdig i (by omega)).1, ← (hdig j hj).1]
    exact hub i j hij hj

/-- Witness for C4: the bank "73924". -/
theorem findMaxJoltage_is_max_pair_witness :
    (∃ i j, i < j ∧ j < [55, 51, 57, 50, 52].length ∧
      findMaxJoltage [55, 51, 57, 50, 52]
        = 10 * ((([55, 51, 57, 50, 52] : List Nat).getD i 0 : Int) - 48)
          + ((([55, 51, 57, 50, 52] : List Nat).getD j 0 : Int) - 48)) ∧
    (∀ i j, i < j → j < [55, 51, 57, 50, 52].length →
      10 * ((([55, 51, 57, 50, 52] : List Nat).getD i 0 : Int) - 48)
          + ((([55, 51, 57, 50, 52] : List Nat).getD j 0 : Int) - 48)
        ≤ findMaxJoltage [55, 51, 57, 50, 52]) :=
  findMaxJoltage_is_max_pair [55, 51, 57, 50, 52] (by decide) (by decide)

theorem selectLoop_acc (bank : List Nat) (k : Nat) :
    ∀ (start : Nat) (sel : List Int),
      selectLoop bank k start sel = sel ++ selectLoop bank k start [] := by
  induction k with
  | zero => intro start sel; simp [selectLoop]
  | succ k ih =>
    intro start sel
    simp only [selectLoop]
    rw [ih _ (sel ++ _), ih _ ([] ++ _)]
    simp

theorem digitsToNumber_eq_positional (l : List Int) : digitsToNumber l = positional l := by
  have gen : ∀ (l : List Int) (acc : Int),
      l.foldl (fun result digit => result * 10 + digit) acc
        = acc * 10 ^ l.length + positional l := by
    intro l
    induction l with
    | nil => intro acc; simp [positional]
    | cons d rest ih =>
      intro acc
      simp only [List.foldl_cons, ih, positional, List.length_cons]
      ring
  unfold digitsToNumber
  rw [gen]; simp

theorem positional_bounds (l : List Int) (h : ∀ d ∈ l, 0 ≤ d ∧ d ≤ 9) :
    0 ≤ positional l ∧ positional l < 10 ^ l.length := by
  induction l with
  | nil => simp [positional]
  | cons d rest ih =>
    have hd := h d (List.mem_cons_self _ _)
    have hr := ih (fun x hx => h x (List.mem_cons_of_mem _ hx))
    have hp : (0 : Int) < 10 ^ rest.length := by positivity
    simp only [positional, List.length_cons, pow_succ]
    constructor
    · have : 0 ≤ d * 10 ^ rest.length := mul_nonneg hd.1 (le_of_lt hp)
      omega
    · nlinarith [hd.1, hd.2, hr.1, hr.2]

/-- A sublist with head `a` picks `a` at some position and the rest after it. -/
theorem cons_sublist_position {α : Type} (a : α) (t : List α) :
    ∀ (l : List α), (a :: t).Sublist l →
      ∃ p, ∃ hp : p < l.length, l[p] = a ∧ t.Sublist (l.drop (p + 1)) := by
  intro l
  induction l with
  | nil => intro h; cases h
  | cons b l ih =>
    intro h
    cases h with
    | cons _ h' =>
      obtain ⟨p, hp, h1, h2⟩ := ih h'
      exact ⟨p + 1, by simp; omega, by simpa using h1, by simpa using h2⟩
    | cons₂ _ h' =>
      exact ⟨0, by simp, by simp, by simpa using h'⟩

theorem digitOf_bounds (b : Nat) (h : 48 ≤ b ∧ b ≤ 57) :
    digitOf b = (b : Int) - 48 ∧ 0 ≤ digitOf b ∧ digitOf b ≤ 9 := by
  unfold digitOf
  omega

/-- The greedy selection from `start` picks `k` digits in order, and no other
choice of `k` digits in order from `start` on writes a larger number. -/
theorem selectLoop_spec (bank : List Nat) (hd : isDigitString bank) (k : Nat) :
    ∀ start, start + k ≤ bank.length →
      (∃ s : List Nat, s.Sublist (bank.drop start) ∧ s.length = k ∧
        selectLoop bank k start [] = s.map digitOf) ∧
      (∀ s : List Nat, s.Sublist (bank.drop start) → s.length = k →
        positional (s.map digitOf) ≤ positional (selectLoop bank k start [])) := by
  induction k with
  | zero =>
    intro start _
    refine ⟨⟨[], List.nil_sublist _, rfl, by simp [selectLoop]⟩, ?_⟩
    intro s _ hlen
    have : s = [] := List.length_eq_zero.mp hlen
    subst this
    simp [selectLoop]
  | succ k ih =>
    intro start hstart
    have hrange : start < bank.length - (k + 1) + 1 := by omega
    obtain ⟨idx, h2, hlo, hhi, h1, hmax, hfirst⟩ :=
      scanMax_spec bank start (bank.length - (k + 1) + 1) hrange
    have hidx : idx < bank.length := by omega
    have hnext : ((scanMax bank start (bank.length - (k + 1) + 1)).2 + 1).toNat = idx + 1 := by
      rw [h2]; omega
    have hunfold : selectLoop bank (k + 1) start []
        = digitAt bank idx :: selectLoop bank k (idx + 1) [] := by
      simp only [selectLoop]
      rw [selectLoop_acc, hnext, h1]
      simp
    obtain ⟨⟨s', hsub', hlen', heq'⟩, hbest'⟩ := ih (idx + 1) (by omega)
    have hget : digitAt bank idx = digitOf bank[idx] := by
      unfold digitAt
      rw [List.getD_eq_getElem _ _ hidx]
    have hsel_digits : ∀ d ∈ selectLoop bank k (idx + 1) [], 0 ≤ d ∧ d ≤ 9 := by
      intro d hdm
      rw [heq'] at hdm
      obtain ⟨b, hb, rfl⟩ := List.mem_map.mp hdm
      have hbm : b ∈ bank := (List.drop_sublist _ _).subset (hsub'.subset hb)
      exact (digitOf_bounds b (hd b hbm)).2
    have hsel_len : (selectLoop bank k (idx + 1) []).length = k := by
      rw [heq']; simp [hlen']
    constructor
    · refine ⟨bank[idx] :: s', ?_, by simp [hlen'], ?_⟩
      · have h3 : (bank[idx] :: s').Sublist (bank.drop idx) := by
          rw [List.drop_eq_getElem_cons hidx]
          exact List.Sublist.cons₂ _ hsub'
        exact h3.trans (List.drop_sublist_drop_left bank hlo)
      · rw [hunfold, heq', hget]; simp
    · intro s hsub hlen
      match s, hlen with
      | a :: t, hlen =>
        have hlen_t : t.length = k := by simpa using hlen
        obtain ⟨p', hp', hpa, hpt⟩ := cons_sublist_position a t _ hsub
        rw [List.length_drop] at hp'
        have hp : start + p' < bank.length := by omega
        rw [List.getElem_drop] at hpa
        rw [List.drop_drop] at hpt
        have hroom : k ≤ bank.length - (start + (p' + 1)) := by
          have := hpt.length_le
          rw [List.length_drop] at this
          omega
        have ha_mem : a ∈ bank := hpa ▸ List.getElem_mem hp
        have ha := digitOf_bounds a (hd a ha_mem)
        have hda : digitAt bank (start + p') = digitOf a := by
          unfold digitAt
          rw [List.getD_eq_getElem _ _ hp, hpa]
        have hle := hmax (start + p') (by omega) (by omega)
        rw [hda, h1] at hle
        have ht_digits : ∀ d ∈ t.map digitOf, 0 ≤ d ∧ d ≤ 9 := by
          intro d hdm
          obtain ⟨b, hb, rfl⟩ := List.mem_map.mp hdm
          have hbm : b ∈ bank := (List.drop_sublist _ _).subset (hpt.subset hb)
          exact (digitOf_bounds b (hd b hbm)).2
        have ht := positional_bounds _ ht_digits
        have hs := positional_bounds _ hsel_digits
        rw [List.length_map, hlen_t] at ht
        rw [hsel_len] at hs
        rw [hunfold]
        simp only [List.map_cons, positional, List.length_map, hlen_t, hsel_len]
        have hp10 : (0 : Int) < 10 ^ k := by positivity
        by_cases hlt : digitOf a < digitAt bank idx
        · have : (digitOf a + 1) * 10 ^ k ≤ digitAt bank idx * 10 ^ k :=
            mul_le_mul_of_nonneg_right (by omega) (le_of_lt hp10)
          nlinarith [ht.1, ht.2, hs.1, hs.2]
        · have heq : digitOf a = digitAt bank idx := by omega
          have hge : idx ≤ start + p' := by
            by_contra hcon
            have := hfirst (start + p') (by omega) (by omega)
            rw [hda, h1] at this
            omega
          have hsub2 : t.Sublist (bank.drop (idx + 1)) :=
            hpt.trans (List.drop_sublist_drop_left bank (by omega))
          have := hbest' t hsub2 hlen_t
          rw [heq]
          omega

/-- C5: for every string of decimal digits of length at least 12,
`findMaxJoltage12` returns the largest number that can be formed by the digits
of a 12-element subsequence of the string kept in their original order: some
such subsequence writes the returned number and none writes a larger one. -/
theorem findMaxJoltage12_is_max_subsequence (bank : List Nat) (hd : isDigitString bank)
    (hlen : 12 ≤ bank.length) :
    (∃ s : List Nat, s.Sublist bank ∧ s.length = 12 ∧ findMaxJoltage12 bank = decimalValue s) ∧
    (∀ s : List Nat, s.Sublist bank → s.length = 12 →
      decimalValue s ≤ findMaxJoltage12 bank) := by
  have hmap : ∀ s : List Nat, s.Sublist bank →
      s.map (fun (b : Nat) => (b : Int) - 48) = s.map digitOf := by
    intro s hs
    apply List.map_congr_left
    intro b hb
    exact (digitOf_bounds b (hd b (hs.subset hb))).1.symm
  obtain ⟨⟨s, hsub, hl, heq⟩, hbest⟩ := selectLoop_spec bank hd 12 0 (by omega)
  rw [List.drop_zero] at hsub hbest
  unfold findMaxJoltage12 decimalValue
  rw [if_neg (by omega), digitsToNumber_eq_positional]
  refine ⟨⟨s, hsub, hl, by rw [hmap s hsub, heq]⟩, ?_⟩
  intro t ht htl
  rw [hmap t ht]
  exact hbest t ht htl

/-- Witness for C5: the bank "234234234234278", whose best 12 digits write
434234234278. -/
theorem findMaxJoltage12_is_max_subsequence_witness :
    (∃ s : List Nat, s.Sublist [50, 51, 52, 50, 51, 52, 50, 51, 52, 50, 51, 52, 50, 55, 56] ∧
      s.length = 12 ∧
      findMaxJoltage12 [50, 51, 52, 50, 51, 52, 50, 51, 52, 50, 51, 52, 50, 55, 56]
        = decimalValue s) ∧
    (∀ s : List Nat, s.Sublist [50, 51, 52, 50, 51, 52, 50, 51, 52, 50, 51, 52, 50, 55, 56] →
      s.length = 12 →
      decimalValue s
        ≤ findMaxJoltage12 [50, 51, 52, 50, 51, 52, 50, 51, 52, 50, 51, 52, 50, 55, 56]) :=
  findMaxJoltage12_is_max_subsequence
    [50, 51, 52, 50, 51, 52, 50, 51, 52, 50, 51, 52, 50, 55, 56] (by decide) (by decide)

end Day3

namespace Day2

/-- The decimal text of a positive number does not start with `'0'`. -/
theorem toDigitsCore_head_ne_zero (fuel : Nat) :
    ∀ (n : Nat) (ds : List Char), 0 < n → n < fuel →
      ∃ c rest, Nat.toDigitsCore 10 fuel n ds = c :: rest ∧ c ≠ '0' := by
  induction fuel with
  | zero => intro n ds _ h; omega
  | succ fuel ih =>
    intro n ds hn hf
    simp only [Nat.toDigitsCore]
    by_cases h0 : n / 10 = 0
    · rw [if_pos h0]
      refine ⟨_, _, rfl, ?_⟩
      have hlt : n < 10 := by omega
      interval_cases n <;> decide
    · rw [if_neg h0]
      have h1 : 0 < n / 10 := Nat.pos_of_ne_zero h0
      have h2 : n / 10 < fuel := by omega
      exact ih (n / 10) _ h1 h2

theorem toDigitsCore_ne_nil (fuel : Nat) :
    ∀ (n : Nat) (ds : List Char), 0 < fuel ∨ ds ≠ [] → Nat.toDigitsCore 10 fuel n ds ≠ [] := by
  induction fuel with
  | zero =>
    intro n ds h
    rcases h with h | h
    · omega
    · simpa [Nat.toDigitsCore] using h
  | succ fuel ih =>
    intro n ds _
    simp only [Nat.toDigitsCore]
    by_cases h0 : n / 10 = 0
    · rw [if_pos h0]; simp
    · rw [if_neg h0]
      exact ih _ _ (Or.inr (by simp))

theorem Itoa_ne_nil (id : Int) (h : 0 ≤ id) : Itoa id ≠ [] := by
  unfold Itoa
  rw [if_neg (by omega)]
  exact toDigitsCore_ne_nil _ _ _ (Or.inl (by omega))

/-- The text of a non-negative id of length at least 2 does not start with
`'0'`. -/
theorem Itoa_head (id : Int) (h : 0 ≤ id) (hlen : 2 ≤ (Itoa id).length) :
    (Itoa id).head? ≠ some '0' := by
  unfold Itoa at hlen ⊢
  rw [if_neg (by omega)] at hlen ⊢
  rcases Nat.eq_zero_or_pos id.toNat with h0 | hpos
  · rw [h0] at hlen
    simp [Nat.toDigits, Nat.toDigitsCore] at hlen
  · obtain ⟨c, rest, heq, hc⟩ := toDigitsCore_head_ne_zero (id.toNat + 1) id.toNat [] hpos (by omega)
    unfold Nat.toDigits
    rw [heq]
    simpa using hc

/-- C7: for every non-negative id, `ExactlyTwiceValidator.IsInvalid(id)` is
true exactly when the decimal representation of id is some non-empty digit
string written twice in a row. -/
theorem ExactlyTwiceValidator_IsInvalid_iff (id : Int) (h : 0 ≤ id) :
    ExactlyTwiceValidator_IsInvalid id = true ↔ ∃ w : List Char, w ≠ [] ∧ Itoa id = w ++ w := by
  unfold ExactlyTwiceValidator_IsInvalid
  simp only
  constructor
  · intro hv
    split at hv
    · exact absurd hv (by simp)
    · split at hv
      · exact absurd hv (by simp)
      · have heq : (Itoa id).take ((Itoa id).length / 2) = (Itoa id).drop ((Itoa id).length / 2) :=
          beq_iff_eq.mp hv
        refine ⟨(Itoa id).take ((Itoa id).length / 2), ?_, ?_⟩
        · intro hnil
          have h1 := List.take_append_drop ((Itoa id).length / 2) (Itoa id)
          rw [← heq, hnil] at h1
          exact Itoa_ne_nil id h h1.symm
        · conv_lhs => rw [← List.take_append_drop ((Itoa id).length / 2) (Itoa id)]
          rw [← heq]
  · rintro ⟨w, hw, hs⟩
    have hwl : 0 < w.length := List.length_pos.mpr hw
    have hlen : (Itoa id).length = 2 * w.length := by rw [hs, List.length_append]; omega
    have hhead := Itoa_head id h (by omega)
    rw [if_neg (by omega), if_neg hhead]
    have hmid : (Itoa id).length / 2 = w.length := by omega
    rw [hmid, hs, List.take_left, List.drop_left]
    simp

/-- Witness for C7: the id 6464. -/
theorem ExactlyTwiceValidator_IsInvalid_iff_witness :
    ExactlyTwiceValidator_IsInvalid 6464 = true ↔
      ∃ w : List Char, w ≠ [] ∧ Itoa 6464 = w ++ w :=
  ExactlyTwiceValidator_IsInvalid_iff 6464 (by decide)

/-- With enough fuel the inner loop reports whether every chunk from chunk
number `t` on equals the pattern. -/
theorem isRepeatingFrom_iff (s : List Char) (p : Nat) (hp : 0 < p) (fuel : Nat) :
    ∀ t, s.length ≤ p * t + fuel →
      (isRepeatingFrom s p fuel (p * t) = true ↔
        ∀ u, t ≤ u → p * u < s.length → (s.drop (p * u)).take p = s.take p) := by
  induction fuel with
  | zero =>
    intro t hfuel
    simp only [isRepeatingFrom, true_iff]
    intro u htu hu
    have : p * t ≤ p * u := Nat.mul_le_mul_left p htu
    omega
  | succ fuel ih =>
    intro t hfuel
    simp only [isRepeatingFrom]
    by_cases hlt : p * t < s.length
    · rw [if_pos hlt]
      by_cases hchunk : (s.drop (p * t)).take p = s.take p
      · rw [if_neg (not_not.mpr hchunk)]
        have hnext : p * t + p = p * (t + 1) := by ring
        rw [hnext, ih (t + 1) (by rw [← hnext]; omega)]
        constructor
        · intro hall u htu hu
          rcases Nat.eq_or_lt_of_le htu with heq | hlt2
          · subst heq; exact hchunk
          · exact hall u hlt2 hu
        · intro hall u htu hu
          exact hall u (by omega) hu
      · rw [if_pos hchunk]
        simp only [Bool.false_eq_true, false_iff]
        intro hall
        exact hchunk (hall t (le_refl _) hlt)
    · rw [if_neg hlt]
      simp only [true_iff]
      intro u htu hu
      have : p * t ≤ p * u := Nat.mul_le_mul_left p htu
      omega

/-- A string cut into `q` chunks of length `p` that all equal `w` is `w`
repeated `q` times. -/
theorem eq_replicate_of_chunks (w : List Char) (p : Nat) (q : Nat) :
    ∀ s : List Char, s.length = p * q →
      (∀ u, u < q → (s.drop (p * u)).take p = w) → s = (List.replicate q w).flatten := by
  induction q with
  | zero =>
    intro s hlen _
    simpa using List.length_eq_zero.mp (by simpa using hlen)
  | succ q ih =>
    intro s hlen hall
    have h0 : s.take p = w := by simpa using hall 0 (by omega)
    have hrest : s.drop p = (List.replicate q w).flatten := by
      apply ih
      · rw [List.length_drop, hlen]
        have : p * (q + 1) = p * q + p := by ring
        omega
      · intro u hu
        rw [List.drop_drop]
        have : p + p * u = p * (u + 1) := by ring
        rw [this]
        exact hall (u + 1) (by omega)
    rw [List.replicate_succ, List.flatten_cons, ← hrest, ← h0, List.take_append_drop]

/-- Every chunk of `w` repeated `k` times is `w`. -/
theorem chunk_of_replicate (w : List Char) (k : Nat) :
    ∀ u, u < k →
      (((List.replicate k w).flatten).drop (w.length * u)).take w.length = w := by
  induction k with
  | zero => intro u hu; omega
  | succ k ih =>
    intro u hu
    rw [List.replicate_succ, List.flatten_cons]
    cases u with
    | zero => simp
    | succ u =>
      have : w.length * (u + 1) = w.length + w.length * u := by ring
      rw [this, List.drop_append]
      exact ih u (by omega)

theorem length_flatten_replicate (w : List Char) (k : Nat) :
    ((List.replicate k w).flatten).length = w.length * k := by
  induction k with
  | zero => simp
  | succ k ih =>
    rw [List.replicate_succ, List.flatten_cons, List.length_append, ih]
    ring

/-- C8: for every non-negative id, `AtLeastTwiceValidator.IsInvalid(id)` is
true exactly when the decimal representation of id is some non-empty digit
string repeated `k` times in a row for some `k ≥ 2`. -/
theorem AtLeastTwiceValidator_IsInvalid_iff (id : Int) (h : 0 ≤ id) :
    AtLeastTwiceValidator_IsInvalid id = true ↔
      ∃ (w : List Char) (k : Nat), w ≠ [] ∧ 2 ≤ k ∧ Itoa id = (List.replicate k w).flatten := by
  unfold AtLeastTwiceValidator_IsInvalid
  simp only
  constructor
  · intro hv
    split at hv
    · exact absurd hv (by simp)
    · rw [List.any_eq_true] at hv
      obtain ⟨j, hj, hcond⟩ := hv
      rw [List.mem_range] at hj
      simp only [Bool.and_eq_true, decide_eq_true_eq] at hcond
      obtain ⟨hdiv, hrep⟩ := hcond
      have hp : 0 < j + 1 := by omega
      have hrep1 : isRepeatingFrom (Itoa id) (j + 1) (Itoa id).length ((j + 1) * 1) = true := by
        simpa using hrep
      rw [isRepeatingFrom_iff (Itoa id) (j + 1) hp (Itoa id).length 1 (by omega)] at hrep1
      obtain ⟨q, hq⟩ := Nat.dvd_of_mod_eq_zero hdiv
      have hq2 : 2 ≤ q := by
        by_contra hcon
        have hq1 : q ≤ 1 := by omega
        have : (j + 1) * q ≤ (j + 1) * 1 := Nat.mul_le_mul_left _ hq1
        omega
      refine ⟨(Itoa id).take (j + 1), q, ?_, hq2, ?_⟩
      · intro hnil
        have hl : ((Itoa id).take (j + 1)).length = 0 := by rw [hnil]; rfl
        rw [List.length_take] at hl
        omega
      · apply eq_replicate_of_chunks _ (j + 1) q _ hq
        intro u hu
        rcases Nat.eq_zero_or_pos u with h0 | hpos
        · subst h0; simp
        · apply hrep1 u hpos
          rw [hq]
          exact Nat.mul_lt_mul_of_pos_left hu hp
  · rintro ⟨w, k, hw, hk, hs⟩
    have hwl : 0 < w.length := List.length_pos.mpr hw
    have hlen : (Itoa id).length = w.length * k := by rw [hs, length_flatten_replicate]
    have h2 : w.length * 2 ≤ w.length * k := Nat.mul_le_mul_left _ hk
    have hhead := Itoa_head id h (by omega)
    rw [if_neg hhead, List.any_eq_true]
    refine ⟨w.length - 1, ?_, ?_⟩
    · rw [List.mem_range]
      omega
    · have hsub : w.length - 1 + 1 = w.length := by omega
      simp only [hsub, Bool.and_eq_true, decide_eq_true_eq]
      refine ⟨by rw [hlen]; exact Nat.mul_mod_right _ _, ?_⟩
      have hone : w.length = w.length * 1 := by omega
      conv_lhs => rw [hone]
      conv_lhs => arg 2; rw [← hone]
      rw [isRepeatingFrom_iff (Itoa id) w.length hwl (Itoa id).length 1 (by omega)]
      intro u _ hu
      rw [hlen] at hu
      have huk : u < k := Nat.lt_of_mul_lt_mul_left hu
      rw [hs, chunk_of_replicate w k u huk]
      have := chunk_of_replicate w k 0 (by omega)
      simpa using this.symm

/-- Witness for C8: the id 123123123. -/
theorem AtLeastTwiceValidator_IsInvalid_iff_witness :
    AtLeastTwiceValidator_IsInvalid 123123123 = true ↔
      ∃ (w : List Char) (k : Nat), w ≠ [] ∧ 2 ≤ k ∧
        Itoa 123123123 = (List.replicate k w).flatten :=
  AtLeastTwiceValidator_IsInvalid_iff 123123123 (by decide)

end Day2

namespace Day4

theorem mem_allCells (grid : List (List Char)) (p : Nat × Nat) :
    p ∈ allCells grid ↔ p.1 < grid.length ∧ p.2 < (grid.getD p.1 []).length := by
  unfold allCells
  simp only [List.mem_flatMap, List.mem_range, List.mem_map]
  constructor
  · rintro ⟨row, hrow, col, hcol, rfl⟩
    exact ⟨hrow, hcol⟩
  · rintro ⟨h1, h2⟩
    exact ⟨p.1, h1, p.2, h2, rfl⟩

theorem nodup_allCells (grid : List (List Char)) : (allCells grid).Nodup := by
  unfold allCells
  rw [List.nodup_flatMap]
  constructor
  · intro row _
    exact (List.nodup_range _).map (fun a b h => by simpa using h)
  · apply (List.nodup_range _).pairwise_of_forall_ne
    intro a _ b _ hab
    simp only [Function.onFun]
    rw [List.disjoint_left]
    intro p hp hq
    simp only [List.mem_map, List.mem_range] at hp hq
    obtain ⟨_, _, rfl⟩ := hp
    obtain ⟨_, _, h⟩ := hq
    simp only [Prod.mk.injEq] at h
    exact hab h.1.symm

theorem isRollAt_iff (grid : List (List Char)) (r c : Int) :
    isRollAt grid r c = true ↔
      0 ≤ r ∧ r < grid.length ∧ 0 ≤ c ∧ c < (grid.getD r.toNat []).length ∧
        charAt grid r.toNat c.toNat = '@' := by
  unfold isRollAt charAt
  simp only [Bool.and_eq_true, decide_eq_true_eq, beq_iff_eq, ge_iff_le]
  tauto

theorem mem_directions (d : Int × Int) :
    d ∈ directions ↔ d.1.natAbs ≤ 1 ∧ d.2.natAbs ≤ 1 ∧ d ≠ (0, 0) := by
  obtain ⟨a, b⟩ := d
  simp only [directions, List.mem_cons, Prod.mk.injEq, List.mem_singleton, List.not_mem_nil,
    or_false, ne_eq, not_and]
  constructor
  · intro h
    rcases h with h | h | h | h | h | h | h | h <;> obtain ⟨rfl, rfl⟩ := h <;> decide
  · rintro ⟨ha, hb, hne⟩
    have ha' : a = -1 ∨ a = 0 ∨ a = 1 := by omega
    have hb' : b = -1 ∨ b = 0 ∨ b = 1 := by omega
    rcases ha' with rfl | rfl | rfl <;> rcases hb' with rfl | rfl | rfl <;> simp at hne ⊢

/-- The count made by the eight-direction loop is the number of in-bounds
neighbours that hold a roll. -/
theorem adjacentCount_eq (grid : List (List Char)) (row col : Nat) :
    (directions.filter (fun dir => isRollAt grid ((row : Int) + dir.1) ((col : Int) + dir.2))).length
      = adjacentRolls grid row col := by
  unfold adjacentRolls
  have hperm : List.Perm
      ((directions.filter (fun dir => isRollAt grid ((row : Int) + dir.1) ((col : Int) + dir.2))).map
        (fun dir => ((row : Int) + dir.1, (col : Int) + dir.2)))
      (((allCells grid).filter (fun p =>
        decide (p ≠ (row, col)) &&
        decide (((p.1 : Int) - row).natAbs ≤ 1) && decide (((p.2 : Int) - col).natAbs ≤ 1) &&
        (charAt grid p.1 p.2 == '@'))).map (fun p => ((p.1 : Int), (p.2 : Int)))) := by
    rw [List.perm_ext_iff_of_nodup]
    · rintro ⟨a, b⟩
      simp only [List.mem_map, List.mem_filter, Bool.and_eq_true, decide_eq_true_eq, beq_iff_eq,
        Prod.mk.injEq, mem_allCells, isRollAt_iff, mem_directions]
      constructor
      · rintro ⟨⟨d1, d2⟩, ⟨⟨hd1, hd2, hne⟩, h0, hlt, h0c, hltc, hch⟩, rfl, rfl⟩
        simp only at hd1 hd2 hne h0 hlt h0c hltc hch
        refine ⟨(((row : Int) + d1).toNat, ((col : Int) + d2).toNat), ⟨⟨?_, ?_⟩, ⟨⟨?_, ?_⟩, ?_⟩, hch⟩, ?_, ?_⟩
        · show ((row : Int) + d1).toNat < grid.length
          omega
        · show ((col : Int) + d2).toNat < (grid.getD ((row : Int) + d1).toNat []).length
          omega
        · intro heq
          simp only [Prod.mk.injEq] at heq
          apply hne
          rw [Prod.mk.injEq]
          omega
        · show ((((row : Int) + d1).toNat : Int) - row).natAbs ≤ 1
          omega
        · show ((((col : Int) + d2).toNat : Int) - col).natAbs ≤ 1
          omega
        · show (((row : Int) + d1).toNat : Int) = row + d1
          omega
        · show (((col : Int) + d2).toNat : Int) = col + d2
          omega
      · rintro ⟨⟨r, c⟩, ⟨⟨hr, hc⟩, ⟨⟨hne, hdr⟩, hdc⟩, hch⟩, rfl, rfl⟩
        simp only at hr hc hne hdr hdc hch
        have hrn : ((row : Int) + ((r : Int) - row)).toNat = r := by omega
        have hcn : ((col : Int) + ((c : Int) - col)).toNat = c := by omega
        refine ⟨((r : Int) - row, (c : Int) - col), ⟨⟨hdr, hdc, ?_⟩, ?_, ?_, ?_, ?_, ?_⟩, ?_, ?_⟩
        · intro heq
          simp only [Prod.mk.injEq] at heq
          apply hne
          rw [Prod.mk.injEq]
          omega
        · show 0 ≤ (row : Int) + ((r : Int) - row)
          omega
        · show (row : Int) + ((r : Int) - row) < grid.length
          omega
        · show 0 ≤ (col : Int) + ((c : Int) - col)
          omega
        · show (col : Int) + ((c : Int) - col)
            < ((grid.getD ((row : Int) + ((r : Int) - row)).toNat []).length : Int)
          rw [hrn]
          omega
        · show charAt grid ((row : Int) + ((r : Int) - row)).toNat
            ((col : Int) + ((c : Int) - col)).toNat = '@'
          rw [hrn, hcn]
          exact hch
        · show (row : Int) + ((r : Int) - row) = r
          omega
        · show (col : Int) + ((c : Int) - col) = c
          omega
    · exact ((by decide : directions.Nodup).filter _).map
        (fun x y h => by
          simp only [Prod.mk.injEq] at h
          exact Prod.ext (by omega) (by omega))
    · exact ((nodup_allCells grid).filter _).map
        (fun x y h => by
          simp only [Prod.mk.injEq] at h
          exact Prod.ext (by omega) (by omega))
  simpa using hperm.length_eq

theorem isAccessible_iff (grid : List (List Char)) (row col : Nat) :
    isAccessible grid row col = true ↔ adjacentRolls grid row col < 4 := by
  unfold isAccessible
  simp only [decide_eq_true_eq]
  rw [adjacentCount_eq]

/-- A counting loop `if cond { count++ }` counts the elements that satisfy the
condition. -/
theorem count_fold_eq_filter_length {α : Type} (P : α → Prop) [DecidablePred P] (l : List α) :
    ∀ init : Nat, l.foldl (fun count p => if P p then count + 1 else count) init
      = init + (l.filter (fun p => decide (P p))).length := by
  induction l with
  | nil => intro init; simp
  | cons a l ih =>
    intro init
    simp only [List.foldl_cons, List.filter_cons]
    by_cases h : P a
    · simp only [h, if_true, decide_True, List.length_cons, ih]
      omega
    · simp only [h, if_false, decide_False, ih]
      simp

/-- C9: for every grid of rows (possibly of different lengths) and every
in-bounds cell, `isAccessible(grid, row, col)` is true exactly when fewer than
4 of the cell's in-bounds neighbours (horizontal, vertical, diagonal) hold
`'@'`; Part 1's answer is the number of `'@'` cells for which this holds. -/
theorem isAccessible_iff_fewer_than_four (grid : List (List Char)) (row col : Nat)
    (hrow : row < grid.length) (hcol : col < (grid.getD row []).length) :
    (row, col) ∈ allCells grid ∧
    (isAccessible grid row col = true ↔ adjacentRolls grid row col < 4) ∧
    Part1 grid = ((allCells grid).filter (fun p =>
      decide (charAt grid p.1 p.2 = '@' ∧ adjacentRolls grid p.1 p.2 < 4))).length := by
  refine ⟨(mem_allCells grid (row, col)).mpr ⟨hrow, hcol⟩, isAccessible_iff grid row col, ?_⟩
  unfold Part1
  rw [count_fold_eq_filter_length, Nat.zero_add]
  congr 1
  apply List.filter_congr
  intro p _
  simp only [isAccessible_iff]

/-- Witness for C9: the top-left roll of a 2x2 block with one gap. -/
theorem isAccessible_iff_fewer_than_four_witness :
    (0, 0) ∈ allCells [['@', '@'], ['@', '.']] ∧
    (isAccessible [['@', '@'], ['@', '.']] 0 0 = true ↔
      adjacentRolls [['@', '@'], ['@', '.']] 0 0 < 4) ∧
    Part1 [['@', '@'], ['@', '.']] = ((allCells [['@', '@'], ['@', '.']]).filter (fun p =>
      decide (charAt [['@', '@'], ['@', '.']] p.1 p.2 = '@' ∧
        adjacentRolls [['@', '@'], ['@', '.']] p.1 p.2 < 4))).length :=
  isAccessible_iff_fewer_than_four [['@', '@'], ['@', '.']] 0 0 (by decide) (by decide)

theorem countRolls_set (grid : List (List Char)) (line : List Char) :
    ∀ r (h : r < grid.length),
      countRolls (grid.set r line) + grid[r].count '@' = countRolls grid + line.count '@' := by
  induction grid with
  | nil => intro r h; simp at h
  | cons row0 rest ih =>
    intro r h
    cases r with
    | zero =>
      simp only [List.set_cons_zero, countRolls, List.map_cons, List.sum_cons,
        List.getElem_cons_zero]
      omega
    | succ r =>
      have h' : r < rest.length := by simpa using h
      have := ih r h'
      simp only [countRolls, List.set_cons_succ, List.map_cons, List.sum_cons,
        List.getElem_cons_succ] at this ⊢
      omega

theorem count_set_dot (cells : List Char) (c : Nat) (h : c < cells.length) (hc : cells[c] = '@') :
    (cells.set c '.').count '@' + 1 = cells.count '@' := by
  rw [List.count_set _ _ _ _ h]
  have hmem : '@' ∈ cells := hc ▸ List.getElem_mem h
  have hpos : 1 ≤ cells.count '@' := List.one_le_count_iff.mpr hmem
  simp [hc]
  omega

theorem charAt_eq_getElem (grid : List (List Char)) (r c : Nat) (hr : r < grid.length)
    (hc : c < (grid.getD r []).length) :
    ∃ hc' : c < grid[r].length, charAt grid r c = grid[r][c] := by
  unfold charAt
  rw [List.getD_eq_getElem _ _ hr] at hc ⊢
  exact ⟨hc, List.getD_eq_getElem _ _ hc⟩

/-- Removing one roll lowers the number of rolls by one. -/
theorem countRolls_removeOne (grid : List (List Char)) (pos : Nat × Nat)
    (hpos : pos ∈ allCells grid) (hch : charAt grid pos.1 pos.2 = '@') :
    countRolls (removeOne grid pos) + 1 = countRolls grid := by
  obtain ⟨hr, hc⟩ := (mem_allCells grid pos).mp hpos
  obtain ⟨hc', heq⟩ := charAt_eq_getElem grid pos.1 pos.2 hr hc
  unfold removeOne
  have h1 := countRolls_set grid ((grid.getD pos.1 []).set pos.2 '.') pos.1 hr
  rw [List.getD_eq_getElem _ _ hr] at h1 ⊢
  have h2 := count_set_dot grid[pos.1] pos.2 hc' (by rw [← heq]; exact hch)
  omega

/-- Removing one roll keeps the shape of the grid and every other cell. -/
theorem removeOne_other (grid : List (List Char)) (pos q : Nat × Nat) (hne : q ≠ pos) :
    (q ∈ allCells grid → q ∈ allCells (removeOne grid pos)) ∧
      charAt (removeOne grid pos) q.1 q.2 = charAt grid q.1 q.2 := by
  obtain ⟨r, c⟩ := pos
  obtain ⟨r', c'⟩ := q
  simp only [mem_allCells, removeOne, charAt, List.length_set]
  by_cases hr : r' = r
  · subst hr
    have hcne : c' ≠ c := by
      intro h; apply hne; rw [h]
    by_cases hlen : r' < grid.length
    · simp [List.getD_eq_getElem?_getD, List.getElem?_set_self hlen, List.getElem?_set_ne hcne.symm]
    · have hset : grid.set r' ((grid.getD r' []).set c '.') = grid :=
        List.set_eq_of_length_le (by omega)
      rw [hset]
      simp
  · have hr' : r ≠ r' := fun h => hr h.symm
    simp [List.getD_eq_getElem?_getD, List.getElem?_set_ne hr']

/-- The batch removal lowers the number of rolls by the number of positions
removed, when these are distinct cells that hold a roll. -/
theorem countRolls_removeRolls (accessible : List (Nat × Nat)) :
    ∀ grid : List (List Char), accessible.Nodup →
      (∀ p ∈ accessible, p ∈ allCells grid ∧ charAt grid p.1 p.2 = '@') →
      countRolls (removeRolls grid accessible) + accessible.length = countRolls grid := by
  induction accessible with
  | nil => intro grid _ _; simp [removeRolls]
  | cons pos rest ih =>
    intro grid hnd hall
    have hpos := hall pos (List.mem_cons_self _ _)
    have hstep := countRolls_removeOne grid pos hpos.1 hpos.2
    have hrest := ih (removeOne grid pos) (List.nodup_cons.mp hnd).2 (by
      intro q hq
      have hne : q ≠ pos := by
        intro h; subst h
        exact (List.nodup_cons.mp hnd).1 hq
      have hq' := hall q (List.mem_cons_of_mem _ hq)
      have := removeOne_other grid pos q hne
      exact ⟨this.1 hq'.1, by rw [this.2]; exact hq'.2⟩)
    have hfold : removeRolls grid (pos :: rest) = removeRolls (removeOne grid pos) rest := by
      simp [removeRolls, removeOne]
    rw [hfold, List.length_cons]
    omega

theorem findAccessibleRolls_props (grid : List (List Char)) :
    (findAccessibleRolls grid).Nodup ∧
      ∀ p ∈ findAccessibleRolls grid, p ∈ allCells grid ∧ charAt grid p.1 p.2 = '@' := by
  unfold findAccessibleRolls
  refine ⟨(nodup_allCells grid).filter _, ?_⟩
  intro p hp
  simp only [List.mem_filter, Bool.and_eq_true, beq_iff_eq] at hp
  exact ⟨hp.1, hp.2.1⟩

/-- The removal loop stops within as many iterations as there are rolls (plus
one for the final check), on a grid without accessible rolls, having counted
exactly the rolls that disappeared. -/
theorem removalLoop_spec (fuel : Nat) :
    ∀ (grid : List (List Char)) (total : Nat), countRolls grid < fuel →
      ∃ final result, removalLoop fuel grid total = some (final, result) ∧
        findAccessibleRolls final = [] ∧
        result + countRolls final = total + countRolls grid := by
  induction fuel with
  | zero => intro grid total h; omega
  | succ fuel ih =>
    intro grid total hfuel
    simp only [removalLoop]
    by_cases hempty : (findAccessibleRolls grid).length = 0
    · rw [if_pos hempty]
      exact ⟨grid, total, rfl, List.length_eq_zero.mp hempty, rfl⟩
    · rw [if_neg hempty]
      obtain ⟨hnd, hall⟩ := findAccessibleRolls_props grid
      have hcount := countRolls_removeRolls (findAccessibleRolls grid) grid hnd hall
      obtain ⟨final, result, hrun, hstable, hsum⟩ :=
        ih (removeRolls grid (findAccessibleRolls grid))
          (total + (findAccessibleRolls grid).length) (by omega)
      exact ⟨final, result, hrun, hstable, by omega⟩

/-- C10: Part 2's removal loop stops (any number of iterations above the
number of rolls is enough); when it stops the grid is stable, that is,
`findAccessibleRolls` of the final grid is empty and no remaining `'@'` has
fewer than 4 adjacent `'@'`, and the returned total equals the number of `'@'`
in the input minus the number of `'@'` left in the final grid. -/
theorem Part2_stable_and_total (grid : List (List Char)) (fuel : Nat)
    (hfuel : countRolls grid < fuel) :
    ∃ final total, removalLoop fuel grid 0 = some (final, total) ∧
      Part2 grid = some total ∧
      findAccessibleRolls final = [] ∧
      (∀ p ∈ allCells final, charAt final p.1 p.2 = '@' → ¬ adjacentRolls final p.1 p.2 < 4) ∧
      countRolls final ≤ countRolls grid ∧
      total = countRolls grid - countRolls final := by
  obtain ⟨final, total, hrun, hstable, hsum⟩ := removalLoop_spec fuel grid 0 hfuel
  obtain ⟨final', total', hrun', -, -⟩ :=
    removalLoop_spec (countRolls grid + 1) grid 0 (Nat.lt_succ_self _)
  have hmono : ∀ (f1 f2 : Nat) (g : List (List Char)) (t : Nat) (r : List (List Char) × Nat),
      removalLoop f1 g t = some r → f1 ≤ f2 → removalLoop f2 g t = some r := by
    intro f1
    induction f1 with
    | zero => intro f2 g t r h; simp [removalLoop] at h
    | succ f1 ih =>
      intro f2 g t r h hle
      obtain ⟨f2', rfl⟩ : ∃ k, f2 = k + 1 := ⟨f2 - 1, by omega⟩
      simp only [removalLoop] at h ⊢
      split
      · rename_i hz; rw [if_pos hz] at h; exact h
      · rename_i hz; rw [if_neg hz] at h
        exact ih f2' _ _ r h (by omega)
  have hsame : (final', total') = (final, total) := by
    rcases Nat.le_total fuel (countRolls grid + 1) with hle | hle
    · have := hmono _ _ _ _ _ hrun hle
      rw [hrun'] at this
      exact Option.some.inj this
    · have := hmono _ _ _ _ _ hrun' hle
      rw [hrun] at this
      exact (Option.some.inj this).symm
  refine ⟨final, total, hrun, ?_, hstable, ?_, by omega, by omega⟩
  · unfold Part2
    rw [hrun', hsame]
    rfl
  · intro p hp hch hlt
    have hmem : p ∈ findAccessibleRolls final := by
      unfold findAccessibleRolls
      simp only [List.mem_filter, Bool.and_eq_true, beq_iff_eq]
      exact ⟨hp, hch, (isAccessible_iff final p.1 p.2).mpr hlt⟩
    rw [hstable] at hmem
    exact absurd hmem (List.not_mem_nil _)

/-- Witness for C10: a 2x2 block with one gap, run with 5 iterations. -/
theorem Part2_stable_and_total_witness :
    ∃ final total, removalLoop 5 [['@', '@'], ['@', '.']] 0 = some (final, total) ∧
      Part2 [['@', '@'], ['@', '.']] = some total ∧
      findAccessibleRolls final = [] ∧
      (∀ p ∈ allCells final, charAt final p.1 p.2 = '@' → ¬ adjacentRolls final p.1 p.2 < 4) ∧
      countRolls final ≤ countRolls [['@', '@'], ['@', '.']] ∧
      total = countRolls [['@', '@'], ['@', '.']] - countRolls final :=
  Part2_stable_and_total [['@', '@'], ['@', '.']] 5 (by decide)

end Day4

namespace Day10

set_option maxRecDepth 100000 in
/-- The embedding returns the values that `TestSolveMinPresses` expects on the
three example machines. -/
theorem SolveMinPresses_examples :
    SolveMinPresses ⟨[false, true, true, false],
        [[3], [1, 3], [2], [2, 3], [0, 2], [0, 1]], [3, 5, 4, 7]⟩ = 2 ∧
    SolveMinPresses ⟨[false, false, false, true, false],
        [[0, 2, 3, 4], [2, 3], [0, 4], [0, 1, 2], [1, 2, 3, 4]], [7, 5, 12, 7, 2]⟩ = 3 ∧
    SolveMinPresses ⟨[false, true, true, true, false, true],
        [[0, 1, 2, 3, 4], [0, 3, 4], [0, 1, 2, 4, 5], [1, 2]], [10, 11, 11, 5, 10, 5]⟩ = 2 := by
  refine ⟨by decide, by decide, by decide⟩

end Day10

namespace Day4

set_option maxRecDepth 100000 in
/-- The embedding returns the values that `TestPart1Example` and
`TestPart2Example` expect on the example grid. -/
theorem Part1_Part2_example : Part1 exampleGrid = 13 ∧ Part2 exampleGrid = some 43 := by
  refine ⟨by decide, by decide⟩

end Day4

namespace Day5

theorem chain_append_singleton (done : List Range) (last cur : Range)
    (h : (done ++ [last]).Chain' (fun a b => a.End + 1 < b.Start))
    (hgap : last.End + 1 < cur.Start) :
    ((done ++ [last]) ++ [cur]).Chain' (fun a b => a.End + 1 < b.Start) := by
  rw [List.chain'_append]
  refine ⟨h, List.chain'_singleton _, ?_⟩
  intro x hx y hy
  have hl : (done ++ [last]).getLast? = some last := by simp
  rw [hl] at hx
  simp only [Option.mem_def, Option.some.injEq] at hx
  simp only [List.head?_cons, Option.mem_def, Option.some.injEq] at hy
  subst hx; subst hy
  exact hgap

theorem chain_replace_last (done : List Range) (last last2 : Range)
    (h : (done ++ [last]).Chain' (fun a b => a.End + 1 < b.Start))
    (hs : last2.Start = last.Start) :
    (done ++ [last2]).Chain' (fun a b => a.End + 1 < b.Start) := by
  rw [List.chain'_append] at h ⊢
  refine ⟨h.1, List.chain'_singleton _, ?_⟩
  intro x hx y hy
  simp only [List.head?_cons, Option.mem_def, Option.some.injEq] at hy
  subst hy
  rw [hs]
  exact h.2.2 x hx last (by simp)

/-- The merging loop keeps `MergeInv` when no `End + 1` leaves the range of
`int`. -/
theorem mergeLoop_inv (rest : List Range) :
    ∀ (done : List Range) (last : Range),
      (∀ r ∈ rest, r.Start ≤ r.End) →
      (∀ r ∈ rest, -2 ^ 63 ≤ r.Start ∧ r.End < 2 ^ 63 - 1) →
      (-2 ^ 63 ≤ last.Start ∧ last.End < 2 ^ 63 - 1) → MergeInv done last →
      (mergeLoop rest done last).Chain' (fun a b => a.End + 1 < b.Start) ∧
        ∀ r ∈ mergeLoop rest done last, r.Start ≤ r.End := by
  induction rest with
  | nil => intro done last _ _ _ h; exact h
  | cons cur rest ih =>
    intro done last hwf hb hbl hinv
    have hcur := hwf cur (List.mem_cons_self _ _)
    have hbcur := hb cur (List.mem_cons_self _ _)
    have hrest : ∀ r ∈ rest, r.Start ≤ r.End := fun r hr => hwf r (List.mem_cons_of_mem _ hr)
    have hbrest : ∀ r ∈ rest, -2 ^ 63 ≤ r.Start ∧ r.End < 2 ^ 63 - 1 :=
      fun r hr => hb r (List.mem_cons_of_mem _ hr)
    have hlast := hinv.2 last (by simp)
    have hw : wrapInt (last.End + 1) = last.End + 1 :=
      wrapInt_eq_self _ (by omega) (by omega)
    simp only [mergeLoop, hw]
    split
    · split
      · apply ih done { last with End := cur.End } hrest hbrest ⟨hbl.1, hbcur.2⟩
        refine ⟨chain_replace_last done last _ hinv.1 rfl, ?_⟩
        intro r hr
        rcases List.mem_append.mp hr with hr | hr
        · exact hinv.2 r (List.mem_append_left _ hr)
        · rw [List.mem_singleton] at hr
          subst hr
          show last.Start ≤ cur.End
          omega
      · exact ih _ _ hrest hbrest hbl hinv
    · apply ih _ _ hrest hbrest hbcur
      refine ⟨chain_append_singleton done last cur hinv.1 (by omega), ?_⟩
      intro r hr
      rcases List.mem_append.mp hr with hr | hr
      · exact hinv.2 r hr
      · rw [List.mem_singleton] at hr
        subst hr
        exact hcur

/-- Consecutive gaps between well-formed ranges give gaps between all pairs. -/
theorem pairwise_of_chain (l : List Range)
    (hc : l.Chain' (fun a b => a.End + 1 < b.Start)) (hwf : ∀ r ∈ l, r.Start ≤ r.End) :
    l.Pairwise (fun a b => a.End + 1 < b.Start) := by
  induction l with
  | nil => exact List.Pairwise.nil
  | cons a rest ih =>
    have hrest := ih (List.Chain'.tail hc) (fun r hr => hwf r (List.mem_cons_of_mem _ hr))
    refine List.Pairwise.cons ?_ hrest
    intro b hb
    cases rest with
    | nil => cases hb
    | cons c rest2 =>
      have hac : a.End + 1 < c.Start := (List.chain'_cons.mp hc).1
      rcases List.mem_cons.mp hb with rfl | hb2
      · exact hac
      · have hcb := (List.pairwise_cons.mp hrest).1 b hb2
        have hcwf := hwf c (List.mem_cons_of_mem _ (List.mem_cons_self _ _))
        omega

theorem mergeRanges_gaps (sortSlice : List Range → List Range) (ranges : List Range)
    (hperm : (sortSlice ranges).Perm ranges) (hwf : ∀ r ∈ ranges, r.Start ≤ r.End)
    (hfit : ∀ r ∈ ranges, -2 ^ 63 ≤ r.Start ∧ r.End < 2 ^ 63 - 1) :
    (mergeRanges sortSlice ranges).Pairwise (fun a b => a.End + 1 < b.Start) ∧
      ∀ r ∈ mergeRanges sortSlice ranges, r.Start ≤ r.End := by
  unfold mergeRanges
  split
  · exact ⟨List.Pairwise.nil, fun r hr => absurd hr (List.not_mem_nil _)⟩
  · have hwf2 : ∀ r ∈ sortSlice ranges, r.Start ≤ r.End := fun r hr => hwf r (hperm.subset hr)
    have hfit2 : ∀ r ∈ sortSlice ranges, -2 ^ 63 ≤ r.Start ∧ r.End < 2 ^ 63 - 1 :=
      fun r hr => hfit r (hperm.subset hr)
    split
    · exact ⟨List.Pairwise.nil, fun r hr => absurd hr (List.not_mem_nil _)⟩
    · rename_i first rest heq
      rw [heq] at hwf2 hfit2
      have h := mergeLoop_inv rest [] first
        (fun r hr => hwf2 r (List.mem_cons_of_mem _ hr))
        (fun r hr => hfit2 r (List.mem_cons_of_mem _ hr))
        (hfit2 _ (List.mem_cons_self _ _))
        ⟨by simp, by
          intro r hr
          simp only [List.nil_append, List.mem_singleton] at hr
          subst hr
          exact hwf2 _ (List.mem_cons_self _ _)⟩
      exact ⟨pairwise_of_chain _ h.1 h.2, h.2⟩

/-- Where no `End + 1` leaves the range of `int` (every range starts at
`-2^63` or above and ends below `2^63 - 1`): for every non-empty list of
ranges with `Start ≤ End`, the result of `mergeRanges` is sorted by `Start`
and its ranges neither overlap nor touch: each result range's `Start` is
greater than the previous result range's `End + 1` (and than that of every
earlier result range); for the empty list the result is empty. -/
theorem mergeRanges_sorted_separated_of_fits (sortSlice : List Range → List Range)
    (ranges : List Range) (hperm : (sortSlice ranges).Perm ranges)
    (hwf : ∀ r ∈ ranges, r.Start ≤ r.End)
    (hfit : ∀ r ∈ ranges, -2 ^ 63 ≤ r.Start ∧ r.End < 2 ^ 63 - 1) :
    (mergeRanges sortSlice ranges).Pairwise (fun a b => a.Start < b.Start) ∧
    (mergeRanges sortSlice ranges).Chain' (fun a b => a.End + 1 < b.Start) ∧
    (mergeRanges sortSlice ranges).Pairwise (fun a b => a.End + 1 < b.Start) ∧
    (ranges ≠ [] → mergeRanges sortSlice ranges ≠ []) ∧
    mergeRanges sortSlice [] = [] := by
  obtain ⟨hgap, hwf2⟩ := mergeRanges_gaps sortSlice ranges hperm hwf hfit
  refine ⟨?_, List.Pairwise.chain' hgap, hgap, ?_, by simp [mergeRanges]⟩
  · have hboth : (mergeRanges sortSlice ranges).Pairwise
        (fun a b => a.Start ≤ a.End ∧ a.End + 1 < b.Start) := by
      rw [List.pairwise_and_iff]
      refine ⟨?_, hgap⟩
      rw [List.pairwise_iff_forall_sublist]
      intro a b hab
      exact hwf2 a (hab.subset (List.mem_cons_self _ _))
    exact hboth.imp (fun h => by omega)
  · intro hne
    unfold mergeRanges
    rw [if_neg (by
      intro h
      exact hne (List.length_eq_zero.mp h))]
    have hne2 : sortSlice ranges ≠ [] := by
      intro h
      rw [h] at hperm
      exact hne (List.Perm.nil_eq hperm).symm
    split
    · rename_i heq; exact absurd heq hne2
    · rename_i first rest heq
      have hmem : ∀ (rest done : List Range) (last : Range), mergeLoop rest done last ≠ [] := by
        intro rest
        induction rest with
        | nil => intro done last; simp [mergeLoop]
        | cons c rest ih =>
          intro done last
          simp only [mergeLoop]
          split
          · split
            · exact ih _ _
            · exact ih _ _
          · exact ih _ _
      exact hmem _ _ _

/-- Four ranges, two of which overlap. -/
theorem mergeRanges_sorted_separated_of_fits_witness :
    (mergeRanges sortByStart [⟨3, 5⟩, ⟨10, 14⟩, ⟨16, 20⟩, ⟨12, 18⟩]).Pairwise
      (fun a b => a.Start < b.Start) ∧
    (mergeRanges sortByStart [⟨3, 5⟩, ⟨10, 14⟩, ⟨16, 20⟩, ⟨12, 18⟩]).Chain'
      (fun a b => a.End + 1 < b.Start) ∧
    (mergeRanges sortByStart [⟨3, 5⟩, ⟨10, 14⟩, ⟨16, 20⟩, ⟨12, 18⟩]).Pairwise
      (fun a b => a.End + 1 < b.Start) ∧
    (([⟨3, 5⟩, ⟨10, 14⟩, ⟨16, 20⟩, ⟨12, 18⟩] : List Range) ≠ [] →
      mergeRanges sortByStart [⟨3, 5⟩, ⟨10, 14⟩, ⟨16, 20⟩, ⟨12, 18⟩] ≠ []) ∧
    mergeRanges sortByStart [] = [] :=
  mergeRanges_sorted_separated_of_fits sortByStart [⟨3, 5⟩, ⟨10, 14⟩, ⟨16, 20⟩, ⟨12, 18⟩]
    (List.perm_insertionSort _ _) (by decide) (by decide)

theorem mem_covered (l : List Range) (id : Int) :
    id ∈ covered l ↔ ∃ r ∈ l, r.Start ≤ id ∧ id ≤ r.End := by
  induction l with
  | nil => simp [covered]
  | cons a rest ih =>
    have hc : covered (a :: rest) = Finset.Icc a.Start a.End ∪ covered rest := rfl
    rw [hc, Finset.mem_union, ih, Finset.mem_Icc]
    simp only [List.mem_cons, exists_eq_or_imp]

theorem isFresh_iff (id : Int) (l : List Range) :
    isFresh id l = true ↔ ∃ r ∈ l, r.Start ≤ id ∧ id ≤ r.End := by
  unfold isFresh Range.Contains
  simp only [List.any_eq_true, Bool.and_eq_true, decide_eq_true_eq]

/-- The merging loop covers exactly the integers covered by the ranges it has
put aside, the range it is extending and the ranges still to come, when these
come in order of `Start`. -/
theorem mergeLoop_cover (rest : List Range) :
    ∀ (done : List Range) (last : Range),
      (∀ r ∈ rest, r.Start ≤ r.End) →
      (∀ r ∈ rest, -2 ^ 63 ≤ r.Start ∧ r.End < 2 ^ 63 - 1) →
      (-2 ^ 63 ≤ last.Start ∧ last.End < 2 ^ 63 - 1) → last.Start ≤ last.End →
      (∀ r ∈ rest, last.Start ≤ r.Start) → rest.Pairwise (fun a b => a.Start ≤ b.Start) →
      ∀ id : Int, (∃ r ∈ mergeLoop rest done last, r.Start ≤ id ∧ id ≤ r.End) ↔
        ((∃ r ∈ done, r.Start ≤ id ∧ id ≤ r.End) ∨ (last.Start ≤ id ∧ id ≤ last.End) ∨
          ∃ r ∈ rest, r.Start ≤ id ∧ id ≤ r.End) := by
  induction rest with
  | nil =>
    intro done last _ _ _ _ _ _ id
    simp only [mergeLoop, List.mem_append, List.mem_singleton, List.not_mem_nil, false_and,
      exists_false, or_false]
    constructor
    · rintro ⟨r, hr | rfl, h⟩
      · exact Or.inl ⟨r, hr, h⟩
      · exact Or.inr h
    · rintro (⟨r, hr, h⟩ | h)
      · exact ⟨r, Or.inl hr, h⟩
      · exact ⟨last, Or.inr rfl, h⟩
  | cons cur rest ih =>
    intro done last hwf hb hbl hlast hle hsorted id
    have hcur := hwf cur (List.mem_cons_self _ _)
    have hbcur := hb cur (List.mem_cons_self _ _)
    have hrest : ∀ r ∈ rest, r.Start ≤ r.End := fun r hr => hwf r (List.mem_cons_of_mem _ hr)
    have hbrest : ∀ r ∈ rest, -2 ^ 63 ≤ r.Start ∧ r.End < 2 ^ 63 - 1 :=
      fun r hr => hb r (List.mem_cons_of_mem _ hr)
    have hw : wrapInt (last.End + 1) = last.End + 1 :=
      wrapInt_eq_self _ (by omega) (by omega)
    have hlc := hle cur (List.mem_cons_self _ _)
    have hle2 : ∀ r ∈ rest, last.Start ≤ r.Start := fun r hr => hle r (List.mem_cons_of_mem _ hr)
    obtain ⟨hcr, hsorted2⟩ := List.pairwise_cons.mp hsorted
    simp only [mergeLoop, hw, List.mem_cons, exists_eq_or_imp]
    split
    · rename_i htouch
      split
      · rename_i hext
        rw [ih done { last with End := cur.End } hrest hbrest ⟨hbl.1, hbcur.2⟩
          (by show last.Start ≤ cur.End; omega) hle2 hsorted2 id]
        show (_ ∨ (last.Start ≤ id ∧ id ≤ cur.End) ∨ _) ↔ _
        constructor
        · rintro (h | h | h)
          · exact Or.inl h
          · by_cases hid : id ≤ last.End
            · exact Or.inr (Or.inl ⟨h.1, hid⟩)
            · exact Or.inr (Or.inr (Or.inl ⟨by omega, h.2⟩))
          · exact Or.inr (Or.inr (Or.inr h))
        · rintro (h | h | h | h)
          · exact Or.inl h
          · exact Or.inr (Or.inl ⟨h.1, by omega⟩)
          · exact Or.inr (Or.inl ⟨by omega, h.2⟩)
          · exact Or.inr (Or.inr h)
      · rename_i hext
        rw [ih done last hrest hbrest hbl hlast hle2 hsorted2 id]
        constructor
        · rintro (h | h | h)
          · exact Or.inl h
          · exact Or.inr (Or.inl h)
          · exact Or.inr (Or.inr (Or.inr h))
        · rintro (h | h | h | h)
          · exact Or.inl h
          · exact Or.inr (Or.inl h)
          · exact Or.inr (Or.inl ⟨by omega, by omega⟩)
          · exact Or.inr (Or.inr h)
    · rw [ih (done ++ [last]) cur hrest hbrest hbcur hcur hcr hsorted2 id]
      simp only [List.mem_append, List.mem_singleton]
      constructor
      · rintro (⟨r, hr | rfl, h⟩ | h | h)
        · exact Or.inl ⟨r, hr, h⟩
        · exact Or.inr (Or.inl h)
        · exact Or.inr (Or.inr (Or.inl h))
        · exact Or.inr (Or.inr (Or.inr h))
      · rintro (⟨r, hr, h⟩ | h | h | h)
        · exact Or.inl ⟨r, Or.inl hr, h⟩
        · exact Or.inl ⟨last, Or.inr rfl, h⟩
        · exact Or.inr (Or.inl h)
        · exact Or.inr (Or.inr h)

theorem mergeRanges_cover (sortSlice : List Range → List Range) (ranges : List Range)
    (hperm : (sortSlice ranges).Perm ranges)
    (hsorted : (sortSlice ranges).Pairwise (fun a b => a.Start ≤ b.Start))
    (hwf : ∀ r ∈ ranges, r.Start ≤ r.End)
    (hfit : ∀ r ∈ ranges, -2 ^ 63 ≤ r.Start ∧ r.End < 2 ^ 63 - 1) (id : Int) :
    (∃ r ∈ mergeRanges sortSlice ranges, r.Start ≤ id ∧ id ≤ r.End) ↔
      ∃ r ∈ ranges, r.Start ≤ id ∧ id ≤ r.End := by
  have hwf2 : ∀ r ∈ sortSlice ranges, r.Start ≤ r.End := fun r hr => hwf r (hperm.subset hr)
  have hfit2 : ∀ r ∈ sortSlice ranges, -2 ^ 63 ≤ r.Start ∧ r.End < 2 ^ 63 - 1 :=
    fun r hr => hfit r (hperm.subset hr)
  have hmem : ∀ r, r ∈ ranges ↔ r ∈ sortSlice ranges := fun r => (hperm.mem_iff).symm
  unfold mergeRanges
  split
  · rename_i hz
    rw [List.length_eq_zero.mp hz]
  · simp only [hmem]
    split
    · rename_i heq
      rw [heq]
    · rename_i first rest heq
      rw [heq] at hwf2 hfit2 hsorted ⊢
      obtain ⟨hfr, hsorted2⟩ := List.pairwise_cons.mp hsorted
      rw [mergeLoop_cover rest [] first (fun r hr => hwf2 r (List.mem_cons_of_mem _ hr))
        (fun r hr => hfit2 r (List.mem_cons_of_mem _ hr)) (hfit2 _ (List.mem_cons_self _ _))
        (hwf2 _ (List.mem_cons_self _ _)) hfr hsorted2 id]
      simp only [List.not_mem_nil, false_and, exists_false, false_or, List.mem_cons,
        exists_eq_or_imp]

theorem sum_sizes_nonneg (l : List Range) (hwf : ∀ r ∈ l, r.Start ≤ r.End) :
    0 ≤ (l.map (fun r => r.End - r.Start + 1)).sum := by
  induction l with
  | nil => simp
  | cons a rest ih =>
    have ha := hwf a (List.mem_cons_self _ _)
    have hr := ih (fun r hr => hwf r (List.mem_cons_of_mem _ hr))
    simp only [List.map_cons, List.sum_cons]
    omega

/-- The loop of `Part2` adds up the sizes of the ranges when the total fits in
an `int`. -/
theorem foldl_sum_eq (l : List Range) :
    ∀ init : Int, (∀ r ∈ l, r.Start ≤ r.End) → 0 ≤ init →
      init + (l.map (fun r => r.End - r.Start + 1)).sum < 2 ^ 63 →
      l.foldl (fun totalCount r =>
          wrapInt (totalCount + wrapInt (wrapInt (r.End - r.Start) + 1))) init
        = init + (l.map (fun r => r.End - r.Start + 1)).sum := by
  induction l with
  | nil => intro init _ _ _; simp
  | cons a rest ih =>
    intro init hwf h0 hsum
    have ha := hwf a (List.mem_cons_self _ _)
    have hrest : ∀ r ∈ rest, r.Start ≤ r.End := fun r hr => hwf r (List.mem_cons_of_mem _ hr)
    have hnn := sum_sizes_nonneg rest hrest
    simp only [List.map_cons, List.sum_cons] at hsum
    have w1 : wrapInt (a.End - a.Start) = a.End - a.Start :=
      wrapInt_eq_self _ (by omega) (by omega)
    have w2 : wrapInt (a.End - a.Start + 1) = a.End - a.Start + 1 :=
      wrapInt_eq_self _ (by omega) (by omega)
    have w3 : wrapInt (init + (a.End - a.Start + 1)) = init + (a.End - a.Start + 1) :=
      wrapInt_eq_self _ (by omega) (by omega)
    simp only [List.foldl_cons, w1, w2, w3, List.map_cons, List.sum_cons]
    rw [ih _ hrest (by omega) (by omega)]
    omega

/-- Ranges separated by gaps cover as many integers as their sizes add up to. -/
theorem card_covered_of_gaps (l : List Range)
    (hgap : l.Pairwise (fun a b => a.End + 1 < b.Start)) (hwf : ∀ r ∈ l, r.Start ≤ r.End) :
    ((covered l).card : Int) = (l.map (fun r => r.End - r.Start + 1)).sum := by
  induction l with
  | nil => simp [covered]
  | cons a rest ih =>
    obtain ⟨ha, hrest⟩ := List.pairwise_cons.mp hgap
    have hc : covered (a :: rest) = Finset.Icc a.Start a.End ∪ covered rest := rfl
    have hdisj : Disjoint (Finset.Icc a.Start a.End) (covered rest) := by
      rw [Finset.disjoint_left]
      intro id h1 h2
      rw [Finset.mem_Icc] at h1
      obtain ⟨r, hr, h3, -⟩ := (mem_covered rest id).mp h2
      have := ha r hr
      omega
    have hawf := hwf a (List.mem_cons_self _ _)
    rw [hc, Finset.card_union_of_disjoint hdisj, List.map_cons, List.sum_cons, Int.card_Icc]
    push_cast
    rw [ih hrest (fun r hr => hwf r (List.mem_cons_of_mem _ hr))]
    omega

/-- Where nothing leaves the range of `int` (every range starts at `-2^63` or
above and ends below `2^63 - 1`, and fewer than `2^63` integers are covered):
for every list of ranges with `Start ≤ End`, the sum of `End - Start + 1`
over `mergeRanges(ranges)`, which is what Part 2 returns, equals the number
of distinct integers that lie (inclusively) in at least one input range, and
an integer is covered by some merged range exactly when it is covered by some
input range. -/
theorem Part2_counts_covered_of_fits (sortSlice : List Range → List Range)
    (ranges : List Range) (hperm : (sortSlice ranges).Perm ranges)
    (hsorted : (sortSlice ranges).Pairwise (fun a b => a.Start ≤ b.Start))
    (hwf : ∀ r ∈ ranges, r.Start ≤ r.End)
    (hfit : ∀ r ∈ ranges, -2 ^ 63 ≤ r.Start ∧ r.End < 2 ^ 63 - 1)
    (hcard : ((covered ranges).card : Int) < 2 ^ 63) :
    Part2 sortSlice ranges = ((covered ranges).card : Int) ∧
    (∀ id : Int, (∃ r ∈ mergeRanges sortSlice ranges, r.Start ≤ id ∧ id ≤ r.End) ↔
      ∃ r ∈ ranges, r.Start ≤ id ∧ id ≤ r.End) ∧
    (∀ id : Int, isFresh id (mergeRanges sortSlice ranges) = isFresh id ranges) := by
  have hcover := mergeRanges_cover sortSlice ranges hperm hsorted hwf hfit
  obtain ⟨hgap, hwf2⟩ := mergeRanges_gaps sortSlice ranges hperm hwf hfit
  refine ⟨?_, hcover, ?_⟩
  · have hset : covered (mergeRanges sortSlice ranges) = covered ranges := by
      ext id
      rw [mem_covered, mem_covered, hcover]
    have hsum := card_covered_of_gaps _ hgap hwf2
    rw [hset] at hsum
    unfold Part2
    rw [foldl_sum_eq _ 0 hwf2 (le_refl 0) (by rw [← hsum]; omega), ← hsum]
    omega
  · intro id
    rw [Bool.eq_iff_iff, isFresh_iff, isFresh_iff, hcover]

/-- Four ranges, two of which overlap, covering 14 ids. -/
theorem Part2_counts_covered_of_fits_witness :
    Part2 sortByStart [⟨3, 5⟩, ⟨10, 14⟩, ⟨16, 20⟩, ⟨12, 18⟩]
      = ((covered [⟨3, 5⟩, ⟨10, 14⟩, ⟨16, 20⟩, ⟨12, 18⟩]).card : Int) ∧
    (∀ id : Int,
      (∃ r ∈ mergeRanges sortByStart [⟨3, 5⟩, ⟨10, 14⟩, ⟨16, 20⟩, ⟨12, 18⟩],
        r.Start ≤ id ∧ id ≤ r.End) ↔
      ∃ r ∈ ([⟨3, 5⟩, ⟨10, 14⟩, ⟨16, 20⟩, ⟨12, 18⟩] : List Range), r.Start ≤ id ∧ id ≤ r.End) ∧
    (∀ id : Int, isFresh id (mergeRanges sortByStart [⟨3, 5⟩, ⟨10, 14⟩, ⟨16, 20⟩, ⟨12, 18⟩])
      = isFresh id [⟨3, 5⟩, ⟨10, 14⟩, ⟨16, 20⟩, ⟨12, 18⟩]) :=
  Part2_counts_covered_of_fits sortByStart [⟨3, 5⟩, ⟨10, 14⟩, ⟨16, 20⟩, ⟨12, 18⟩]
    (List.perm_insertionSort _ _) (by decide) (by decide) (by decide) (by decide)

set_option maxRecDepth 100000 in
/-- C11: on the ranges `0-9223372036854775807` and `5-10`, both with
`Start ≤ End`, the sum `last.End+1` wraps to the smallest `int`, the test
`current.Start <= last.End+1` fails, and `mergeRanges` returns both ranges
unmerged although the second lies inside the first: the `Start` 5 of the
second result range is not greater than the `End + 1` of the first.  The
same happens to a range ending at the largest `int` that is listed twice. -/
theorem mergeRanges_keeps_overlap_at_MaxInt64 :
    (∀ r ∈ rangesUpToMax, r.Start ≤ r.End) ∧
      mergeRanges sortByStart rangesUpToMax = [⟨0, 9223372036854775807⟩, ⟨5, 10⟩] ∧
      ¬ (mergeRanges sortByStart rangesUpToMax).Chain' (fun a b => a.End + 1 < b.Start) ∧
      (∀ r ∈ rangesAtMax, r.Start ≤ r.End) ∧
      mergeRanges sortByStart rangesAtMax = rangesAtMax ∧
      ¬ (mergeRanges sortByStart rangesAtMax).Chain' (fun a b => a.End + 1 < b.Start) := by
  have h1 : mergeRanges sortByStart rangesUpToMax = [⟨0, 9223372036854775807⟩, ⟨5, 10⟩] := by
    decide
  have h2 : mergeRanges sortByStart rangesAtMax = rangesAtMax := by decide
  refine ⟨by decide, h1, ?_, by decide, h2, ?_⟩
  · rw [h1]
    simp [List.chain'_cons]
  · rw [h2]
    simp [rangesAtMax, List.chain'_cons]

set_option maxRecDepth 100000 in
/-- C12: on the range that holds only the largest `int`, listed twice,
`mergeRanges` keeps both copies (the sum `last.End+1` wraps) and `Part2`
returns 2, although one integer is covered; on the ranges
`0-9223372036854775807` and `5-10` the sum of the sizes wraps as well and
`Part2` returns -9223372036854775802. -/
theorem Part2_counts_twice_at_MaxInt64 :
    (∀ r ∈ rangesAtMax, r.Start ≤ r.End) ∧
      Part2 sortByStart rangesAtMax = 2 ∧
      (covered rangesAtMax).card = 1 ∧
      Part2 sortByStart rangesUpToMax = -9223372036854775802 := by
  refine ⟨by decide, by decide, ?_, by decide⟩
  simp [covered, rangesAtMax]

end Day5

namespace Day9

theorem abs_eq_natAbs (x : Int) : abs x = (x.natAbs : Int) := by
  unfold abs
  split <;> omega

theorem mem_orderedPairs {α : Type} (l : List α) (a b : α) :
    (a, b) ∈ orderedPairs l ↔ ∃ i j : Nat, i < j ∧ l[i]? = some a ∧ l[j]? = some b := by
  induction l with
  | nil => simp [orderedPairs]
  | cons c rest ih =>
    simp only [orderedPairs, List.mem_append, List.mem_map, Prod.mk.injEq, ih]
    constructor
    · rintro (⟨b', hb', rfl, rfl⟩ | ⟨i, j, hij, hi1, hj1⟩)
      · obtain ⟨k, hk, hkb⟩ := List.getElem_of_mem hb'
        refine ⟨0, k + 1, by omega, by simp, ?_⟩
        rw [List.getElem?_cons_succ, List.getElem?_eq_getElem hk, hkb]
      · exact ⟨i + 1, j + 1, by omega, by simpa using hi1, by simpa using hj1⟩
    · rintro ⟨i, j, hij, hi1, hj1⟩
      cases j with
      | zero => omega
      | succ j =>
        rw [List.getElem?_cons_succ] at hj1
        cases i with
        | zero =>
          left
          rw [List.getElem?_cons_zero] at hi1
          exact ⟨b, List.getElem?_mem hj1, (Option.some.inj hi1), rfl⟩
        | succ i =>
          right
          rw [List.getElem?_cons_succ] at hi1
          exact ⟨i, j, by omega, hi1, hj1⟩

/-- A running maximum bounds its start value and every value visited, and is
the start value or one of the values visited. -/
theorem foldl_max_spec {α : Type} (f : α → Int) (l : List α) :
    ∀ init : Int,
      init ≤ l.foldl (fun maxArea x => if f x > maxArea then f x else maxArea) init ∧
      (∀ x ∈ l, f x ≤ l.foldl (fun maxArea x => if f x > maxArea then f x else maxArea) init) ∧
      (l.foldl (fun maxArea x => if f x > maxArea then f x else maxArea) init = init ∨
        ∃ x ∈ l, f x = l.foldl (fun maxArea x => if f x > maxArea then f x else maxArea) init) := by
  induction l with
  | nil => intro init; simp
  | cons a rest ih =>
    intro init
    simp only [List.foldl_cons]
    obtain ⟨h1, h2, h3⟩ := ih (if f a > init then f a else init)
    by_cases hgt : f a > init
    · simp only [if_pos hgt] at h1 h2 h3 ⊢
      refine ⟨by omega, ?_, ?_⟩
      · intro x hx
        rcases List.mem_cons.mp hx with rfl | hx
        · exact h1
        · exact h2 x hx
      · rcases h3 with h3 | ⟨x, hx, hxe⟩
        · exact Or.inr ⟨a, List.mem_cons_self _ _, h3.symm⟩
        · exact Or.inr ⟨x, List.mem_cons_of_mem _ hx, hxe⟩
    · simp only [if_neg hgt] at h1 h2 h3 ⊢
      refine ⟨h1, ?_, ?_⟩
      · intro x hx
        rcases List.mem_cons.mp hx with rfl | hx
        · omega
        · exact h2 x hx
      · rcases h3 with h3 | ⟨x, hx, hxe⟩
        · exact Or.inl h3
        · exact Or.inr ⟨x, List.mem_cons_of_mem _ hx, hxe⟩

theorem tiles_comm (p q : Point) : tiles p q = tiles q p := by
  unfold tiles
  have h1 : (p.X - q.X).natAbs = (q.X - p.X).natAbs := by omega
  have h2 : (p.Y - q.Y).natAbs = (q.Y - p.Y).natAbs := by omega
  rw [h1, h2]

theorem tiles_pos (p q : Point) : 1 ≤ tiles p q := by
  unfold tiles
  have h1 : (0 : Int) ≤ ((p.X - q.X).natAbs : Int) := Int.ofNat_nonneg _
  have h2 : (0 : Int) ≤ ((p.Y - q.Y).natAbs : Int) := Int.ofNat_nonneg _
  nlinarith

/-- Where the number of tiles fits in an `int`, `RectangleArea` returns it. -/
theorem RectangleArea_eq_of_fits (p q : Point) (hfit : tiles p q < 2 ^ 63) :
    p.RectangleArea q = tiles p q := by
  have h1 : (0 : Int) ≤ ((p.X - q.X).natAbs : Int) := Int.ofNat_nonneg _
  have h2 : (0 : Int) ≤ ((p.Y - q.Y).natAbs : Int) := Int.ofNat_nonneg _
  unfold tiles at hfit
  have hx : ((p.X - q.X).natAbs : Int) + 1 < 2 ^ 63 := by nlinarith
  have hy : ((p.Y - q.Y).natAbs : Int) + 1 < 2 ^ 63 := by nlinarith
  unfold Point.RectangleArea tiles
  simp only []
  have ex : wrapInt (p.X - q.X) = p.X - q.X := wrapInt_eq_self _ (by omega) (by omega)
  have ey : wrapInt (p.Y - q.Y) = p.Y - q.Y := wrapInt_eq_self _ (by omega) (by omega)
  have ax : wrapInt (abs (p.X - q.X)) = ((p.X - q.X).natAbs : Int) := by
    rw [abs_eq_natAbs]
    exact wrapInt_eq_self _ (by omega) (by omega)
  have ay : wrapInt (abs (p.Y - q.Y)) = ((p.Y - q.Y).natAbs : Int) := by
    rw [abs_eq_natAbs]
    exact wrapInt_eq_self _ (by omega) (by omega)
  have wx : wrapInt (((p.X - q.X).natAbs : Int) + 1) = ((p.X - q.X).natAbs : Int) + 1 :=
    wrapInt_eq_self _ (by omega) (by omega)
  have wy : wrapInt (((p.Y - q.Y).natAbs : Int) + 1) = ((p.Y - q.Y).natAbs : Int) + 1 :=
    wrapInt_eq_self _ (by omega) (by omega)
  rw [ex, ey, ax, ay, wx, wy]
  exact wrapInt_eq_self _ (by nlinarith) hfit

/-- Where the number of tiles of every rectangle between input points fits in
an `int`: `p.RectangleArea(q)` is `(|p.X - q.X| + 1) * (|p.Y - q.Y| + 1)`, it
is symmetric in `p` and `q` and at least 1; and for at least 2 input points
Part 1 returns the maximum of this value over all pairs of distinct positions
of the input: the value is attained by some pair and no pair exceeds it. -/
theorem RectangleArea_and_Part1_of_fits (p q : Point) (points : List Point)
    (hlen : 2 ≤ points.length) (hpq : tiles p q < 2 ^ 63)
    (hfit : ∀ a ∈ points, ∀ b ∈ points, tiles a b < 2 ^ 63) :
    p.RectangleArea q = (((p.X - q.X).natAbs : Int) + 1) * (((p.Y - q.Y).natAbs : Int) + 1) ∧
    p.RectangleArea q = q.RectangleArea p ∧
    1 ≤ p.RectangleArea q ∧
    ∃ m, Part1 points = some m ∧
      (∃ i j, i < j ∧ j < points.length ∧
        m = (pointAt points i).RectangleArea (pointAt points j)) ∧
      (∀ i j, i ≠ j → i < points.length → j < points.length →
        (pointAt points i).RectangleArea (pointAt points j) ≤ m) := by
  have hqp : tiles q p < 2 ^ 63 := by rw [tiles_comm]; exact hpq
  refine ⟨RectangleArea_eq_of_fits p q hpq, ?_, ?_, ?_⟩
  · rw [RectangleArea_eq_of_fits p q hpq, RectangleArea_eq_of_fits q p hqp, tiles_comm]
  · rw [RectangleArea_eq_of_fits p q hpq]
    exact tiles_pos p q
  unfold Part1
  rw [if_neg (by omega)]
  obtain ⟨-, hub, hatt⟩ := foldl_max_spec (fun pq : Point × Point => pq.1.RectangleArea pq.2)
    (orderedPairs points) 0
  have hget : ∀ i, i < points.length → points[i]? = some (pointAt points i) := by
    intro i hi
    unfold pointAt
    rw [List.getD_eq_getElem _ _ hi, List.getElem?_eq_getElem hi]
  have hmemP : ∀ i, i < points.length → pointAt points i ∈ points := by
    intro i hi
    exact List.getElem?_mem (hget i hi)
  refine ⟨_, rfl, ?_, ?_⟩
  · rcases hatt with h0 | ⟨⟨a, b⟩, hmem, heq⟩
    · exfalso
      have hmem : (pointAt points 0, pointAt points 1) ∈ orderedPairs points :=
        (mem_orderedPairs points _ _).mpr
          ⟨0, 1, by omega, hget 0 (by omega), hget 1 (by omega)⟩
      have h1 := hub _ hmem
      have h2 := tiles_pos (pointAt points 0) (pointAt points 1)
      rw [← RectangleArea_eq_of_fits _ _
        (hfit _ (hmemP 0 (by omega)) _ (hmemP 1 (by omega)))] at h2
      simp only at h1
      omega
    · obtain ⟨i, j, hij, hi1, hj1⟩ := (mem_orderedPairs points a b).mp hmem
      have hj : j < points.length := by
        by_contra hcon
        rw [List.getElem?_eq_none (by omega)] at hj1
        exact Option.noConfusion hj1
      refine ⟨i, j, hij, hj, ?_⟩
      have e1 := hget i (by omega)
      have e2 := hget j hj
      rw [hi1] at e1
      rw [hj1] at e2
      rw [← Option.some.inj e1, ← Option.some.inj e2]
      exact heq.symm
  · intro i j hne hi hj
    rcases Nat.lt_or_gt_of_ne hne with hlt | hgt
    · exact hub (pointAt points i, pointAt points j)
        ((mem_orderedPairs points _ _).mpr ⟨i, j, hlt, hget i hi, hget j hj⟩)
    · rw [RectangleArea_eq_of_fits _ _ (hfit _ (hmemP i hi) _ (hmemP j hj)), tiles_comm,
        ← RectangleArea_eq_of_fits _ _ (hfit _ (hmemP j hj) _ (hmemP i hi))]
      exact hub (pointAt points j, pointAt points i)
        ((mem_orderedPairs points _ _).mpr ⟨j, i, hgt, hget j hj, hget i hi⟩)

set_option maxRecDepth 100000 in
/-- The example tiles of `day9/part1_test.go`, whose rectangles fit. -/
theorem RectangleArea_and_Part1_of_fits_witness :
    (⟨2, 5⟩ : Point).RectangleArea ⟨11, 1⟩
        = ((((2 : Int) - 11).natAbs : Int) + 1) * ((((5 : Int) - 1).natAbs : Int) + 1) ∧
    (⟨2, 5⟩ : Point).RectangleArea ⟨11, 1⟩ = (⟨11, 1⟩ : Point).RectangleArea ⟨2, 5⟩ ∧
    1 ≤ (⟨2, 5⟩ : Point).RectangleArea ⟨11, 1⟩ ∧
    ∃ m, Part1 examplePolygon = some m ∧
      (∃ i j, i < j ∧ j < examplePolygon.length ∧
        m = (pointAt examplePolygon i).RectangleArea (pointAt examplePolygon j)) ∧
      (∀ i j, i ≠ j → i < examplePolygon.length → j < examplePolygon.length →
        (pointAt examplePolygon i).RectangleArea (pointAt examplePolygon j) ≤ m) :=
  RectangleArea_and_Part1_of_fits ⟨2, 5⟩ ⟨11, 1⟩ examplePolygon (by decide) (by decide)
    (by decide)

set_option maxRecDepth 100000 in
/-- C20: for the points `(0,0)` and `(4294967295,4294967295)` the inclusive
rectangle is `2^32` tiles wide and high and holds 18446744073709551616 tiles;
the product wraps and `RectangleArea` returns 0, which is less than 1, and
`Part1` on these two points returns 0. -/
theorem RectangleArea_wraps_to_zero :
    (⟨0, 0⟩ : Point).RectangleArea ⟨4294967295, 4294967295⟩ = 0 ∧
      ((((0 : Int) - 4294967295).natAbs : Int) + 1) * ((((0 : Int) - 4294967295).natAbs : Int) + 1)
        = 18446744073709551616 ∧
      ¬ (1 ≤ (⟨0, 0⟩ : Point).RectangleArea ⟨4294967295, 4294967295⟩) ∧
      Part1 [⟨0, 0⟩, ⟨4294967295, 4294967295⟩] = some 0 := by
  refine ⟨by decide, by decide, by decide, by decide⟩

set_option maxRecDepth 100000 in
/-- C18: on the closed rectilinear polygon `notchPolygon` the
coordinate-compressed `Part2` returns 15, the area of the rectangle with
corners (0,0) and (4,2), while `Part2BruteForce` returns 8: that rectangle
holds the tile (2,2), which lies in the notch (it is neither red, nor on an
edge, nor inside the polygon), but the notch has no cell of its own in the
compressed grid. -/
theorem Part2_notchPolygon_differs :
    Part2 notchPolygon = some 15 ∧ Part2BruteForce notchPolygon = some 8 ∧
      notchPolygon.contains ⟨2, 2⟩ = false ∧
      (buildEdgeTiles notchPolygon).contains ⟨2, 2⟩ = false ∧
      isInsidePolygon ⟨2, 2⟩ notchPolygon = false := by
  refine ⟨by decide, by decide, by decide, by decide, by decide⟩

theorem mem_intRange (lo hi v : Int) : v ∈ intRange lo hi ↔ lo ≤ v ∧ v ≤ hi := by
  unfold intRange
  simp only [List.mem_map, List.mem_range]
  constructor
  · rintro ⟨k, hk, rfl⟩
    omega
  · rintro ⟨h1, h2⟩
    exact ⟨(v - lo).toNat, by omega, by omega⟩

theorem mem_gridPoints (x0 x1 y0 y1 : Int) (p : Point) :
    p ∈ gridPoints x0 x1 y0 y1 ↔ (x0 ≤ p.X ∧ p.X ≤ x1) ∧ (y0 ≤ p.Y ∧ p.Y ≤ y1) := by
  unfold gridPoints
  simp only [List.mem_flatMap, List.mem_map, mem_intRange]
  constructor
  · rintro ⟨x, hx, y, hy, rfl⟩
    exact ⟨hx, hy⟩
  · rintro ⟨hx, hy⟩
    exact ⟨p.X, hx, p.Y, hy, rfl⟩

theorem mem_topBottomTiles (minX maxX minY maxY : Int) (p : Point) :
    p ∈ topBottomTiles minX maxX minY maxY ↔
      (minX ≤ p.X ∧ p.X ≤ maxX) ∧ (p.Y = minY ∨ p.Y = maxY) := by
  unfold topBottomTiles
  simp only [List.mem_flatMap, mem_intRange, List.mem_cons, List.mem_singleton,
    List.not_mem_nil, or_false]
  constructor
  · rintro ⟨x, hx, rfl | rfl⟩
    · exact ⟨hx, Or.inl rfl⟩
    · exact ⟨hx, Or.inr rfl⟩
  · rintro ⟨hx, hy | hy⟩
    · exact ⟨p.X, hx, Or.inl (by cases p; simp_all)⟩
    · exact ⟨p.X, hx, Or.inr (by cases p; simp_all)⟩

theorem mem_leftRightTiles (minX maxX minY maxY : Int) (p : Point) :
    p ∈ leftRightTiles minX maxX minY maxY ↔
      (minY + 1 ≤ p.Y ∧ p.Y ≤ maxY - 1) ∧ (p.X = minX ∨ p.X = maxX) := by
  unfold leftRightTiles
  simp only [List.mem_flatMap, mem_intRange, List.mem_cons, List.mem_singleton,
    List.not_mem_nil, or_false]
  constructor
  · rintro ⟨y, hy, rfl | rfl⟩
    · exact ⟨hy, Or.inl rfl⟩
    · exact ⟨hy, Or.inr rfl⟩
  · rintro ⟨hy, hx | hx⟩
    · exact ⟨p.Y, hy, Or.inl (by cases p; simp_all)⟩
    · exact ⟨p.Y, hy, Or.inr (by cases p; simp_all)⟩

theorem isValid_spec (redSet edgeTiles : Point → Bool) (polygon : List Point)
    (cache : Point → Option Bool)
    (hcache : ∀ q b, cache q = some b → b = isInsidePolygon q polygon) (p : Point) :
    (isValid redSet edgeTiles polygon cache p).1 = true ↔ tileValid redSet edgeTiles polygon p := by
  unfold isValid tileValid
  by_cases h1 : (redSet p || edgeTiles p) = true
  · rw [if_pos h1]
    simp only [Bool.or_eq_true] at h1
    simp only [true_iff]
    tauto
  · rw [if_neg h1]
    simp only [Bool.or_eq_true, not_or, Bool.not_eq_true] at h1
    cases hc : cache p with
    | some result =>
      simp only [hcache p result hc, h1.1, h1.2, Bool.false_eq_true, false_or]
    | none =>
      simp only [h1.1, h1.2, Bool.false_eq_true, false_or]

theorem isValid_cache (redSet edgeTiles : Point → Bool) (polygon : List Point)
    (cache : Point → Option Bool)
    (hcache : ∀ q b, cache q = some b → b = isInsidePolygon q polygon) (p : Point) :
    ∀ q b, (isValid redSet edgeTiles polygon cache p).2 q = some b →
      b = isInsidePolygon q polygon := by
  unfold isValid
  by_cases h1 : (redSet p || edgeTiles p) = true
  · rw [if_pos h1]; exact hcache
  · rw [if_neg h1]
    cases hc : cache p with
    | some result => exact hcache
    | none =>
      intro q b hq
      simp only at hq
      by_cases hqp : q = p
      · rw [if_pos hqp] at hq
        rw [hqp, ← Option.some.inj hq]
      · rw [if_neg hqp] at hq
        exact hcache q b hq

/-- A checking loop started with a cache that only holds answers of
`isInsidePolygon` runs to the end exactly when every tile it visits is valid,
and leaves such a cache. -/
theorem checkTiles_spec (redSet edgeTiles : Point → Bool) (polygon : List Point)
    (pts : List Point) :
    ∀ cache : Point → Option Bool,
      (∀ q b, cache q = some b → b = isInsidePolygon q polygon) →
      ((checkTiles redSet edgeTiles polygon pts cache).1 = true ↔
        ∀ p ∈ pts, tileValid redSet edgeTiles polygon p) ∧
      (∀ q b, (checkTiles redSet edgeTiles polygon pts cache).2 q = some b →
        b = isInsidePolygon q polygon) := by
  induction pts with
  | nil =>
    intro cache hcache
    exact ⟨by simp [checkTiles], hcache⟩
  | cons p rest ih =>
    intro cache hcache
    have hv := isValid_spec redSet edgeTiles polygon cache hcache p
    have hc := isValid_cache redSet edgeTiles polygon cache hcache p
    simp only [checkTiles]
    by_cases hp : (isValid redSet edgeTiles polygon cache p).1 = true
    · simp only [hp, Bool.not_true, Bool.false_eq_true, if_false]
      obtain ⟨h1, h2⟩ := ih _ hc
      refine ⟨?_, h2⟩
      rw [h1]
      constructor
      · intro hall q hq
        rcases List.mem_cons.mp hq with rfl | hq
        · exact hv.mp hp
        · exact hall q hq
      · intro hall q hq
        exact hall q (List.mem_cons_of_mem _ hq)
    · have hp' : (isValid redSet edgeTiles polygon cache p).1 = false := by
        simpa using hp
      simp only [hp', Bool.not_false, if_true]
      refine ⟨?_, hc⟩
      simp only [Bool.false_eq_true, false_iff]
      intro hall
      exact hp (hv.mpr (hall p (List.mem_cons_self _ _)))

theorem min_le_max (a b : Int) : min a b ≤ max a b := by
  unfold min max
  split <;> split <;> omega

/-- C17 (amended): with a cache that holds only results of `isInsidePolygon`
for the polygon, `isRectangleValid` returns true exactly when every tile of
the inclusive rectangle spanned by `p1` and `p2` is valid (red, edge, or
inside the polygon according to `isInsidePolygon`) if the rectangle has at
most 5000 tiles, and exactly when every tile on the border of the rectangle is
valid if it has more than 5000 tiles; the cache it leaves again holds only
results of `isInsidePolygon`. -/
theorem isRectangleValid_iff (p1 p2 : Point) (redSet edgeTiles : Point → Bool)
    (polygon : List Point) (cache : Point → Option Bool)
    (hcache : ∀ q b, cache q = some b → b = isInsidePolygon q polygon) :
    ((isRectangleValid p1 p2 redSet edgeTiles polygon cache).1 = true ↔
      ∀ p : Point, min p1.X p2.X ≤ p.X → p.X ≤ max p1.X p2.X →
        min p1.Y p2.Y ≤ p.Y → p.Y ≤ max p1.Y p2.Y →
        ((max p1.X p2.X - min p1.X p2.X + 1) * (max p1.Y p2.Y - min p1.Y p2.Y + 1) ≤ 5000 ∨
          p.X = min p1.X p2.X ∨ p.X = max p1.X p2.X ∨
          p.Y = min p1.Y p2.Y ∨ p.Y = max p1.Y p2.Y) →
        tileValid redSet edgeTiles polygon p) ∧
    (∀ q b, (isRectangleValid p1 p2 redSet edgeTiles polygon cache).2 q = some b →
      b = isInsidePolygon q polygon) := by
  have hx := min_le_max p1.X p2.X
  have hy := min_le_max p1.Y p2.Y
  unfold isRectangleValid
  generalize min p1.X p2.X = minX at hx ⊢
  generalize max p1.X p2.X = maxX at hx ⊢
  generalize min p1.Y p2.Y = minY at hy ⊢
  generalize max p1.Y p2.Y = maxY at hy ⊢
  simp only
  by_cases h1000 : (maxX - minX + 1) * (maxY - minY + 1) ≤ 1000
  · rw [if_pos h1000]
    obtain ⟨h1, h2⟩ := checkTiles_spec redSet edgeTiles polygon
      (gridPoints minX maxX minY maxY) cache hcache
    refine ⟨?_, h2⟩
    rw [h1]
    constructor
    · intro hall p a b c d _
      exact hall p ((mem_gridPoints _ _ _ _ p).mpr ⟨⟨a, b⟩, c, d⟩)
    · intro hall p hp
      obtain ⟨⟨a, b⟩, c, d⟩ := (mem_gridPoints _ _ _ _ p).mp hp
      exact hall p a b c d (Or.inl (by omega))
  · rw [if_neg h1000]
    by_cases h5000 : (maxX - minX + 1) * (maxY - minY + 1) > 5000
    · rw [if_pos h5000]
      obtain ⟨h1, h2⟩ := checkTiles_spec redSet edgeTiles polygon
        (topBottomTiles minX maxX minY maxY ++ leftRightTiles minX maxX minY maxY) cache hcache
      refine ⟨?_, h2⟩
      rw [h1]
      constructor
      · intro hall p a b c d hb
        apply hall p
        rw [List.mem_append, mem_topBottomTiles, mem_leftRightTiles]
        rcases hb with hb | hb | hb | hb | hb
        · omega
        · by_cases hyb : p.Y = minY ∨ p.Y = maxY
          · exact Or.inl ⟨⟨a, b⟩, hyb⟩
          · exact Or.inr ⟨by omega, Or.inl hb⟩
        · by_cases hyb : p.Y = minY ∨ p.Y = maxY
          · exact Or.inl ⟨⟨a, b⟩, hyb⟩
          · exact Or.inr ⟨by omega, Or.inr hb⟩
        · exact Or.inl ⟨⟨a, b⟩, Or.inl hb⟩
        · exact Or.inl ⟨⟨a, b⟩, Or.inr hb⟩
      · intro hall p hp
        rw [List.mem_append, mem_topBottomTiles, mem_leftRightTiles] at hp
        rcases hp with ⟨⟨a, b⟩, hyb⟩ | ⟨⟨c, d⟩, hxb⟩
        · rcases hyb with hyb | hyb
          · exact hall p a b (by omega) (by omega) (Or.inr (Or.inr (Or.inr (Or.inl hyb))))
          · exact hall p a b (by omega) (by omega) (Or.inr (Or.inr (Or.inr (Or.inr hyb))))
        · rcases hxb with hxb | hxb
          · exact hall p (by omega) (by omega) (by omega) (by omega) (Or.inr (Or.inl hxb))
          · exact hall p (by omega) (by omega) (by omega) (by omega)
              (Or.inr (Or.inr (Or.inl hxb)))
    · rw [if_neg h5000]
      obtain ⟨h1, h2⟩ := checkTiles_spec redSet edgeTiles polygon
        (topBottomTiles minX maxX minY maxY ++ leftRightTiles minX maxX minY maxY ++
          gridPoints (minX + 1) (maxX - 1) (minY + 1) (maxY - 1)) cache hcache
      refine ⟨?_, h2⟩
      rw [h1]
      constructor
      · intro hall p a b c d _
        apply hall p
        rw [List.mem_append, List.mem_append, mem_topBottomTiles, mem_leftRightTiles,
          mem_gridPoints]
        by_cases hyb : p.Y = minY ∨ p.Y = maxY
        · exact Or.inl (Or.inl ⟨⟨a, b⟩, hyb⟩)
        · by_cases hxb : p.X = minX ∨ p.X = maxX
          · exact Or.inl (Or.inr ⟨by omega, hxb⟩)
          · exact Or.inr ⟨by omega, by omega⟩
      · intro hall p hp
        rw [List.mem_append, List.mem_append, mem_topBottomTiles, mem_leftRightTiles,
          mem_gridPoints] at hp
        have hsmall : (maxX - minX + 1) * (maxY - minY + 1) ≤ 5000 := by omega
        rcases hp with (⟨⟨a, b⟩, hyb⟩ | ⟨⟨c, d⟩, hxb⟩) | ⟨⟨a, b⟩, c, d⟩
        · exact hall p a b (by omega) (by omega) (Or.inl hsmall)
        · exact hall p (by omega) (by omega) (by omega) (by omega) (Or.inl hsmall)
        · exact hall p (by omega) (by omega) (by omega) (by omega) (Or.inl hsmall)

/-- Witness for C17 (amended): the rectangle from (7,3) to (11,1) of the
example polygon, with an empty cache. -/
theorem isRectangleValid_iff_witness :
    ((isRectangleValid ⟨7, 3⟩ ⟨11, 1⟩ (fun p => examplePolygon.contains p)
        (fun p => (buildEdgeTiles examplePolygon).contains p) examplePolygon
        (fun _ => none)).1 = true ↔
      ∀ p : Point, min 7 11 ≤ p.X → p.X ≤ max 7 11 → min 3 1 ≤ p.Y → p.Y ≤ max 3 1 →
        ((max 7 11 - min 7 11 + 1) * (max 3 1 - min 3 1 + 1) ≤ 5000 ∨
          p.X = min 7 11 ∨ p.X = max 7 11 ∨ p.Y = min 3 1 ∨ p.Y = max 3 1) →
        tileValid (fun p => examplePolygon.contains p)
          (fun p => (buildEdgeTiles examplePolygon).contains p) examplePolygon p) ∧
    (∀ q b, (isRectangleValid ⟨7, 3⟩ ⟨11, 1⟩ (fun p => examplePolygon.contains p)
        (fun p => (buildEdgeTiles examplePolygon).contains p) examplePolygon
        (fun _ => none)).2 q = some b → b = isInsidePolygon q examplePolygon) :=
  isRectangleValid_iff ⟨7, 3⟩ ⟨11, 1⟩ (fun p => examplePolygon.contains p)
    (fun p => (buildEdgeTiles examplePolygon).contains p) examplePolygon (fun _ => none)
    (fun _ _ h => Option.noConfusion h)

theorem mem_foldl_cons_if {α β : Type} (P : α → Prop) [DecidablePred P] (f : α → β)
    (l : List α) :
    ∀ (g : List β) (q : β),
      q ∈ l.foldl (fun g v => if P v then f v :: g else g) g ↔
        q ∈ g ∨ ∃ v ∈ l, P v ∧ q = f v := by
  induction l with
  | nil => intro g q; simp
  | cons a rest ih =>
    intro g q
    simp only [List.foldl_cons, ih, List.mem_cons]
    by_cases ha : P a
    · simp only [if_pos ha, List.mem_cons]
      constructor
      · rintro ((rfl | h) | ⟨v, hv, hp, rfl⟩)
        · exact Or.inr ⟨a, Or.inl rfl, ha, rfl⟩
        · exact Or.inl h
        · exact Or.inr ⟨v, Or.inr hv, hp, rfl⟩
      · rintro (h | ⟨v, rfl | hv, hp, rfl⟩)
        · exact Or.inl (Or.inr h)
        · exact Or.inl (Or.inl rfl)
        · exact Or.inr ⟨v, hv, hp, rfl⟩
    · simp only [if_neg ha]
      constructor
      · rintro (h | ⟨v, hv, hp, rfl⟩)
        · exact Or.inl h
        · exact Or.inr ⟨v, Or.inr hv, hp, rfl⟩
      · rintro (h | ⟨v, rfl | hv, hp, rfl⟩)
        · exact Or.inl h
        · exact absurd hp ha
        · exact Or.inr ⟨v, hv, hp, rfl⟩

/-- The tiles added by `addLineTiles`: those strictly between the two ends of
a vertical or horizontal segment. -/
theorem mem_addLineTiles (g : List Point) (a b q : Point) :
    q ∈ addLineTiles g a b ↔
      q ∈ g ∨
      (a.X = b.X ∧ q.X = a.X ∧ min a.Y b.Y ≤ q.Y ∧ q.Y ≤ max a.Y b.Y ∧ q ≠ a ∧ q ≠ b) ∨
      (a.X ≠ b.X ∧ a.Y = b.Y ∧ q.Y = a.Y ∧ min a.X b.X ≤ q.X ∧ q.X ≤ max a.X b.X ∧
        q ≠ a ∧ q ≠ b) := by
  unfold addLineTiles
  by_cases hx : a.X = b.X
  · rw [if_pos hx]
    rw [mem_foldl_cons_if (fun y => (⟨a.X, y⟩ : Point) ≠ a ∧ (⟨a.X, y⟩ : Point) ≠ b)
      (fun y => (⟨a.X, y⟩ : Point))]
    simp only [mem_intRange]
    constructor
    · rintro (h | ⟨y, ⟨h1, h2⟩, ⟨h3, h4⟩, rfl⟩)
      · exact Or.inl h
      · exact Or.inr (Or.inl ⟨hx, rfl, h1, h2, h3, h4⟩)
    · rintro (h | ⟨-, h0, h1, h2, h3, h4⟩ | ⟨hne, _⟩)
      · exact Or.inl h
      · have hq : q = ⟨a.X, q.Y⟩ := by cases q; simp_all
        exact Or.inr ⟨q.Y, ⟨h1, h2⟩, ⟨hq ▸ h3, hq ▸ h4⟩, hq⟩
      · exact absurd hx hne
  · rw [if_neg hx]
    by_cases hy : a.Y = b.Y
    · rw [if_pos hy]
      rw [mem_foldl_cons_if (fun x => (⟨x, a.Y⟩ : Point) ≠ a ∧ (⟨x, a.Y⟩ : Point) ≠ b)
        (fun x => (⟨x, a.Y⟩ : Point))]
      simp only [mem_intRange]
      constructor
      · rintro (h | ⟨x, ⟨h1, h2⟩, ⟨h3, h4⟩, rfl⟩)
        · exact Or.inl h
        · exact Or.inr (Or.inr ⟨hx, hy, rfl, h1, h2, h3, h4⟩)
      · rintro (h | ⟨he, _⟩ | ⟨-, -, h0, h1, h2, h3, h4⟩)
        · exact Or.inl h
        · exact absurd he hx
        · have hq : q = ⟨q.X, a.Y⟩ := by cases q; simp_all
          exact Or.inr ⟨q.X, ⟨h1, h2⟩, ⟨hq ▸ h3, hq ▸ h4⟩, hq⟩
    · rw [if_neg hy]
      constructor
      · intro h; exact Or.inl h
      · rintro (h | ⟨he, _⟩ | ⟨-, he, _⟩)
        · exact h
        · exact absurd he hx
        · exact absurd he hy

/-- The interior pass of `BuildGreenTiles` adds exactly the visited tiles that
are not red and are inside the polygon. -/
theorem mem_interior_fold (redTiles : List Point) (pts : List Point) :
    ∀ (g : List Point) (q : Point),
      q ∈ pts.foldl
        (fun g p =>
          if g.contains p then g
          else if redTiles.contains p then g
          else if isInsidePolygon p redTiles then p :: g
          else g) g ↔
        q ∈ g ∨ (q ∈ pts ∧ q ∉ redTiles ∧ isInsidePolygon q redTiles = true) := by
  induction pts with
  | nil => intro g q; simp
  | cons p rest ih =>
    intro g q
    simp only [List.foldl_cons, ih, List.mem_cons]
    by_cases h1 : g.contains p = true
    · simp only [h1, if_true]
      have hpg : p ∈ g := by simpa using h1
      constructor
      · rintro (h | ⟨h, h2, h3⟩)
        · exact Or.inl h
        · exact Or.inr ⟨Or.inr h, h2, h3⟩
      · rintro (h | ⟨rfl | h, h2, h3⟩)
        · exact Or.inl h
        · exact Or.inl hpg
        · exact Or.inr ⟨h, h2, h3⟩
    · simp only [h1, Bool.false_eq_true, if_false]
      by_cases h2 : redTiles.contains p = true
      · simp only [h2, if_true]
        have hpr : p ∈ redTiles := by simpa using h2
        constructor
        · rintro (h | ⟨h, h2, h3⟩)
          · exact Or.inl h
          · exact Or.inr ⟨Or.inr h, h2, h3⟩
        · rintro (h | ⟨rfl | h, h2, h3⟩)
          · exact Or.inl h
          · exact absurd hpr h2
          · exact Or.inr ⟨h, h2, h3⟩
      · simp only [h2, Bool.false_eq_true, if_false]
        have hpr : p ∉ redTiles := by simpa using h2
        by_cases h3 : isInsidePolygon p redTiles = true
        · simp only [h3, if_true, List.mem_cons]
          constructor
          · rintro ((rfl | h) | ⟨h, h4, h5⟩)
            · exact Or.inr ⟨Or.inl rfl, hpr, h3⟩
            · exact Or.inl h
            · exact Or.inr ⟨Or.inr h, h4, h5⟩
          · rintro (h | ⟨rfl | h, h4, h5⟩)
            · exact Or.inl (Or.inr h)
            · exact Or.inl (Or.inl rfl)
            · exact Or.inr ⟨h, h4, h5⟩
        · simp only [h3, Bool.false_eq_true, if_false]
          constructor
          · rintro (h | ⟨h, h4, h5⟩)
            · exact Or.inl h
            · exact Or.inr ⟨Or.inr h, h4, h5⟩
          · rintro (h | ⟨rfl | h, h4, h5⟩)
            · exact Or.inl h
            · exact absurd h5 h3
            · exact Or.inr ⟨h, h4, h5⟩

/-- The ray-casting test on the rectangle with corners given in order. -/
theorem isInsidePolygon_rectangle (x0 x1 y0 y1 : Int) (p : Point) :
    isInsidePolygon p [⟨x0, y0⟩, ⟨x1, y0⟩, ⟨x1, y1⟩, ⟨x0, y1⟩] =
      ((decide (y0 > p.Y) != decide (y1 > p.Y)) && (decide (p.X < x1) != decide (p.X < x0))) := by
  unfold isInsidePolygon
  have hr : List.range 4 = [0, 1, 2, 3] := by decide
  simp only [List.length_cons, List.length_nil, hr, List.foldl_cons, List.foldl_nil, pointAt]
  simp only [List.getD_eq_getElem?_getD]
  simp
  by_cases h1 : p.Y < y0 <;> by_cases h2 : p.Y < y1 <;> by_cases h3 : p.X < x0 <;>
    by_cases h4 : p.X < x1 <;> simp [h1, h2, h3, h4]

theorem boundingBox_rectangle (x0 x1 y0 y1 : Int) (hx : x0 < x1) (hy : y0 < y1) :
    boundingBox [⟨x0, y0⟩, ⟨x1, y0⟩, ⟨x1, y1⟩, ⟨x0, y1⟩] = (x0, x1, y0, y1) := by
  have h1 : ¬ (x1 < x0) := by omega
  have h2 : ¬ (y1 < y0) := by omega
  have h3 : ¬ (x0 > x1) := by omega
  have h4 : ¬ (y0 > y1) := by omega
  simp [boundingBox, pointAt, min, max, hx, hy, h1, h2, h3, h4]

theorem mem_buildEdgeTiles_rectangle (x0 x1 y0 y1 : Int) (hx : x0 < x1) (hy : y0 < y1)
    (q : Point) :
    q ∈ buildEdgeTiles [⟨x0, y0⟩, ⟨x1, y0⟩, ⟨x1, y1⟩, ⟨x0, y1⟩] ↔
      ((q.Y = y0 ∨ q.Y = y1) ∧ x0 < q.X ∧ q.X < x1) ∨
      ((q.X = x0 ∨ q.X = x1) ∧ y0 < q.Y ∧ q.Y < y1) := by
  unfold buildEdgeTiles
  have hr : List.range 4 = [0, 1, 2, 3] := by decide
  simp only [List.length_cons, List.length_nil, hr, List.foldl_cons, List.foldl_nil, pointAt]
  simp only [mem_addLineTiles, List.getD_eq_getElem?_getD]
  obtain ⟨qx, qy⟩ := q
  have h1 : ¬ (x1 < x0) := by omega
  have h2 : ¬ (y1 < y0) := by omega
  have h3 : ¬ (x0 > x1) := by omega
  have h4 : ¬ (y0 > y1) := by omega
  simp [min, max, hx, hy, h1, h2, h3, h4]
  constructor
  · rintro ((((⟨he, -⟩ | ⟨-, rfl, a, b, c, d⟩) | ⟨rfl, a, b, c, d⟩) |
      (⟨he, -⟩ | ⟨-, rfl, a, b, c, d⟩)) | ⟨rfl, a, b, c, d⟩)
    · omega
    · exact Or.inl ⟨Or.inl rfl, by omega, by omega⟩
    · exact Or.inr ⟨Or.inr rfl, by omega, by omega⟩
    · omega
    · exact Or.inl ⟨Or.inr rfl, by omega, by omega⟩
    · exact Or.inr ⟨Or.inl rfl, by omega, by omega⟩
  · rintro (⟨hq | hq, a, b⟩ | ⟨hq | hq, a, b⟩)
    · exact Or.inl (Or.inl (Or.inl (Or.inr
        ⟨by omega, hq, by omega, by omega, by omega, by omega⟩)))
    · exact Or.inl (Or.inr (Or.inr
        ⟨by omega, hq, by omega, by omega, by omega, by omega⟩))
    · exact Or.inr ⟨hq, by omega, by omega, by omega, by omega⟩
    · exact Or.inl (Or.inl (Or.inr ⟨hq, by omega, by omega, by omega, by omega⟩))

/-- C19: for every axis-aligned rectangle given by its four corners in order,
`(x0,y0), (x1,y0), (x1,y1), (x0,y1)` with `x0 < x1` and `y0 < y1`,
`BuildGreenTiles` returns exactly the tiles of the closed rectangle other than
the four red corners: a tile is green exactly when it lies in the closed
rectangle and is not a corner. -/
theorem BuildGreenTiles_rectangle (x0 x1 y0 y1 : Int) (hx : x0 < x1) (hy : y0 < y1)
    (q : Point) :
    q ∈ BuildGreenTiles [⟨x0, y0⟩, ⟨x1, y0⟩, ⟨x1, y1⟩, ⟨x0, y1⟩] ↔
      (x0 ≤ q.X ∧ q.X ≤ x1 ∧ y0 ≤ q.Y ∧ q.Y ≤ y1) ∧
        q ∉ [(⟨x0, y0⟩ : Point), ⟨x1, y0⟩, ⟨x1, y1⟩, ⟨x0, y1⟩] := by
  unfold BuildGreenTiles
  simp only [List.length_cons, List.length_nil]
  rw [if_neg (by omega), boundingBox_rectangle x0 x1 y0 y1 hx hy]
  simp only
  rw [mem_interior_fold, mem_buildEdgeTiles_rectangle x0 x1 y0 y1 hx hy, mem_gridPoints,
    isInsidePolygon_rectangle]
  obtain ⟨qx, qy⟩ := q
  simp only [List.mem_cons, Point.mk.injEq, List.mem_singleton, List.not_mem_nil, or_false,
    Bool.and_eq_true, bne_iff_ne, ne_eq, decide_eq_decide, not_or, not_and]
  constructor
  · intro h
    rcases h with (⟨hq | hq, a, b⟩ | ⟨hq | hq, a, b⟩) | h
    · exact ⟨⟨by omega, by omega, by omega, by omega⟩, by omega, by omega, by omega, by omega⟩
    · exact ⟨⟨by omega, by omega, by omega, by omega⟩, by omega, by omega, by omega, by omega⟩
    · exact ⟨⟨by omega, by omega, by omega, by omega⟩, by omega, by omega, by omega, by omega⟩
    · exact ⟨⟨by omega, by omega, by omega, by omega⟩, by omega, by omega, by omega, by omega⟩
    · obtain ⟨⟨⟨a, b⟩, c, d⟩, ⟨e1, e2, e3, e4⟩, -⟩ := h
      exact ⟨⟨a, b, c, d⟩, e1, e2, e3, e4⟩
  · rintro ⟨⟨a, b, c, d⟩, e1, e2, e3, e4⟩
    by_cases hb1 : (qy = y0 ∨ qy = y1) ∧ x0 < qx ∧ qx < x1
    · exact Or.inl (Or.inl hb1)
    · by_cases hb2 : (qx = x0 ∨ qx = x1) ∧ y0 < qy ∧ qy < y1
      · exact Or.inl (Or.inr hb2)
      · refine Or.inr ⟨⟨⟨a, b⟩, c, d⟩, ⟨e1, e2, e3, e4⟩, ?_, ?_⟩
        · intro hiff
          have hlt : y1 > qy := by omega
          have h0 := hiff.mpr hlt
          omega
        · intro hiff
          have hlt : qx < x1 := by omega
          have h0 := hiff.mp hlt
          omega

/-- Witness for C19: the square of `TestBuildGreenTiles`, at its centre. -/
theorem BuildGreenTiles_rectangle_witness :
    (⟨1, 1⟩ : Point) ∈ BuildGreenTiles [⟨0, 0⟩, ⟨2, 0⟩, ⟨2, 2⟩, ⟨0, 2⟩] ↔
      ((0 : Int) ≤ (⟨1, 1⟩ : Point).X ∧ (⟨1, 1⟩ : Point).X ≤ 2 ∧
        (0 : Int) ≤ (⟨1, 1⟩ : Point).Y ∧ (⟨1, 1⟩ : Point).Y ≤ 2) ∧
        (⟨1, 1⟩ : Point) ∉ [(⟨0, 0⟩ : Point), ⟨2, 0⟩, ⟨2, 2⟩, ⟨0, 2⟩] :=
  BuildGreenTiles_rectangle 0 2 0 2 (by decide) (by decide) ⟨1, 1⟩

theorem mem_addLineTiles_iff_nil (g : List Point) (a b q : Point) :
    q ∈ addLineTiles g a b ↔ q ∈ g ∨ q ∈ addLineTiles [] a b := by
  rw [mem_addLineTiles, mem_addLineTiles [] a b]
  simp only [List.not_mem_nil, false_or]

/-- The edge tiles of a closed chain are the tiles added for one of its
segments. -/
theorem mem_buildEdgeTiles (tiles : List Point) (q : Point) :
    q ∈ buildEdgeTiles tiles ↔
      ∃ i, i < tiles.length ∧
        q ∈ addLineTiles [] (pointAt tiles i) (pointAt tiles ((i + 1) % tiles.length)) := by
  unfold buildEdgeTiles
  have gen : ∀ (l : List Nat) (g : List Point),
      q ∈ l.foldl (fun g i =>
        addLineTiles g (pointAt tiles i) (pointAt tiles ((i + 1) % tiles.length))) g ↔
      q ∈ g ∨ ∃ i ∈ l,
        q ∈ addLineTiles [] (pointAt tiles i) (pointAt tiles ((i + 1) % tiles.length)) := by
    intro l
    induction l with
    | nil => intro g; simp
    | cons a rest ih =>
      intro g
      simp only [List.foldl_cons, ih, List.mem_cons, exists_eq_or_imp]
      rw [mem_addLineTiles_iff_nil]
      tauto
  simp only
  rw [gen]
  simp only [List.not_mem_nil, false_or, List.mem_range]

/-- A tile strictly between two consecutive corners of `doubleSquare` on an
axis-parallel side is one of its edge tiles. -/
theorem doubleSquare_edge (i : Nat) (hi : i < 8) (q : Point)
    (h : q ∈ addLineTiles [] (pointAt doubleSquare i) (pointAt doubleSquare ((i + 1) % 8))) :
    (buildEdgeTiles doubleSquare).contains q = true := by
  have hmem : (buildEdgeTiles doubleSquare).contains q = true ↔
      q ∈ buildEdgeTiles doubleSquare := by simp
  rw [hmem, mem_buildEdgeTiles]
  exact ⟨i, hi, h⟩

theorem doubleSquare_border_valid (x y : Int) (hx0 : 0 ≤ x) (hx1 : x ≤ 70) (hy0 : 0 ≤ y)
    (hy1 : y ≤ 70) (hb : x = 0 ∨ x = 70 ∨ y = 0 ∨ y = 70) :
    tileValid (fun p => doubleSquare.contains p)
      (fun p => (buildEdgeTiles doubleSquare).contains p) doubleSquare ⟨x, y⟩ := by
  unfold tileValid
  have hxc : x = 0 ∨ x = 70 ∨ (0 < x ∧ x < 70) := by omega
  have hyc : y = 0 ∨ y = 70 ∨ (0 < y ∧ y < 70) := by omega
  rcases hxc with rfl | rfl | ⟨hxa, hxb⟩
  · rcases hyc with rfl | rfl | ⟨hya, hyb⟩
    · exact Or.inl (by decide)
    · exact Or.inl (by decide)
    · refine Or.inr (Or.inl (doubleSquare_edge 3 (by decide) _ ?_))
      rw [mem_addLineTiles]
      refine Or.inr (Or.inl ⟨rfl, rfl, ?_, ?_, ?_, ?_⟩)
      · show min 70 0 ≤ y
        simp only [min]; rw [if_neg (by decide)]; omega
      · show y ≤ max 70 0
        simp only [max]; rw [if_pos (by decide)]; omega
      · intro h; injection h with _ h2; omega
      · intro h; injection h with _ h2; omega
  · rcases hyc with rfl | rfl | ⟨hya, hyb⟩
    · exact Or.inl (by decide)
    · exact Or.inl (by decide)
    · refine Or.inr (Or.inl (doubleSquare_edge 1 (by decide) _ ?_))
      rw [mem_addLineTiles]
      refine Or.inr (Or.inl ⟨rfl, rfl, ?_, ?_, ?_, ?_⟩)
      · show min 0 70 ≤ y
        simp only [min]; rw [if_pos (by decide)]; omega
      · show y ≤ max 0 70
        simp only [max]; rw [if_neg (by decide)]; omega
      · intro h; injection h with _ h2; omega
      · intro h; injection h with _ h2; omega
  · have hyb : y = 0 ∨ y = 70 := by omega
    rcases hyb with rfl | rfl
    · refine Or.inr (Or.inl (doubleSquare_edge 0 (by decide) _ ?_))
      rw [mem_addLineTiles]
      refine Or.inr (Or.inr ⟨by decide, rfl, rfl, ?_, ?_, ?_, ?_⟩)
      · show min 0 70 ≤ x
        simp only [min]; rw [if_pos (by decide)]; omega
      · show x ≤ max 0 70
        simp only [max]; rw [if_neg (by decide)]; omega
      · intro h; injection h with h1 _; omega
      · intro h; injection h with h1 _; omega
    · refine Or.inr (Or.inl (doubleSquare_edge 2 (by decide) _ ?_))
      rw [mem_addLineTiles]
      refine Or.inr (Or.inr ⟨by decide, rfl, rfl, ?_, ?_, ?_, ?_⟩)
      · show min 70 0 ≤ x
        simp only [min]; rw [if_neg (by decide)]; omega
      · show x ≤ max 70 0
        simp only [max]; rw [if_pos (by decide)]; omega
      · intro h; injection h with h1 _; omega
      · intro h; injection h with h1 _; omega

theorem doubleSquare_inner_not_edge :
    (buildEdgeTiles doubleSquare).contains (⟨1, 1⟩ : Point) = false := by
  rw [Bool.eq_false_iff]
  intro hc
  have hmem : (⟨1, 1⟩ : Point) ∈ buildEdgeTiles doubleSquare := by simpa using hc
  rw [mem_buildEdgeTiles] at hmem
  obtain ⟨i, hi, h⟩ := hmem
  rw [mem_addLineTiles] at h
  have hl : doubleSquare.length = 8 := rfl
  rw [hl] at hi h
  have hcases : ∀ j, j < 8 →
      ((pointAt doubleSquare j).X = 0 ∨ (pointAt doubleSquare j).X = 70) ∧
      ((pointAt doubleSquare j).Y = 0 ∨ (pointAt doubleSquare j).Y = 70) := by decide
  have h1 := hcases i hi
  rcases h with h | ⟨-, hq, -⟩ | ⟨-, -, hq, -⟩
  · exact absurd h (List.not_mem_nil _)
  · have : (1 : Int) = (pointAt doubleSquare i).X := hq
    omega
  · have : (1 : Int) = (pointAt doubleSquare i).Y := hq
    omega

/-- C17 (counterexample): for the polygon `doubleSquare`, with the red set and
the edge tiles built from it and an empty cache, `isRectangleValid` accepts
the rectangle from (0,0) to (70,70), which has 5041 tiles, although its tile
(1,1) is neither red, nor an edge tile, nor inside the polygon according to
`isInsidePolygon`. -/
theorem isRectangleValid_doubleSquare :
    (isRectangleValid ⟨0, 0⟩ ⟨70, 70⟩ (fun p => doubleSquare.contains p)
        (fun p => (buildEdgeTiles doubleSquare).contains p) doubleSquare
        (fun _ => none)).1 = true ∧
    ¬ tileValid (fun p => doubleSquare.contains p)
        (fun p => (buildEdgeTiles doubleSquare).contains p) doubleSquare ⟨1, 1⟩ := by
  constructor
  · rw [(isRectangleValid_iff ⟨0, 0⟩ ⟨70, 70⟩ (fun p => doubleSquare.contains p)
      (fun p => (buildEdgeTiles doubleSquare).contains p) doubleSquare (fun _ => none)
      (fun _ _ h => Option.noConfusion h)).1]
    have hmin : min 0 70 = 0 := by decide
    have hmax : max 0 70 = 70 := by decide
    simp only [hmin, hmax]
    rintro ⟨x, y⟩ hx0 hx1 hy0 hy1 hb
    simp only at hx0 hx1 hy0 hy1 hb
    exact doubleSquare_border_valid x y hx0 hx1 hy0 hy1 (by omega)
  · unfold tileValid
    simp only [doubleSquare_inner_not_edge]
    decide

end Day9

namespace Day25

set_option maxRecDepth 100000 in
/-- C16: on the acyclic graph `twoReactors` there is one directed path from
START to REACTOR_A and there are two to REACTOR_B, three in all, yet
`CountAllPathsToReactors` returns 2 when the map loops visit REACTOR_A first
and 4 when they visit REACTOR_B first: the memo table is shared between the
reactors, so the count stored for START while counting the paths to the first
reactor is returned for the second one. -/
theorem CountAllPathsToReactors_shared_memo :
    pathsTo twoReactors "REACTOR_A" 3 "START" = [["START", "REACTOR_A"]] ∧
    pathsTo twoReactors "REACTOR_B" 3 "START"
      = [["START", "M", "REACTOR_B"], ["START", "REACTOR_B"]] ∧
    GetReactors twoReactors = ["REACTOR_A", "REACTOR_B"] ∧
    CountAllPathsToReactors twoReactors 4 = some 2 ∧
    GetReactors twoReactorsSwapped = ["REACTOR_B", "REACTOR_A"] ∧
    CountAllPathsToReactors twoReactorsSwapped 4 = some 4 := by
  refine ⟨by decide, by decide, by decide, by decide, by decide, by decide⟩

end Day25

namespace Day8

theorem getD_set_self (l : List Nat) (i v : Nat) (h : i < l.length) :
    (l.set i v).getD i 0 = v := by
  simp [List.getD_eq_getElem?_getD, List.getElem?_set_self h]

theorem getD_set_other (l : List Nat) (i j v : Nat) (h : i ≠ j) :
    (l.set i v).getD j 0 = l.getD j 0 := by
  simp [List.getD_eq_getElem?_getD, List.getElem?_set_ne h]

theorem newUnionFind_fold (n k : Nat) (hk : k ≤ n) :
    let uf := (List.range k).foldl
      (fun (uf : UnionFind) i => { uf with parent := uf.parent.set i i, size := uf.size.set i 1 })
      { parent := List.replicate n 0, rank := List.replicate n 0, size := List.replicate n 0 }
    uf.parent.length = n ∧ uf.rank = List.replicate n 0 ∧ uf.size.length = n ∧
      (∀ j, j < k → uf.parent.getD j 0 = j ∧ uf.size.getD j 0 = 1) := by
  induction k with
  | zero => simp
  | succ k ih =>
    obtain ⟨h1, h2, h3, h4⟩ := ih (by omega)
    simp only [List.range_succ, List.foldl_append, List.foldl_cons, List.foldl_nil]
    refine ⟨by simpa using h1, h2, by simpa using h3, ?_⟩
    intro j hj
    by_cases hjk : j = k
    · subst hjk
      exact ⟨getD_set_self _ _ _ (by omega), getD_set_self _ _ _ (by omega)⟩
    · rw [getD_set_other _ _ _ _ (fun h => hjk h.symm), getD_set_other _ _ _ _ (fun h => hjk h.symm)]
      exact h4 j (by omega)

theorem newUnionFind_spec (n : Nat) :
    (NewUnionFind n).parent.length = n ∧ (NewUnionFind n).rank = List.replicate n 0 ∧
      (NewUnionFind n).size.length = n ∧
      (∀ j, j < n → (NewUnionFind n).parent.getD j 0 = j ∧ (NewUnionFind n).size.getD j 0 = 1) :=
  newUnionFind_fold n n (le_refl n)

/-- Every element starts as its own root, in a set of size 1. -/
theorem inv_new (n : Nat) : Inv n (fun x => x) (NewUnionFind n) := by
  obtain ⟨h1, h2, h3, h4⟩ := newUnionFind_spec n
  refine ⟨h1, by rw [h2]; simp, h3, fun x hx => hx, fun x hx => (h4 x hx).1, ?_,
    fun x _ _ => rfl, ?_, ?_, ?_, ?_⟩
  · intro x hx; rw [(h4 x hx).1]
  · intro x hx; rw [(h4 x hx).1]; exact hx
  · intro x hx hne; exact absurd (h4 x hx).1 hne
  · intro r hr _
    rw [(h4 r hr).2]
    have : (Finset.range n).filter (fun x => x = r) = {r} := by
      ext x
      simp only [Finset.mem_filter, Finset.mem_range, Finset.mem_singleton]
      constructor
      · exact fun h => h.2
      · rintro rfl; exact ⟨hr, rfl⟩
    rw [this, Finset.card_singleton]
  · intro r hr _
    rw [(h4 r hr).2, h2]
    simp [List.getD_eq_getElem?_getD, hr]

theorem getD_le_sum (l : List Nat) (i : Nat) : l.getD i 0 ≤ l.sum := by
  induction l generalizing i with
  | nil => simp
  | cons a rest ih =>
    cases i with
    | zero => simp
    | succ i =>
      have := ih i
      simp only [List.getD_cons_succ, List.sum_cons]
      omega

/-- Ranks grow from an element to its root, and parent links lead there. -/
theorem rank_to_rep (n : Nat) (rep : Nat → Nat) (uf : UnionFind) (h : Inv n rep uf) (d : Nat) :
    ∀ x, x < n → uf.rank.sum - uf.rank.getD x 0 ≤ d →
      (rep x ≠ x → uf.rank.getD x 0 < uf.rank.getD (rep x) 0) ∧ leadsTo uf x (rep x) := by
  induction d with
  | zero =>
    intro x hx hd
    by_cases hroot : uf.parent.getD x 0 = x
    · have := h.rootRep x hx hroot
      exact ⟨fun hne => absurd this hne, ⟨0, by simp [this]⟩⟩
    · have h1 := h.rankInc x hx hroot
      have h2 := getD_le_sum uf.rank (uf.parent.getD x 0)
      omega
  | succ d ih =>
    intro x hx hd
    by_cases hroot : uf.parent.getD x 0 = x
    · have := h.rootRep x hx hroot
      exact ⟨fun hne => absurd this hne, ⟨0, by simp [this]⟩⟩
    · have h1 := h.rankInc x hx hroot
      have h2 := getD_le_sum uf.rank (uf.parent.getD x 0)
      have hp := h.parentLt x hx
      obtain ⟨ih1, k, hk⟩ := ih (uf.parent.getD x 0) hp (by omega)
      rw [h.repParent x hx] at ih1 hk
      refine ⟨fun _ => ?_, ⟨k + 1, by simpa [Function.iterate_succ_apply] using hk⟩⟩
      by_cases hpr : rep x = uf.parent.getD x 0
      · rw [hpr]; exact h1
      · have := ih1 hpr
        omega

theorem rank_lt_rep (n : Nat) (rep : Nat → Nat) (uf : UnionFind) (h : Inv n rep uf)
    (x : Nat) (hx : x < n) (hne : rep x ≠ x) : uf.rank.getD x 0 < uf.rank.getD (rep x) 0 :=
  (rank_to_rep n rep uf h _ x hx (le_refl _)).1 hne

theorem leadsTo_rep (n : Nat) (rep : Nat → Nat) (uf : UnionFind) (h : Inv n rep uf)
    (x : Nat) (hx : x < n) : leadsTo uf x (rep x) :=
  (rank_to_rep n rep uf h _ x hx (le_refl _)).2

theorem rank_lt_n (n : Nat) (rep : Nat → Nat) (uf : UnionFind) (h : Inv n rep uf)
    (x : Nat) (hx : x < n) : uf.rank.getD (rep x) 0 < n := by
  have h1 := h.rankSize (rep x) (h.repLt x hx) (h.repRoot x hx)
  have h2 := h.sizeRoot (rep x) (h.repLt x hx) (h.repRoot x hx)
  have h3 : ((Finset.range n).filter (fun y => rep y = rep x)).card ≤ n := by
    calc ((Finset.range n).filter (fun y => rep y = rep x)).card
        ≤ (Finset.range n).card := Finset.card_filter_le _ _
      _ = n := Finset.card_range n
  omega

/-- With enough fuel `Find` returns the root named by `rep`, and path
compression keeps the invariant with the same `rep`, the ranks, the sizes and
the roots. -/
theorem findAux_spec (n : Nat) (rep : Nat → Nat) (fuel : Nat) :
    ∀ (uf : UnionFind) (x : Nat), Inv n rep uf → x < n →
      uf.rank.getD (rep x) 0 - uf.rank.getD x 0 < fuel →
      ∃ uf1, findAux fuel uf x = some (rep x, uf1) ∧ Inv n rep uf1 ∧
        uf1.rank = uf.rank ∧ uf1.size = uf.size ∧
        (∀ z, z < n → (uf1.parent.getD z 0 = z ↔ uf.parent.getD z 0 = z)) := by
  induction fuel with
  | zero => intro uf x _ _ h; omega
  | succ fuel ih =>
    intro uf x hinv hx hfuel
    simp only [findAux]
    by_cases hroot : uf.parent.getD x 0 = x
    · rw [if_neg (not_not.mpr hroot)]
      refine ⟨uf, ?_, hinv, rfl, rfl, fun z _ => Iff.rfl⟩
      rw [hroot, hinv.rootRep x hx hroot]
    · rw [if_pos hroot]
      have hp := hinv.parentLt x hx
      have hrp := hinv.repParent x hx
      have hinc := hinv.rankInc x hx hroot
      have hle : uf.rank.getD (uf.parent.getD x 0) 0 ≤ uf.rank.getD (rep x) 0 := by
        by_cases hpr : rep (uf.parent.getD x 0) = uf.parent.getD x 0
        · rw [← hrp, hpr]
        · have := rank_lt_rep n rep uf hinv _ hp hpr
          rw [hrp] at this
          omega
      obtain ⟨uf1, hrun, hinv1, hrank, hsize, hroots⟩ :=
        ih uf (uf.parent.getD x 0) hinv hp (by rw [hrp]; omega)
      rw [hrun, hrp]
      have hxlen : x < uf1.parent.length := by rw [hinv1.lenP]; exact hx
      have hxnr : rep x ≠ x := by
        intro he
        have := hinv.repRoot x hx
        rw [he] at this
        exact hroot this
      have hx1 : uf1.parent.getD x 0 ≠ x := fun he => hroot ((hroots x hx).mp he)
      have hget : ∀ z, (uf1.parent.set x (rep x)).getD z 0
          = if z = x then rep x else uf1.parent.getD z 0 := by
        intro z
        by_cases hz : z = x
        · subst hz; rw [if_pos rfl]; exact getD_set_self _ _ _ hxlen
        · rw [if_neg hz]; exact getD_set_other _ _ _ _ (fun he => hz he.symm)
      have hrootsame : ∀ z, z < n →
          ((uf1.parent.set x (rep x)).getD z 0 = z ↔ uf1.parent.getD z 0 = z) := by
        intro z _
        rw [hget]
        by_cases hz : z = x
        · subst hz
          rw [if_pos rfl]
          exact ⟨fun he => absurd he hxnr, fun he => absurd he hx1⟩
        · rw [if_neg hz]
      refine ⟨{ uf1 with parent := uf1.parent.set x (rep x) }, ?_, ?_, hrank, hsize, ?_⟩
      · simp only [hget, if_true]
      · refine ⟨by simpa using hinv1.lenP, hinv1.lenR, hinv1.lenS, hinv1.repLt, ?_, ?_, ?_, ?_,
          ?_, ?_, ?_⟩
        · intro z hz
          show (uf1.parent.set x (rep x)).getD (rep z) 0 = rep z
          rw [(hrootsame (rep z) (hinv1.repLt z hz)).mpr (hinv1.repRoot z hz)]
        · intro z hz
          show rep ((uf1.parent.set x (rep x)).getD z 0) = rep z
          rw [hget]
          by_cases hzx : z = x
          · subst hzx
            rw [if_pos rfl]
            exact hinv1.rootRep (rep z) (hinv1.repLt z hz) (hinv1.repRoot z hz)
          · rw [if_neg hzx]; exact hinv1.repParent z hz
        · intro z hz hzr
          exact hinv1.rootRep z hz ((hrootsame z hz).mp hzr)
        · intro z hz
          show (uf1.parent.set x (rep x)).getD z 0 < n
          rw [hget]
          by_cases hzx : z = x
          · rw [if_pos hzx]; exact hinv1.repLt x hx
          · rw [if_neg hzx]; exact hinv1.parentLt z hz
        · intro z hz hzr
          show uf1.rank.getD z 0 < uf1.rank.getD ((uf1.parent.set x (rep x)).getD z 0) 0
          have hzr' : (uf1.parent.set x (rep x)).getD z 0 ≠ z := hzr
          rw [hget] at hzr' ⊢
          by_cases hzx : z = x
          · subst hzx
            rw [if_pos rfl]
            exact rank_lt_rep n rep uf1 hinv1 z hz hxnr
          · rw [if_neg hzx] at hzr' ⊢
            exact hinv1.rankInc z hz hzr'
        · intro r hr hrr
          exact hinv1.sizeRoot r hr ((hrootsame r hr).mp hrr)
        · intro r hr hrr
          exact hinv1.rankSize r hr ((hrootsame r hr).mp hrr)
      · intro z hz
        exact (hrootsame z hz).trans (hroots z hz)

theorem Find_spec (n : Nat) (rep : Nat → Nat) (uf : UnionFind) (x : Nat)
    (hinv : Inv n rep uf) (hx : x < n) :
    ∃ uf1, Find uf x = some (rep x, uf1) ∧ Inv n rep uf1 ∧
      uf1.rank = uf.rank ∧ uf1.size = uf.size ∧
      (∀ z, z < n → (uf1.parent.getD z 0 = z ↔ uf.parent.getD z 0 = z)) := by
  unfold Find
  apply findAux_spec n rep _ uf x hinv hx
  rw [hinv.lenP]
  have := rank_lt_n n rep uf hinv x hx
  omega

/-- Hanging the root `c` under the root `r` keeps the invariant, with every
element that `c` represented now represented by `r`. -/
theorem inv_attach (n : Nat) (rep : Nat → Nat) (uf uf1 : UnionFind) (hinv : Inv n rep uf)
    (c r : Nat) (hc : c < n) (hr : r < n) (hcr : uf.parent.getD c 0 = c)
    (hrr : uf.parent.getD r 0 = r) (hne : c ≠ r)
    (hparent : uf1.parent = uf.parent.set c r)
    (hsize : uf1.size = uf.size.set r (uf.size.getD r 0 + uf.size.getD c 0))
    (hrank : (uf1.rank = uf.rank ∧ uf.rank.getD c 0 < uf.rank.getD r 0) ∨
      (uf1.rank = uf.rank.set r (uf.rank.getD r 0 + 1) ∧ uf.rank.getD c 0 ≤ uf.rank.getD r 0)) :
    Inv n (fun z => if rep z = c then r else rep z) uf1 := by
  have hclen : c < uf.parent.length := by rw [hinv.lenP]; exact hc
  have hrlenS : r < uf.size.length := by rw [hinv.lenS]; exact hr
  have hrlenR : r < uf.rank.length := by rw [hinv.lenR]; exact hr
  have hpar : ∀ z, uf1.parent.getD z 0 = if z = c then r else uf.parent.getD z 0 := by
    intro z
    rw [hparent]
    by_cases hz : z = c
    · subst hz; rw [if_pos rfl]; exact getD_set_self _ _ _ hclen
    · rw [if_neg hz]; exact getD_set_other _ _ _ _ (fun he => hz he.symm)
  have hsz : ∀ z, uf1.size.getD z 0
      = if z = r then uf.size.getD r 0 + uf.size.getD c 0 else uf.size.getD z 0 := by
    intro z
    rw [hsize]
    by_cases hz : z = r
    · subst hz; rw [if_pos rfl]; exact getD_set_self _ _ _ hrlenS
    · rw [if_neg hz]; exact getD_set_other _ _ _ _ (fun he => hz he.symm)
  have hrepc : rep c = c := hinv.rootRep c hc hcr
  have hrepr : rep r = r := hinv.rootRep r hr hrr
  have hrootiff : ∀ z, z < n → uf1.parent.getD z 0 = z → z ≠ c ∧ uf.parent.getD z 0 = z := by
    intro z _ hz
    rw [hpar] at hz
    by_cases hzc : z = c
    · rw [if_pos hzc] at hz; exact absurd (hz.trans hzc).symm hne
    · rw [if_neg hzc] at hz; exact ⟨hzc, hz⟩
  have hrk : ∀ z, z ≠ r → uf1.rank.getD z 0 = uf.rank.getD z 0 := by
    intro z hz
    rcases hrank with ⟨h1, -⟩ | ⟨h1, -⟩
    · rw [h1]
    · rw [h1]; exact getD_set_other _ _ _ _ (fun he => hz he.symm)
  have hrkr : uf.rank.getD r 0 ≤ uf1.rank.getD r 0 ∧ uf1.rank.getD r 0 ≤ uf.rank.getD r 0 + 1 := by
    rcases hrank with ⟨h1, -⟩ | ⟨h1, -⟩
    · rw [h1]; omega
    · rw [h1, getD_set_self _ _ _ hrlenR]; omega
  have hcr_rank : uf1.rank.getD c 0 < uf1.rank.getD r 0 := by
    rw [hrk c hne]
    rcases hrank with ⟨h1, h2⟩ | ⟨h1, h2⟩
    · rw [h1]; exact h2
    · rw [h1, getD_set_self _ _ _ hrlenR]; omega
  refine ⟨by rw [hparent]; simpa using hinv.lenP, ?_, by rw [hsize]; simpa using hinv.lenS,
    ?_, ?_, ?_, ?_, ?_, ?_, ?_, ?_⟩
  · rcases hrank with ⟨h1, -⟩ | ⟨h1, -⟩
    · rw [h1]; exact hinv.lenR
    · rw [h1]; simpa using hinv.lenR
  · intro z hz
    show (if rep z = c then r else rep z) < n
    split
    · exact hr
    · exact hinv.repLt z hz
  · intro z hz
    show uf1.parent.getD (if rep z = c then r else rep z) 0 = (if rep z = c then r else rep z)
    by_cases hzc : rep z = c
    · rw [if_pos hzc, hpar, if_neg hne.symm]; exact hrr
    · rw [if_neg hzc, hpar, if_neg hzc]; exact hinv.repRoot z hz
  · intro z hz
    show (if rep (uf1.parent.getD z 0) = c then r else rep (uf1.parent.getD z 0))
      = (if rep z = c then r else rep z)
    rw [hpar]
    by_cases hzc : z = c
    · subst hzc
      rw [if_pos rfl, hrepr, if_neg hne.symm, hrepc, if_pos rfl]
    · rw [if_neg hzc, hinv.repParent z hz]
  · intro z hz hzr
    obtain ⟨hzc, hzr0⟩ := hrootiff z hz hzr
    have := hinv.rootRep z hz hzr0
    show (if rep z = c then r else rep z) = z
    rw [this, if_neg hzc]
  · intro z hz
    rw [hpar]
    split
    · exact hr
    · exact hinv.parentLt z hz
  · intro z hz hzr
    by_cases hzc : z = c
    · subst hzc
      rw [hpar, if_pos rfl]
      exact hcr_rank
    · have hzr0 : uf.parent.getD z 0 ≠ z := by
        intro he
        apply hzr
        rw [hpar, if_neg hzc]; exact he
      have hzne : z ≠ r := by
        intro he
        rw [he] at hzr0
        exact hzr0 hrr
      rw [hpar, if_neg hzc, hrk z hzne]
      have hlt := hinv.rankInc z hz hzr0
      by_cases hpr : uf.parent.getD z 0 = r
      · rw [hpr] at hlt ⊢
        omega
      · rw [hrk _ hpr]; exact hlt
  · intro r1 hr1 hroot
    obtain ⟨hr1c, hroot0⟩ := hrootiff r1 hr1 hroot
    rw [hsz]
    by_cases hr1r : r1 = r
    · subst hr1r
      rw [if_pos rfl, hinv.sizeRoot r1 hr hrr, hinv.sizeRoot c hc hcr]
      have hunion : (Finset.range n).filter (fun x => (if rep x = c then r1 else rep x) = r1)
          = (Finset.range n).filter (fun x => rep x = r1) ∪
            (Finset.range n).filter (fun x => rep x = c) := by
        ext x
        simp only [Finset.mem_filter, Finset.mem_range, Finset.mem_union]
        by_cases hxc : rep x = c
        · simp only [hxc, if_true, and_true]
          tauto
        · simp only [hxc, if_false, and_false, or_false]
      have hdisj : Disjoint ((Finset.range n).filter (fun x => rep x = r1))
          ((Finset.range n).filter (fun x => rep x = c)) := by
        rw [Finset.disjoint_left]
        intro x h1 h2
        simp only [Finset.mem_filter] at h1 h2
        exact hne (h2.2.symm.trans h1.2)
      rw [hunion, Finset.card_union_of_disjoint hdisj]
    · rw [if_neg hr1r, hinv.sizeRoot r1 hr1 hroot0]
      congr 1
      ext x
      simp only [Finset.mem_filter, Finset.mem_range]
      by_cases hxc : rep x = c
      · simp only [hxc, if_true]
        constructor
        · rintro ⟨_, he⟩; exact absurd he (fun h => hr1c h.symm)
        · rintro ⟨_, he⟩; exact absurd he.symm hr1r
      · simp only [hxc, if_false]
  · intro r1 hr1 hroot
    obtain ⟨hr1c, hroot0⟩ := hrootiff r1 hr1 hroot
    have h0 := hinv.rankSize r1 hr1 hroot0
    rw [hsz]
    by_cases hr1r : r1 = r
    · subst hr1r
      rw [if_pos rfl]
      have hcs := hinv.rankSize c hc hcr
      rcases hrank with ⟨h1, -⟩ | ⟨h1, -⟩
      · rw [h1]; omega
      · rw [h1, getD_set_self _ _ _ hrlenR]; omega
    · rw [if_neg hr1r, hrk r1 hr1r]; exact h0

/-- The linking step of `Union` on two different roots merges the sets they
represent and no others. -/
theorem link_spec (n : Nat) (rep : Nat → Nat) (uf : UnionFind) (hinv : Inv n rep uf)
    (rx ry : Nat) (hx : rx < n) (hy : ry < n) (hxr : uf.parent.getD rx 0 = rx)
    (hyr : uf.parent.getD ry 0 = ry) (hne : rx ≠ ry) :
    ∃ rep1, Inv n rep1 (link uf rx ry) ∧
      ∀ a c, rep1 a = rep1 c ↔
        (rep a = rep c ∨ (rep a = rx ∧ rep c = ry) ∨ (rep a = ry ∧ rep c = rx)) := by
  unfold link
  by_cases h1 : uf.rank.getD rx 0 < uf.rank.getD ry 0
  · rw [if_pos h1]
    refine ⟨_, inv_attach n rep uf _ hinv rx ry hx hy hxr hyr hne rfl rfl (Or.inl ⟨rfl, h1⟩), ?_⟩
    intro a c
    by_cases ha : rep a = rx <;> by_cases hc : rep c = rx <;> simp only [ha, hc, if_true,
      if_false] <;> constructor <;> intro h <;> simp_all <;> omega
  · rw [if_neg h1]
    by_cases h2 : uf.rank.getD rx 0 > uf.rank.getD ry 0
    · rw [if_pos h2]
      refine ⟨_, inv_attach n rep uf _ hinv ry rx hy hx hyr hxr (fun h => hne h.symm) rfl rfl
        (Or.inl ⟨rfl, h2⟩), ?_⟩
      intro a c
      by_cases ha : rep a = ry <;> by_cases hc : rep c = ry <;> simp only [ha, hc, if_true,
        if_false] <;> constructor <;> intro h <;> simp_all <;> omega
    · rw [if_neg h2]
      refine ⟨_, inv_attach n rep uf _ hinv ry rx hy hx hyr hxr (fun h => hne h.symm) rfl rfl
        (Or.inr ⟨rfl, by omega⟩), ?_⟩
      intro a c
      by_cases ha : rep a = ry <;> by_cases hc : rep c = ry <;> simp only [ha, hc, if_true,
        if_false] <;> constructor <;> intro h <;> simp_all <;> omega

/-- `Union` returns, reports whether the two roots differed, keeps the
invariant, and merges exactly the sets of `x` and `y`. -/
theorem Union_spec (n : Nat) (rep : Nat → Nat) (uf : UnionFind) (hinv : Inv n rep uf)
    (x y : Nat) (hx : x < n) (hy : y < n) :
    ∃ b uf1 rep1, Union uf x y = some (b, uf1) ∧ Inv n rep1 uf1 ∧
      (b = true ↔ rep x ≠ rep y) ∧
      ∀ a c, rep1 a = rep1 c ↔
        (rep a = rep c ∨ (rep a = rep x ∧ rep c = rep y) ∨ (rep a = rep y ∧ rep c = rep x)) := by
  obtain ⟨ufx, hfx, hinvx, -, -, -⟩ := Find_spec n rep uf x hinv hx
  obtain ⟨ufy, hfy, hinvy, -, -, -⟩ := Find_spec n rep ufx y hinvx hy
  unfold Union
  rw [hfx]
  simp only
  rw [hfy]
  simp only
  by_cases heq : rep x = rep y
  · rw [if_pos heq]
    refine ⟨false, ufy, rep, rfl, hinvy, by simp [heq], ?_⟩
    intro a c
    constructor
    · intro h; exact Or.inl h
    · rintro (h | ⟨h1, h2⟩ | ⟨h1, h2⟩)
      · exact h
      · rw [h1, h2, heq]
      · rw [h1, h2, heq]
  · rw [if_neg heq]
    obtain ⟨rep1, hinv1, hrep1⟩ := link_spec n rep ufy hinvy (rep x) (rep y)
      (hinvy.repLt x hx) (hinvy.repLt y hy) (hinvy.repRoot x hx) (hinvy.repRoot y hy) heq
    exact ⟨true, _, rep1, rfl, hinv1, by simp [heq], hrep1⟩

/-- Every reached structure satisfies the invariant for some `rep`. -/
theorem reached_inv (n : Nat) (uf : UnionFind) (h : Reached n uf) : ∃ rep, Inv n rep uf := by
  induction h with
  | new => exact ⟨_, inv_new n⟩
  | find uf0 uf1 x r _ hx hf ih =>
    obtain ⟨rep, hinv⟩ := ih
    obtain ⟨uf2, hf2, hinv2, -⟩ := Find_spec n rep uf0 x hinv hx
    rw [hf] at hf2
    have : uf1 = uf2 := by
      have := Option.some.inj hf2
      exact (Prod.mk.inj this).2
    exact ⟨rep, this ▸ hinv2⟩
  | union uf0 uf1 x y b _ hx hy hu ih =>
    obtain ⟨rep, hinv⟩ := ih
    obtain ⟨b2, uf2, rep1, hu2, hinv2, -⟩ := Union_spec n rep uf0 hinv x y hx hy
    rw [hu] at hu2
    have : uf1 = uf2 := by
      have := Option.some.inj hu2
      exact (Prod.mk.inj this).2
    exact ⟨rep1, this ▸ hinv2⟩

theorem rep_iterate (n : Nat) (rep : Nat → Nat) (uf : UnionFind) (hinv : Inv n rep uf)
    (x : Nat) (hx : x < n) (k : Nat) :
    (fun z => uf.parent.getD z 0)^[k] x < n ∧
      rep ((fun z => uf.parent.getD z 0)^[k] x) = rep x := by
  induction k with
  | zero => exact ⟨hx, rfl⟩
  | succ k ih =>
    rw [Function.iterate_succ_apply']
    exact ⟨hinv.parentLt _ ih.1, (hinv.repParent _ ih.1).trans ih.2⟩

/-- Two elements are in the same set exactly when `rep` names the same root
for them. -/
theorem sameSet_iff (n : Nat) (rep : Nat → Nat) (uf : UnionFind) (hinv : Inv n rep uf)
    (a c : Nat) (ha : a < n) (hc : c < n) : sameSet uf a c ↔ rep a = rep c := by
  constructor
  · rintro ⟨r, hroot, ⟨k1, h1⟩, ⟨k2, h2⟩⟩
    have e1 := rep_iterate n rep uf hinv a ha k1
    have e2 := rep_iterate n rep uf hinv c hc k2
    rw [h1] at e1
    rw [h2] at e2
    rw [← e1.2, ← e2.2]
  · intro h
    refine ⟨rep a, hinv.repRoot a ha, leadsTo_rep n rep uf hinv a ha, ?_⟩
    rw [h]
    exact leadsTo_rep n rep uf hinv c hc

/-- C13: on any `UnionFind` reached from `NewUnionFind(n)` by `Find` and
`Union` calls, and any `x`, `y` below `n`, `Union(x, y)` returns, and returns
true exactly when `x` and `y` were in different sets before the call, that is
when `Find(x)` and `Find(y)` differ; after the call `x` and `y` are in the
same set, and two elements are in the same set exactly when they were before
or one was with `x` and the other with `y`: the two sets are merged into one
and every other set is unchanged. -/
theorem Union_merges (n : Nat) (uf : UnionFind) (hreach : Reached n uf) (x y : Nat)
    (hx : x < n) (hy : y < n) :
    ∃ b uf1, Union uf x y = some (b, uf1) ∧
      (∃ rx ry ufx ufy, Find uf x = some (rx, ufx) ∧ Find uf y = some (ry, ufy) ∧
        (b = true ↔ rx ≠ ry)) ∧
      (b = true ↔ ¬ sameSet uf x y) ∧
      sameSet uf1 x y ∧
      ∀ a c, a < n → c < n →
        (sameSet uf1 a c ↔
          (sameSet uf a c ∨ (sameSet uf a x ∧ sameSet uf c y) ∨
            (sameSet uf a y ∧ sameSet uf c x))) := by
  obtain ⟨rep, hinv⟩ := reached_inv n uf hreach
  obtain ⟨b, uf1, rep1, hu, hinv1, hb, hrep1⟩ := Union_spec n rep uf hinv x y hx hy
  obtain ⟨ufx, hfx, -⟩ := Find_spec n rep uf x hinv hx
  obtain ⟨ufy, hfy, -⟩ := Find_spec n rep uf y hinv hy
  refine ⟨b, uf1, hu, ⟨rep x, rep y, ufx, ufy, hfx, hfy, hb⟩, ?_, ?_, ?_⟩
  · rw [hb, sameSet_iff n rep uf hinv x y hx hy]
  · rw [sameSet_iff n rep1 uf1 hinv1 x y hx hy, hrep1]
    exact Or.inr (Or.inl ⟨rfl, rfl⟩)
  · intro a c ha hc
    rw [sameSet_iff n rep1 uf1 hinv1 a c ha hc, hrep1, sameSet_iff n rep uf hinv a c ha hc,
      sameSet_iff n rep uf hinv a x ha hx, sameSet_iff n rep uf hinv c y hc hy,
      sameSet_iff n rep uf hinv a y ha hy, sameSet_iff n rep uf hinv c x hc hx]

/-- Witness for C13: joining 0 and 1 in a fresh structure of 3 elements. -/
theorem Union_merges_witness :
    ∃ b uf1, Union (NewUnionFind 3) 0 1 = some (b, uf1) ∧
      (∃ rx ry ufx ufy, Find (NewUnionFind 3) 0 = some (rx, ufx) ∧
        Find (NewUnionFind 3) 1 = some (ry, ufy) ∧ (b = true ↔ rx ≠ ry)) ∧
      (b = true ↔ ¬ sameSet (NewUnionFind 3) 0 1) ∧
      sameSet uf1 0 1 ∧
      ∀ a c, a < 3 → c < 3 →
        (sameSet uf1 a c ↔
          (sameSet (NewUnionFind 3) a c ∨
            (sameSet (NewUnionFind 3) a 0 ∧ sameSet (NewUnionFind 3) c 1) ∨
            (sameSet (NewUnionFind 3) a 1 ∧ sameSet (NewUnionFind 3) c 0))) :=
  Union_merges 3 (NewUnionFind 3) Reached.new 0 1 (by decide) (by decide)

theorem mapSet_keys (S : List (Nat × Nat)) (root v : Nat) :
    (mapSet S root v).map Prod.fst =
      if root ∈ S.map Prod.fst then S.map Prod.fst else S.map Prod.fst ++ [root] := by
  unfold mapSet
  by_cases h : root ∈ S.map Prod.fst
  · have hany : S.any (fun e => e.1 == root) = true := by
      rw [List.any_eq_true]
      obtain ⟨e, he, rfl⟩ := List.mem_map.1 h
      exact ⟨e, he, by simp⟩
    rw [if_pos hany, if_pos h, List.map_map]
    apply List.map_congr_left
    intro e _
    by_cases hr : e.1 = root
    · simp [hr]
    · simp [hr]
  · have hany : ¬ S.any (fun e => e.1 == root) = true := by
      rw [List.any_eq_true]
      rintro ⟨e, he, hr⟩
      exact h (List.mem_map.2 ⟨e, he, by simpa using hr⟩)
    rw [if_neg hany, if_neg h]
    simp

theorem mem_mapSet (S : List (Nat × Nat)) (root v : Nat) (e : Nat × Nat)
    (he : e ∈ mapSet S root v) : e ∈ S ∨ e = (root, v) := by
  unfold mapSet at he
  split at he
  · obtain ⟨e0, he0, rfl⟩ := List.mem_map.1 he
    by_cases hr : e0.1 = root
    · right
      simp [hr]
    · left
      simpa [hr] using he0
  · rcases List.mem_append.1 he with h | h
    · exact Or.inl h
    · exact Or.inr (by simpa using h)

/-- The loop of `ComponentSizes` returns, and records under every root met
the number of elements that root represents. -/
theorem sizesLoop_spec (n : Nat) (rep : Nat → Nat) (l : List Nat) :
    ∀ (S : List (Nat × Nat)) (uf : UnionFind), Inv n rep uf → (∀ x ∈ l, x < n) →
      (S.map Prod.fst).Nodup →
      (∀ e ∈ S, e.2 = ((Finset.range n).filter (fun x => rep x = e.1)).card) →
      ∃ S1 uf1, sizesLoop l S uf = some (S1, uf1) ∧ Inv n rep uf1 ∧
        (S1.map Prod.fst).Nodup ∧
        (∀ e ∈ S1, e.2 = ((Finset.range n).filter (fun x => rep x = e.1)).card) ∧
        (∀ r, r ∈ S1.map Prod.fst ↔ (r ∈ S.map Prod.fst ∨ ∃ x ∈ l, rep x = r)) := by
  induction l with
  | nil =>
    intro S uf hinv _ hnd hval
    exact ⟨S, uf, rfl, hinv, hnd, hval, by simp⟩
  | cons i rest ih =>
    intro S uf hinv hl hnd hval
    have hi : i < n := hl i (List.mem_cons_self _ _)
    obtain ⟨uf1, hf, hinv1, -, -, -⟩ := Find_spec n rep uf i hinv hi
    have hkeys := mapSet_keys S (rep i) (uf1.size.getD (rep i) 0)
    have hsz : uf1.size.getD (rep i) 0 =
        ((Finset.range n).filter (fun x => rep x = rep i)).card :=
      hinv1.sizeRoot (rep i) (hinv1.repLt i hi) (hinv1.repRoot i hi)
    have hnd1 : ((mapSet S (rep i) (uf1.size.getD (rep i) 0)).map Prod.fst).Nodup := by
      rw [hkeys]
      split
      · exact hnd
      · rename_i hnot
        rw [List.nodup_append]
        refine ⟨hnd, List.nodup_singleton _, ?_⟩
        intro a ha hb
        rw [List.mem_singleton] at hb
        exact hnot (hb ▸ ha)
    have hval1 : ∀ e ∈ mapSet S (rep i) (uf1.size.getD (rep i) 0),
        e.2 = ((Finset.range n).filter (fun x => rep x = e.1)).card := by
      intro e he
      rcases mem_mapSet S _ _ e he with h | h
      · exact hval e h
      · rw [h]
        exact hsz
    obtain ⟨S1, uf2, hloop, hinv2, hnd2, hval2, hk2⟩ :=
      ih (mapSet S (rep i) (uf1.size.getD (rep i) 0)) uf1 hinv1
        (fun x hx => hl x (List.mem_cons_of_mem _ hx)) hnd1 hval1
    refine ⟨S1, uf2, ?_, hinv2, hnd2, hval2, ?_⟩
    · simp only [sizesLoop, hf]
      exact hloop
    · intro r
      rw [hk2 r, hkeys]
      constructor
      · rintro (h | ⟨x, hx, rfl⟩)
        · split at h
          · exact Or.inl h
          · rcases List.mem_append.1 h with h | h
            · exact Or.inl h
            · rw [List.mem_singleton] at h
              exact Or.inr ⟨i, List.mem_cons_self _ _, h.symm⟩
        · exact Or.inr ⟨x, List.mem_cons_of_mem _ hx, rfl⟩
      · rintro (h | ⟨x, hx, rfl⟩)
        · left
          split
          · exact h
          · exact List.mem_append_left _ h
        · rcases List.mem_cons.1 hx with rfl | hx
          · left
            split
            · assumption
            · exact List.mem_append_right _ (List.mem_singleton_self _)
          · exact Or.inr ⟨x, hx, rfl⟩

/-- C14: on any `UnionFind` reached from `NewUnionFind(n)` by `Union` (and
`Find`) calls, `ComponentSizes` returns, and its entries are, for a list
`roots` that holds every root exactly once (one root per disjoint set, every
element being in the set of one of them), the numbers of elements in the sets
of these roots; the entries sum to `n`. -/
theorem ComponentSizes_counts (n : Nat) (uf : UnionFind) (hreach : Reached n uf) :
    ∃ (sizes : List Nat) (uf1 : UnionFind) (roots : List Nat), ComponentSizes uf = some (sizes, uf1) ∧
      roots.Nodup ∧
      (∀ r, r ∈ roots ↔ (r < n ∧ IsRoot uf r)) ∧
      (∀ x, x < n → ∃ r ∈ roots, sameSet uf x r) ∧
      sizes = roots.map (fun r => Set.ncard {x | x < n ∧ sameSet uf x r}) ∧
      sizes.sum = n := by
  obtain ⟨rep, hinv⟩ := reached_inv n uf hreach
  obtain ⟨S1, uf1, hloop, -, hnd, hval, hkeys⟩ :=
    sizesLoop_spec n rep (List.range n) [] uf hinv (fun x hx => List.mem_range.1 hx)
      (by simp) (by simp)
  have hmem : ∀ r, r ∈ S1.map Prod.fst ↔ (r < n ∧ IsRoot uf r) := by
    intro r
    rw [hkeys r]
    constructor
    · rintro (h | ⟨x, hx, rfl⟩)
      · simp at h
      · have hx := List.mem_range.1 hx
        exact ⟨hinv.repLt x hx, hinv.repRoot x hx⟩
    · rintro ⟨hr, hroot⟩
      exact Or.inr ⟨r, List.mem_range.2 hr, hinv.rootRep r hr hroot⟩
  have hcard : ∀ r, r ∈ S1.map Prod.fst →
      Set.ncard {x | x < n ∧ sameSet uf x r} =
        ((Finset.range n).filter (fun x => rep x = r)).card := by
    intro r hr
    obtain ⟨hrn, hroot⟩ := (hmem r).1 hr
    rw [← Set.ncard_coe_Finset]
    congr 1
    ext x
    simp only [Set.mem_setOf_eq, Finset.coe_filter, Finset.mem_range]
    constructor
    · rintro ⟨hx, hs⟩
      refine ⟨hx, ?_⟩
      rw [(sameSet_iff n rep uf hinv x r hx hrn).1 hs]
      exact hinv.rootRep r hrn hroot
    · rintro ⟨hx, hs⟩
      refine ⟨hx, (sameSet_iff n rep uf hinv x r hx hrn).2 ?_⟩
      rw [hs]
      exact (hinv.rootRep r hrn hroot).symm
  have hsizes : S1.map (fun e => e.2) =
      (S1.map Prod.fst).map (fun r => Set.ncard {x | x < n ∧ sameSet uf x r}) := by
    rw [List.map_map]
    apply List.map_congr_left
    intro e he
    simp only [Function.comp_apply]
    rw [hcard e.1 (List.mem_map_of_mem _ he)]
    exact hval e he
  have hsizes2 : S1.map (fun e => e.2) =
      (S1.map Prod.fst).map
        (fun r => ((Finset.range n).filter (fun x => rep x = r)).card) := by
    rw [List.map_map]
    apply List.map_congr_left
    intro e he
    exact hval e he
  refine ⟨S1.map (fun e => e.2), uf1, S1.map Prod.fst, ?_, hnd, hmem, ?_, hsizes, ?_⟩
  · unfold ComponentSizes
    rw [hinv.lenP, hloop]
    rfl
  · intro x hx
    refine ⟨rep x, (hmem _).2 ⟨hinv.repLt x hx, hinv.repRoot x hx⟩, ?_⟩
    rw [sameSet_iff n rep uf hinv x (rep x) hx (hinv.repLt x hx)]
    exact (hinv.rootRep _ (hinv.repLt x hx) (hinv.repRoot x hx)).symm
  · rw [hsizes2, ← List.sum_toFinset _ hnd]
    have h := Finset.card_eq_sum_card_fiberwise (f := rep) (s := Finset.range n)
      (t := (S1.map Prod.fst).toFinset) (fun x hx => by
        rw [List.mem_toFinset]
        have hx := Finset.mem_range.1 hx
        exact (hmem _).2 ⟨hinv.repLt x hx, hinv.repRoot x hx⟩)
    rw [Finset.card_range] at h
    exact h.symm

/-- Witness for C14: a fresh structure of 3 elements. -/
theorem ComponentSizes_counts_witness :
    ∃ (sizes : List Nat) (uf1 : UnionFind) (roots : List Nat), ComponentSizes (NewUnionFind 3) =
      some (sizes, uf1) ∧
      roots.Nodup ∧
      (∀ r, r ∈ roots ↔ (r < 3 ∧ IsRoot (NewUnionFind 3) r)) ∧
      (∀ x, x < 3 → ∃ r ∈ roots, sameSet (NewUnionFind 3) x r) ∧
      sizes = roots.map (fun r => Set.ncard {x | x < 3 ∧ sameSet (NewUnionFind 3) x r}) ∧
      sizes.sum = 3 :=
  ComponentSizes_counts 3 (NewUnionFind 3) Reached.new

end Day8

namespace Day25

theorem edgesOf_cons (k : Node) (es : List (Node × Int)) (g : Graph) (u : Node) :
    edgesOf ((k, es) :: g) u = if u = k then es else edgesOf g u := by
  unfold edgesOf
  by_cases h : u = k
  · subst h
    simp [List.lookup]
  · have hb : (u == k) = false := by simpa using h
    simp [List.lookup, hb, h]

theorem mem_edgesOf (graph : Graph) (u w : Node) (e : Int) (h : (w, e) ∈ edgesOf graph u) :
    ∃ entry, entry ∈ graph ∧ entry.1 = u ∧ (w, e) ∈ entry.2 := by
  induction graph with
  | nil => simp [edgesOf] at h
  | cons entry g ih =>
    obtain ⟨k, es⟩ := entry
    rw [edgesOf_cons] at h
    by_cases hk : u = k
    · rw [if_pos hk] at h
      exact ⟨(k, es), List.mem_cons_self _ _, hk.symm, h⟩
    · rw [if_neg hk] at h
      obtain ⟨entry, hmem, h1, h2⟩ := ih h
      exact ⟨entry, List.mem_cons_of_mem _ hmem, h1, h2⟩

theorem cost_nonneg (graph : Graph)
    (hcost : ∀ entry, entry ∈ graph → ∀ x, x ∈ entry.2 → 0 ≤ x.2)
    (u w : Node) (e : Int) (h : (w, e) ∈ edgesOf graph u) : 0 ≤ e := by
  obtain ⟨entry, hmem, -, h2⟩ := mem_edgesOf graph u w e h
  exact hcost entry hmem (w, e) h2

theorem cost_le_bound (graph : Graph) (C : Int)
    (hcostC : ∀ entry, entry ∈ graph → ∀ x, x ∈ entry.2 → x.2 ≤ C)
    (u w : Node) (e : Int) (h : (w, e) ∈ edgesOf graph u) : e ≤ C := by
  obtain ⟨entry, hmem, -, h2⟩ := mem_edgesOf graph u w e h
  exact hcostC entry hmem (w, e) h2

theorem path_nonneg (graph : Graph)
    (hcost : ∀ entry, entry ∈ graph → ∀ x, x ∈ entry.2 → 0 ≤ x.2)
    (start v : Node) (c : Int) (h : IsPath graph start v c) : 0 ≤ c := by
  induction h with
  | nil => exact le_refl 0
  | snoc v w c e _ hedge ih =>
    have := cost_nonneg graph hcost v w e hedge
    omega

theorem remaining_nil (graph : Graph) : remaining graph [] = edgeCount graph := by
  unfold remaining edgeCount
  simp

theorem remaining_mono (graph : Graph) (c : Node) (visited : List Node) :
    remaining graph (c :: visited) ≤ remaining graph visited := by
  induction graph with
  | nil => simp [remaining]
  | cons entry g ih =>
    unfold remaining at ih ⊢
    by_cases h1 : entry.1 ∈ visited
    · have h2 : entry.1 ∈ c :: visited := List.mem_cons_of_mem _ h1
      simp only [List.filter_cons, h1, h2, not_true_eq_false, decide_False, Bool.false_eq_true,
        if_false]
      exact ih
    · by_cases h2 : entry.1 ∈ c :: visited
      · simp only [List.filter_cons, h1, h2, not_true_eq_false, not_false_eq_true, decide_False,
          decide_True, Bool.false_eq_true, if_false, if_true, List.map_cons, List.sum_cons]
        omega
      · simp only [List.filter_cons, h1, h2, not_false_eq_true, decide_True, if_true,
          List.map_cons, List.sum_cons]
        omega

theorem remaining_visit (graph : Graph) (c : Node) (visited : List Node) (hc : c ∉ visited) :
    (edgesOf graph c).length + remaining graph (c :: visited) ≤ remaining graph visited := by
  induction graph with
  | nil => simp [remaining, edgesOf]
  | cons entry g ih =>
    obtain ⟨k, es⟩ := entry
    rw [edgesOf_cons]
    by_cases hk : c = k
    · subst hk
      have hm := remaining_mono g c visited
      have h2 : c ∈ c :: visited := List.mem_cons_self _ _
      unfold remaining at hm ⊢
      simp only [if_true, List.filter_cons, hc, h2, not_true_eq_false,
        not_false_eq_true, decide_False, decide_True, Bool.false_eq_true, if_false,
        List.map_cons, List.sum_cons]
      omega
    · rw [if_neg hk]
      unfold remaining at ih ⊢
      by_cases h1 : k ∈ visited
      · have h2 : k ∈ c :: visited := List.mem_cons_of_mem _ h1
        simp only [List.filter_cons, h1, h2, not_true_eq_false, decide_False,
          Bool.false_eq_true, if_false]
        exact ih
      · have h2 : k ∉ c :: visited := by
          intro h
          rcases List.mem_cons.1 h with h | h
          · exact hk h.symm
          · exact h1 h
        simp only [List.filter_cons, h1, h2, not_false_eq_true, decide_True, if_true,
          List.map_cons, List.sum_cons]
        omega

/-- One iteration of the loop over the neighbours of the node `c` just
visited keeps the invariant and follows the edge. -/
theorem exploreStep_spec (heapPush : PriorityQueue → DijkstraState → PriorityQueue)
    (heapPop : PriorityQueue → Option (DijkstraState × PriorityQueue))
    (isHeap : PriorityQueue → Prop) (hheap : HeapLaws heapPush heapPop isHeap)
    (graph : Graph) (hcost : ∀ entry, entry ∈ graph → ∀ x, x ∈ entry.2 → 0 ≤ x.2)
    (start c : Node) (st : LoopState) (w : Node) (e : Int)
    (hcore : Core graph start isHeap st) (hc : c ∈ st.visited)
    (hmax : ∀ u, u ∈ st.visited → ∀ du dc, st.dist u = some du → st.dist c = some dc → du ≤ dc)
    (hedge : (w, e) ∈ edgesOf graph c)
    (B : Int) (hB : B < 2 ^ 63) (hdb : ∀ v d, st.dist v = some d → d ≤ B)
    (hcb : ∀ dc, st.dist c = some dc → dc + e ≤ B) :
    Core graph start isHeap (exploreStep heapPush c st (w, e)) ∧
    (exploreStep heapPush c st (w, e)).visited = st.visited ∧
    (∀ u, u ∈ st.visited → (exploreStep heapPush c st (w, e)).dist u = st.dist u) ∧
    (∀ u es, u ∈ st.visited → Relaxed st u es →
      Relaxed (exploreStep heapPush c st (w, e)) u es) ∧
    Relaxed (exploreStep heapPush c st (w, e)) c [(w, e)] ∧
    (exploreStep heapPush c st (w, e)).pq.length ≤ st.pq.length + 1 ∧
    (∀ v d, (exploreStep heapPush c st (w, e)).dist v = some d → d ≤ B) := by
  obtain ⟨dc, hdc⟩ := hcore.visDist c hc
  have hdc0 : 0 ≤ dc := path_nonneg graph hcost start c dc (hcore.path c dc hdc)
  have he : 0 ≤ e := cost_nonneg graph hcost c w e hedge
  have hdcB : dc + e ≤ B := hcb dc hdc
  have hwrap : wrapInt (dc + e) = dc + e := wrapInt_eq_self _ (by omega) (by omega)
  by_cases hw : w ∈ st.visited
  · have hst : exploreStep heapPush c st (w, e) = st := by
      unfold exploreStep
      simp only [hw, if_true]
    rw [hst]
    refine ⟨hcore, rfl, fun _ _ => rfl, fun _ _ _ h => h, ?_, by omega, hdb⟩
    intro w1 e1 h1
    rw [List.mem_singleton] at h1
    obtain ⟨rfl, rfl⟩ := Prod.mk.inj h1
    obtain ⟨dw, hdw⟩ := hcore.visDist w1 hw
    exact ⟨dc, dw, hdc, hdw, by have := hmax w1 hw dw dc hdw hdc; omega⟩
  · by_cases hcond : (!(st.dist w).isSome || decide (dc + e < (st.dist w).getD 0)) = true
    · have hst : exploreStep heapPush c st (w, e) =
          { st with
            dist := setDist st.dist w (dc + e)
            pq := heapPush st.pq { node := w, dist := dc + e } } := by
        unfold exploreStep
        simp only [hw, if_false, hdc, Option.getD_some, hwrap, hcond, if_true]
      have hup : ∀ old, st.dist w = some old → dc + e < old := by
        intro old hold
        simpa [hold] using hcond
      obtain ⟨hpush1, hpush2⟩ := hheap.push st.pq { node := w, dist := dc + e } hcore.heap
      have hmemq : ∀ s, s ∈ heapPush st.pq { node := w, dist := dc + e } ↔
          (s = { node := w, dist := dc + e } ∨ s ∈ st.pq) := by
        intro s
        rw [hpush2.mem_iff, List.mem_cons]
      have hvis : ∀ u, u ∈ st.visited → setDist st.dist w (dc + e) u = st.dist u := by
        intro u hu
        have hne : u ≠ w := fun h => hw (h ▸ hu)
        simp [setDist, hne]
      rw [hst]
      refine ⟨?_, rfl, hvis, ?_, ?_, ?_, ?_⟩
      · refine ⟨hpush1, ?_, ?_, ?_, ?_, ?_, ?_⟩
        · intro v d hv
          simp only [setDist] at hv
          by_cases hvw : v = w
          · rw [if_pos hvw] at hv
            have hd : dc + e = d := Option.some.inj hv
            rw [hvw, ← hd]
            exact IsPath.snoc c w dc e (hcore.path c dc hdc) hedge
          · rw [if_neg hvw] at hv
            exact hcore.path v d hv
        · simp only [setDist]
          by_cases hsw : start = w
          · have := hup 0 (hsw ▸ hcore.startZero)
            omega
          · rw [if_neg hsw]
            exact hcore.startZero
        · intro u hu
          show ∃ d, setDist st.dist w (dc + e) u = some d
          rw [hvis u hu]
          exact hcore.visDist u hu
        · intro v d hv hd
          show _ ∈ heapPush st.pq _
          rw [hmemq]
          simp only [setDist] at hd
          by_cases hvw : v = w
          · rw [if_pos hvw] at hd
            left
            rw [hvw, ← Option.some.inj hd]
          · rw [if_neg hvw] at hd
            exact Or.inr (hcore.pqHas v d hv hd)
        · intro s hs
          show ∃ d, setDist st.dist w (dc + e) s.node = some d ∧ d ≤ s.dist
          rcases (hmemq s).1 hs with h | h
          · rw [h]
            exact ⟨dc + e, by simp [setDist], le_refl _⟩
          · obtain ⟨d, hd1, hd2⟩ := hcore.pqGe s h
            by_cases hsw : s.node = w
            · refine ⟨dc + e, by simp [setDist, hsw], ?_⟩
              have := hup d (hsw ▸ hd1)
              omega
            · exact ⟨d, by simp [setDist, hsw, hd1], hd2⟩
        · intro u hu du hdu s hs
          have hdu1 : st.dist u = some du := by
            rw [← hvis u hu]
            exact hdu
          rcases (hmemq s).1 hs with h | h
          · rw [h]
            have := hmax u hu du dc hdu1 hdc
            show du ≤ dc + e
            omega
          · exact hcore.mono u hu du hdu1 s h
      · intro u es hu hrel w1 e1 h1
        obtain ⟨du, dw, h2, h3, h4⟩ := hrel w1 e1 h1
        by_cases hww : w1 = w
        · refine ⟨du, dc + e, (hvis u hu).trans h2, by simp [setDist, hww], ?_⟩
          have := hup dw (hww ▸ h3)
          omega
        · exact ⟨du, dw, (hvis u hu).trans h2, by simp [setDist, hww, h3], h4⟩
      · intro w1 e1 h1
        rw [List.mem_singleton] at h1
        obtain ⟨rfl, rfl⟩ := Prod.mk.inj h1
        exact ⟨dc, dc + e1, (hvis c hc).trans hdc, by simp [setDist], le_refl _⟩
      · show (heapPush st.pq _).length ≤ _
        rw [hpush2.length_eq]
        simp
      · intro v d hv
        have hv1 : setDist st.dist w (dc + e) v = some d := hv
        simp only [setDist] at hv1
        by_cases hvw : v = w
        · rw [if_pos hvw] at hv1
          rw [← Option.some.inj hv1]
          exact hdcB
        · rw [if_neg hvw] at hv1
          exact hdb v d hv1
    · have hst : exploreStep heapPush c st (w, e) = st := by
        unfold exploreStep
        simp only [hw, if_false, hdc, Option.getD_some, hwrap, hcond]
        simp
      rw [hst]
      refine ⟨hcore, rfl, fun _ _ => rfl, fun _ _ _ h => h, ?_, by omega, hdb⟩
      intro w1 e1 h1
      rw [List.mem_singleton] at h1
      obtain ⟨rfl, rfl⟩ := Prod.mk.inj h1
      cases hdw : st.dist w1 with
      | none => simp [hdw] at hcond
      | some old =>
        refine ⟨dc, old, hdc, rfl, ?_⟩
        simp [hdw] at hcond
        omega

/-- The loop over the neighbours of the node `c` just visited keeps the
invariant and follows every edge out of `c`. -/
theorem explore_spec (heapPush : PriorityQueue → DijkstraState → PriorityQueue)
    (heapPop : PriorityQueue → Option (DijkstraState × PriorityQueue))
    (isHeap : PriorityQueue → Prop) (hheap : HeapLaws heapPush heapPop isHeap)
    (graph : Graph) (hcost : ∀ entry, entry ∈ graph → ∀ x, x ∈ entry.2 → 0 ≤ x.2)
    (start c : Node) (B : Int) (hB : B < 2 ^ 63) (rest : List (Node × Int)) :
    ∀ (processed : List (Node × Int)) (st : LoopState),
      Core graph start isHeap st → c ∈ st.visited →
      (∀ u, u ∈ st.visited → ∀ du dc, st.dist u = some du → st.dist c = some dc → du ≤ dc) →
      (∀ u, u ∈ st.visited → u ≠ c → Relaxed st u (edgesOf graph u)) →
      Relaxed st c processed → (∀ x, x ∈ rest → x ∈ edgesOf graph c) →
      (∀ v d, st.dist v = some d → d ≤ B) →
      (∀ dc, st.dist c = some dc → ∀ x, x ∈ rest → dc + x.2 ≤ B) →
      Core graph start isHeap (rest.foldl (exploreStep heapPush c) st) ∧
      (rest.foldl (exploreStep heapPush c) st).visited = st.visited ∧
      (∀ u, u ∈ st.visited → u ≠ c →
        Relaxed (rest.foldl (exploreStep heapPush c) st) u (edgesOf graph u)) ∧
      Relaxed (rest.foldl (exploreStep heapPush c) st) c (processed ++ rest) ∧
      (rest.foldl (exploreStep heapPush c) st).pq.length ≤ st.pq.length + rest.length ∧
      (∀ v d, (rest.foldl (exploreStep heapPush c) st).dist v = some d → d ≤ B) := by
  induction rest with
  | nil =>
    intro processed st hcore _ _ hothers hproc _ hdb _
    refine ⟨hcore, rfl, hothers, ?_, by simp, hdb⟩
    rw [List.append_nil]
    exact hproc
  | cons x rest ih =>
    intro processed st hcore hc hmax hothers hproc hsub hdb hcb
    obtain ⟨w, e⟩ := x
    obtain ⟨hcore1, hvis1, hdist1, hrel1, hnew1, hlen1, hdb1⟩ :=
      exploreStep_spec heapPush heapPop isHeap hheap graph hcost start c st w e hcore hc hmax
        (hsub (w, e) (List.mem_cons_self _ _)) B hB hdb
        (fun dc hdc => hcb dc hdc (w, e) (List.mem_cons_self _ _))
    have hproc1 : Relaxed (exploreStep heapPush c st (w, e)) c (processed ++ [(w, e)]) := by
      intro w1 e1 h1
      rcases List.mem_append.1 h1 with h | h
      · exact hrel1 c processed hc hproc w1 e1 h
      · exact hnew1 w1 e1 h
    obtain ⟨hcore2, hvis2, hothers2, hproc2, hlen2, hdb2⟩ :=
      ih (processed ++ [(w, e)]) (exploreStep heapPush c st (w, e)) hcore1 (hvis1 ▸ hc)
        (by
          intro u hu du dc hdu hdc
          rw [hvis1] at hu
          rw [hdist1 u hu] at hdu
          rw [hdist1 c hc] at hdc
          exact hmax u hu du dc hdu hdc)
        (by
          intro u hu hne
          rw [hvis1] at hu
          exact hrel1 u _ hu (hothers u hu hne))
        hproc1 (fun x hx => hsub x (List.mem_cons_of_mem _ hx)) hdb1
        (by
          intro dc hdc x hx
          rw [hdist1 c hc] at hdc
          exact hcb dc hdc x (List.mem_cons_of_mem _ hx))
    rw [List.foldl_cons]
    refine ⟨hcore2, hvis2.trans hvis1, ?_, ?_, ?_, hdb2⟩
    · intro u hu hne
      exact hothers2 u (hvis1 ▸ hu) hne
    · rw [List.append_assoc] at hproc2
      exact hproc2
    · rw [List.length_cons]
      omega

/-- With enough fuel the loop of `Dijkstra` ends, with an empty queue and
every edge out of a visited node followed, when no edge costs more than `C`
and `C` times the number of edges plus one fits in an `int`: a distance is
then at most `C` times the number of visited nodes, and no sum wraps. -/
theorem dijkstraLoop_spec (heapPush : PriorityQueue → DijkstraState → PriorityQueue)
    (heapPop : PriorityQueue → Option (DijkstraState × PriorityQueue))
    (isHeap : PriorityQueue → Prop) (hheap : HeapLaws heapPush heapPop isHeap)
    (graph : Graph) (hcost : ∀ entry, entry ∈ graph → ∀ x, x ∈ entry.2 → 0 ≤ x.2)
    (C : Int) (hC : 0 ≤ C) (hcostC : ∀ entry, entry ∈ graph → ∀ x, x ∈ entry.2 → x.2 ≤ C)
    (hfit : ((edgeCount graph : Int) + 1) * C < 2 ^ 63)
    (start : Node) (fuel : Nat) :
    ∀ st : LoopState, Core graph start isHeap st →
      (∀ u, u ∈ st.visited → Relaxed st u (edgesOf graph u)) →
      st.pq.length + remaining graph st.visited < fuel →
      (∀ v d, st.dist v = some d → d ≤ (st.visited.length : Int) * C) →
      st.visited.length + st.pq.length + remaining graph st.visited ≤ edgeCount graph + 1 →
      ∃ st1, dijkstraLoop heapPush heapPop graph fuel st = some st1 ∧
        Core graph start isHeap st1 ∧
        (∀ u, u ∈ st1.visited → Relaxed st1 u (edgesOf graph u)) ∧ st1.pq = [] := by
  induction fuel with
  | zero =>
    intro st _ _ h _ _
    omega
  | succ fuel ih =>
    intro st hcore hrel hfuel hdb hpot
    unfold dijkstraLoop
    by_cases hlen : st.pq.length > 0
    · rw [if_pos hlen]
      have hne : st.pq ≠ [] := by
        intro h
        rw [h] at hlen
        simp at hlen
      obtain ⟨s, pq1, hpop, hheap1, hperm, hmin⟩ := hheap.pop st.pq hcore.heap hne
      rw [hpop]
      have hsmem : s ∈ st.pq := hperm.mem_iff.1 (List.mem_cons_self _ _)
      have hsub : ∀ t, t ∈ pq1 → t ∈ st.pq := fun t ht =>
        hperm.mem_iff.1 (List.mem_cons_of_mem _ ht)
      have hlen1 : pq1.length + 1 = st.pq.length := by
        rw [← hperm.length_eq]
        simp
      simp only []
      by_cases hv : s.node ∈ st.visited
      · rw [if_pos hv]
        apply ih
        · refine ⟨hheap1, hcore.path, hcore.startZero, hcore.visDist, ?_, ?_, ?_⟩
          · intro v d hvn hd
            have h := hcore.pqHas v d hvn hd
            rcases List.mem_cons.1 (hperm.mem_iff.2 h) with h1 | h1
            · have hsv : s.node = v := by rw [← h1]
              exact absurd (hsv ▸ hv) hvn
            · exact h1
          · intro t ht
            exact hcore.pqGe t (hsub t ht)
          · intro u hu du hdu t ht
            exact hcore.mono u hu du hdu t (hsub t ht)
        · exact hrel
        · show pq1.length + remaining graph st.visited < fuel
          omega
        · exact hdb
        · show st.visited.length + pq1.length + remaining graph st.visited ≤ _
          omega
      · rw [if_neg hv]
        obtain ⟨dc, hdc1, hdc2⟩ := hcore.pqGe s hsmem
        have hdc3 : s.dist ≤ dc := hmin _ (hcore.pqHas s.node dc hv hdc1)
        have hdc : dc = s.dist := le_antisymm hdc2 hdc3
        have hcore2 : Core graph start isHeap
            { st with pq := pq1, visited := s.node :: st.visited } := by
          refine ⟨hheap1, hcore.path, hcore.startZero, ?_, ?_, ?_, ?_⟩
          · intro u hu
            rcases List.mem_cons.1 hu with h | h
            · exact ⟨dc, h ▸ hdc1⟩
            · exact hcore.visDist u h
          · intro v d hvn hd
            have hvn1 : v ∉ st.visited := fun h => hvn (List.mem_cons_of_mem _ h)
            have hvn2 : v ≠ s.node := fun h => hvn (h ▸ List.mem_cons_self _ _)
            have h := hcore.pqHas v d hvn1 hd
            rcases List.mem_cons.1 (hperm.mem_iff.2 h) with h1 | h1
            · exact absurd (by rw [← h1]) hvn2
            · exact h1
          · intro t ht
            exact hcore.pqGe t (hsub t ht)
          · intro u hu du hdu t ht
            rcases List.mem_cons.1 hu with h | h
            · have hdu1 : st.dist s.node = some du := h ▸ hdu
              rw [hdc1] at hdu1
              have := Option.some.inj hdu1
              have := hmin t (hsub t ht)
              omega
            · exact hcore.mono u h du hdu t (hsub t ht)
        have hvl : (st.visited.length : Int) + 1 ≤ (edgeCount graph : Int) + 1 := by omega
        have hvl0 : (0 : Int) ≤ (st.visited.length : Int) := Int.natCast_nonneg _
        have hB : ((st.visited.length : Int) + 1) * C < 2 ^ 63 :=
          lt_of_le_of_lt (mul_le_mul_of_nonneg_right hvl hC) hfit
        obtain ⟨hcore3, hvis3, hothers3, hproc3, hlen3, hdb3⟩ :=
          explore_spec heapPush heapPop isHeap hheap graph hcost start s.node
            (((st.visited.length : Int) + 1) * C) hB
            (edgesOf graph s.node) []
            { st with pq := pq1, visited := s.node :: st.visited } hcore2
            (List.mem_cons_self _ _)
            (by
              intro u hu du dc1 hdu hdc4
              have hdc5 : st.dist s.node = some dc1 := hdc4
              rw [hdc1] at hdc5
              have := Option.some.inj hdc5
              rcases List.mem_cons.1 hu with h | h
              · have hdu1 : st.dist s.node = some du := h ▸ hdu
                rw [hdc1] at hdu1
                have := Option.some.inj hdu1
                omega
              · have := hcore.mono u h du hdu s hsmem
                omega)
            (by
              intro u hu hne
              rcases List.mem_cons.1 hu with h | h
              · exact absurd h hne
              · exact hrel u h)
            (by
              intro w e h
              simp at h)
            (fun x hx => hx)
            (by
              intro v d hd
              have := hdb v d hd
              nlinarith)
            (by
              intro dc1 hdc4 x hx
              have hle := hdb s.node dc1 hdc4
              have hx2 : x.2 ≤ C := cost_le_bound graph C hcostC s.node x.1 x.2 hx
              nlinarith)
        apply ih
        · exact hcore3
        · intro u hu
          rw [hvis3] at hu
          by_cases hus : u = s.node
          · rw [hus]
            simpa using hproc3
          · exact hothers3 u hu hus
        · rw [hvis3]
          have hrem := remaining_visit graph s.node st.visited hv
          have hlen4 : (List.foldl (exploreStep heapPush s.node)
              { st with pq := pq1, visited := s.node :: st.visited }
              (edgesOf graph s.node)).pq.length ≤ pq1.length + (edgesOf graph s.node).length :=
            hlen3
          show _ + remaining graph (s.node :: st.visited) < fuel
          omega
        · intro v d hd
          rw [hvis3]
          have := hdb3 v d hd
          simp only [List.length_cons]
          push_cast
          exact this
        · rw [hvis3]
          have hrem := remaining_visit graph s.node st.visited hv
          have hlen4 : (List.foldl (exploreStep heapPush s.node)
              { st with pq := pq1, visited := s.node :: st.visited }
              (edgesOf graph s.node)).pq.length ≤ pq1.length + (edgesOf graph s.node).length :=
            hlen3
          show (s.node :: st.visited).length + _ + remaining graph (s.node :: st.visited) ≤ _
          rw [List.length_cons]
          omega
    · rw [if_neg hlen]
      refine ⟨st, rfl, hcore, hrel, ?_⟩
      exact List.length_eq_zero.1 (by omega)

/-- The plain-list queue satisfies the contract of `heap.Push` and
`heap.Pop`. -/
theorem popMin_spec (q : PriorityQueue) (hq : q ≠ []) :
    ∃ s rest, popMin q = some (s, rest) ∧ (s :: rest).Perm q ∧ ∀ t ∈ q, s.dist ≤ t.dist := by
  induction q with
  | nil => exact absurd rfl hq
  | cons a q ih =>
    by_cases hq1 : q = []
    · subst hq1
      exact ⟨a, [], by simp [popMin], List.Perm.refl _, by simp⟩
    · obtain ⟨m, rest1, hpop, hperm, hmin⟩ := ih hq1
      by_cases hle : a.dist ≤ m.dist
      · refine ⟨a, q, by simp [popMin, hpop, hle], List.Perm.refl _, ?_⟩
        intro t ht
        rcases List.mem_cons.1 ht with h | h
        · rw [h]
        · exact le_trans hle (hmin t h)
      · refine ⟨m, a :: rest1, by simp [popMin, hpop, hle], ?_, ?_⟩
        · exact (List.Perm.swap a m rest1).trans (List.Perm.cons a hperm)
        · intro t ht
          rcases List.mem_cons.1 ht with h | h
          · rw [h]
            omega
          · exact hmin t h

theorem listHeapLaws : HeapLaws listPush popMin (fun _ => True) := by
  refine ⟨trivial, ?_, ?_⟩
  · intro q s _
    refine ⟨trivial, ?_⟩
    unfold listPush
    exact List.perm_append_comm
  · intro q _ hq
    obtain ⟨s, rest, h1, h2, h3⟩ := popMin_spec q hq
    exact ⟨s, rest, h1, trivial, h2, h3⟩

/-- Where no sum of distances can wrap (every edge cost is between 0 and `C`,
and `C` times the number of edges plus one fits in an `int`): for every start
node, `Dijkstra` (given at least as many iterations as the graph has edges,
plus two, and a queue that obeys the contract of `container/heap`) returns a
map `dist` that contains a node exactly when some path leads from start to
it, maps start to 0, and maps every node it contains to the cost of a path
from start to it that no other path from start to it undercuts. -/
theorem Dijkstra_shortest_of_fits (heapPush : PriorityQueue → DijkstraState → PriorityQueue)
    (heapPop : PriorityQueue → Option (DijkstraState × PriorityQueue))
    (isHeap : PriorityQueue → Prop) (hheap : HeapLaws heapPush heapPop isHeap)
    (graph : Graph) (hcost : ∀ entry, entry ∈ graph → ∀ x, x ∈ entry.2 → 0 ≤ x.2)
    (C : Int) (hC : 0 ≤ C) (hcostC : ∀ entry, entry ∈ graph → ∀ x, x ∈ entry.2 → x.2 ≤ C)
    (hfit : ((edgeCount graph : Int) + 1) * C < 2 ^ 63)
    (start : Node) (fuel : Nat) (hfuel : edgeCount graph + 2 ≤ fuel) :
    ∃ dist, Dijkstra heapPush heapPop graph start fuel = some dist ∧
      (∀ v, (dist v).isSome = true ↔ ∃ c, IsPath graph start v c) ∧
      dist start = some 0 ∧
      ∀ v d, dist v = some d →
        IsPath graph start v d ∧ ∀ c, IsPath graph start v c → d ≤ c := by
  obtain ⟨hpush1, hpush2⟩ := hheap.push [] { node := start, dist := 0 } hheap.empty
  have hmemq : ∀ s, s ∈ heapPush [] { node := start, dist := 0 } ↔
      s = { node := start, dist := 0 } := by
    intro s
    rw [hpush2.mem_iff, List.mem_singleton]
  have hcore0 : Core graph start isHeap
      { dist := setDist (fun _ => none) start 0
        pq := heapPush [] { node := start, dist := 0 }
        visited := [] } := by
    refine ⟨hpush1, ?_, by simp [setDist], ?_, ?_, ?_, ?_⟩
    · intro v d hv
      simp only [setDist] at hv
      by_cases hvs : v = start
      · rw [if_pos hvs] at hv
        rw [hvs, ← Option.some.inj hv]
        exact IsPath.nil
      · rw [if_neg hvs] at hv
        exact absurd hv (by simp)
    · intro u hu
      simp at hu
    · intro v d _ hd
      show _ ∈ heapPush [] _
      rw [hmemq]
      simp only [setDist] at hd
      by_cases hvs : v = start
      · rw [if_pos hvs] at hd
        rw [hvs, ← Option.some.inj hd]
      · rw [if_neg hvs] at hd
        exact absurd hd (by simp)
    · intro s hs
      have hs1 : s ∈ heapPush [] { node := start, dist := 0 } := hs
      rw [hmemq] at hs1
      rw [hs1]
      exact ⟨0, by simp [setDist], le_refl _⟩
    · intro u hu
      simp at hu
  obtain ⟨st1, hloop, hcore1, hrel1, hempty⟩ :=
    dijkstraLoop_spec heapPush heapPop isHeap hheap graph hcost C hC hcostC hfit start fuel _
      hcore0
      (by
        intro u hu
        simp at hu)
      (by
        show (heapPush [] _).length + remaining graph [] < fuel
        rw [hpush2.length_eq, remaining_nil]
        simp
        omega)
      (by
        intro v d hd
        have hd1 : setDist (fun _ => none) start 0 v = some d := hd
        simp only [setDist] at hd1
        by_cases hvs : v = start
        · rw [if_pos hvs] at hd1
          rw [← Option.some.inj hd1]
          simp
        · rw [if_neg hvs] at hd1
          exact absurd hd1 (by simp))
      (by
        show ([] : List Node).length + (heapPush [] _).length + remaining graph [] ≤ _
        rw [hpush2.length_eq, remaining_nil]
        simp
        omega)
  have hvisited : ∀ v d, st1.dist v = some d → v ∈ st1.visited := by
    intro v d hd
    by_contra hv
    have := hcore1.pqHas v d hv hd
    rw [hempty] at this
    simp at this
  have hle : ∀ v c, IsPath graph start v c → ∃ d, st1.dist v = some d ∧ d ≤ c := by
    intro v c hp
    induction hp with
    | nil => exact ⟨0, hcore1.startZero, le_refl _⟩
    | snoc v w c e _ hedge ih =>
      obtain ⟨dv, hdv, hdvc⟩ := ih
      obtain ⟨du, dw, h1, h2, h3⟩ := hrel1 v (hvisited v dv hdv) w e hedge
      rw [hdv] at h1
      have := Option.some.inj h1
      exact ⟨dw, h2, by omega⟩
  refine ⟨st1.dist, ?_, ?_, hcore1.startZero, ?_⟩
  · unfold Dijkstra
    rw [hloop]
    rfl
  · intro v
    constructor
    · intro h
      obtain ⟨d, hd⟩ := Option.isSome_iff_exists.1 h
      exact ⟨d, hcore1.path v d hd⟩
    · rintro ⟨c, hp⟩
      obtain ⟨d, hd, -⟩ := hle v c hp
      rw [hd]
      rfl
  · intro v d hd
    refine ⟨hcore1.path v d hd, ?_⟩
    intro c hp
    obtain ⟨d1, hd1, hd2⟩ := hle v c hp
    rw [hd] at hd1
    have := Option.some.inj hd1
    omega

/-- The network `sampleNetwork` with the plain-list queue and 12 iterations:
no edge costs more than 5. -/
theorem Dijkstra_shortest_of_fits_witness :
    ∃ dist, Dijkstra listPush popMin sampleNetwork "START" 12 = some dist ∧
      (∀ v, (dist v).isSome = true ↔ ∃ c, IsPath sampleNetwork "START" v c) ∧
      dist "START" = some 0 ∧
      ∀ v d, dist v = some d →
        IsPath sampleNetwork "START" v d ∧ ∀ c, IsPath sampleNetwork "START" v c → d ≤ c :=
  Dijkstra_shortest_of_fits listPush popMin (fun _ => True) listHeapLaws sampleNetwork
    (by decide) 5 (by decide) (by decide) (by decide) "START" 12 (by decide)

set_option maxRecDepth 100000 in
/-- On `sampleNetwork` with the plain-list queue `Dijkstra` gives START 0,
A 1, B 3 (through A) and REACTOR_1 3, and has no entry for C. -/
theorem Dijkstra_sampleNetwork :
    (Dijkstra listPush popMin sampleNetwork "START" 12).map
      (fun dist => ["START", "A", "B", "REACTOR_1", "C"].map dist)
      = some [some 0, some 1, some 3, some 3, none] := by
  decide

set_option maxRecDepth 100000 in
/-- C15: on the network `longTunnel`, whose edge costs are not negative,
the node B is reached from START by a path of cost 5 and no path has a
negative cost, yet `Dijkstra` maps B to -9223372036854775808: when A (at
distance 1) is visited, the sum `dist[current] + edgeCost` for its tunnel of
cost 9223372036854775807 wraps below zero and replaces the distance 5. -/
theorem Dijkstra_longTunnel_wraps :
    (∀ entry ∈ longTunnel, ∀ x ∈ entry.2, 0 ≤ x.2) ∧
      IsPath longTunnel "START" "B" 5 ∧
      (∀ c, IsPath longTunnel "START" "B" c → 0 ≤ c) ∧
      (Dijkstra listPush popMin longTunnel "START" 10).map
          (fun dist => [dist "START", dist "A", dist "B"])
        = some [some 0, some 1, some (-9223372036854775808)] := by
  refine ⟨by decide, ?_, ?_, by decide⟩
  · have h : IsPath longTunnel "START" "B" (0 + 5) :=
      IsPath.snoc "START" "B" 0 5 IsPath.nil (by decide)
    exact h
  · intro c hc
    exact path_nonneg longTunnel (by decide) "START" "B" c hc

end Day25

namespace Day10

/-- C23 (as amended): `solveMinJoltageInteger` applies its strategies in a
fixed order.  It returns the greedy result whenever that is at least 0;
otherwise the result of `solveJoltageGreedy` when that is at least 0;
otherwise the result of the float Gaussian elimination.  So a later
strategy's result is returned only when every earlier strategy returned a
negative result. -/
theorem solveMinJoltageInteger_order (solveJoltageGreedy solveWithFloatGaussian : Strategy)
    (buttons : List (List Nat)) (targets : List Int) (numButtons numCounters : Nat) :
    (0 ≤ solveGreedySimple (buildJoltageMatrix buttons numButtons numCounters) targets
          numButtons numCounters →
        solveMinJoltageInteger solveJoltageGreedy solveWithFloatGaussian buttons targets
            numButtons numCounters
          = solveGreedySimple (buildJoltageMatrix buttons numButtons numCounters) targets
              numButtons numCounters) ∧
      (solveGreedySimple (buildJoltageMatrix buttons numButtons numCounters) targets
          numButtons numCounters < 0 →
        0 ≤ solveJoltageGreedy (buildJoltageMatrix buttons numButtons numCounters) targets
          numButtons numCounters →
        solveMinJoltageInteger solveJoltageGreedy solveWithFloatGaussian buttons targets
            numButtons numCounters
          = solveJoltageGreedy (buildJoltageMatrix buttons numButtons numCounters) targets
              numButtons numCounters) ∧
      (solveGreedySimple (buildJoltageMatrix buttons numButtons numCounters) targets
          numButtons numCounters < 0 →
        solveJoltageGreedy (buildJoltageMatrix buttons numButtons numCounters) targets
          numButtons numCounters < 0 →
        solveMinJoltageInteger solveJoltageGreedy solveWithFloatGaussian buttons targets
            numButtons numCounters
          = solveWithFloatGaussian (buildJoltageMatrix buttons numButtons numCounters) targets
              numButtons numCounters) := by
  refine ⟨?_, ?_, ?_⟩
  · intro h
    unfold solveMinJoltageInteger
    simp only [ge_iff_le, h, if_true]
  · intro h1 h2
    unfold solveMinJoltageInteger
    simp only [ge_iff_le, if_neg (not_le.2 h1), h2, if_true]
  · intro h1 h2
    unfold solveMinJoltageInteger
    simp only [ge_iff_le, if_neg (not_le.2 h1), if_neg (not_le.2 h2)]

set_option maxRecDepth 100000 in
/-- The three cases of the order, with later strategies that return constants:
one button on one counter with target 3 (the greedy strategy finds 3
presses); one button on two counters with the targets 3 and 1 (the greedy
strategy fails, the next returns 7); the same with a next strategy that
fails. -/
theorem solveMinJoltageInteger_order_witness :
    solveMinJoltageInteger (fun _ _ _ _ => 7) (fun _ _ _ _ => 9) [[0]] [3] 1 1 = 3 ∧
      solveMinJoltageInteger (fun _ _ _ _ => 7) (fun _ _ _ _ => 9) [[0, 1]] [3, 1] 1 2 = 7 ∧
      solveMinJoltageInteger (fun _ _ _ _ => -1) (fun _ _ _ _ => 9) [[0, 1]] [3, 1] 1 2 = 9 :=
  ⟨((solveMinJoltageInteger_order (fun _ _ _ _ => 7) (fun _ _ _ _ => 9) [[0]] [3] 1 1).1
      (by decide)).trans (by decide),
    (solveMinJoltageInteger_order (fun _ _ _ _ => 7) (fun _ _ _ _ => 9) [[0, 1]] [3, 1] 1 2).2.1
      (by decide) (by decide),
    (solveMinJoltageInteger_order (fun _ _ _ _ => -1) (fun _ _ _ _ => 9) [[0, 1]] [3, 1] 1 2).2.2
      (by decide) (by decide)⟩

set_option maxRecDepth 100000 in
/-- On the machine with the buttons `(0)`, `(1)` and both target joltages at
9223372036854775807 the greedy strategy presses each button
9223372036854775807 times and reaches the targets, but its total wraps to -2:
`solveGreedySimple` returns -2, not -1, and `solveMinJoltageInteger` returns
the result of a later strategy, whatever the later strategies compute. -/
theorem solveMinJoltageInteger_greedy_wraps :
    solveGreedySimple (buildJoltageMatrix machineTwoMax.Buttons 2 2) machineTwoMax.Joltages 2 2
        = -2 ∧
      ∀ solveJoltageGreedy solveWithFloatGaussian : Strategy,
        solveMinJoltageInteger solveJoltageGreedy solveWithFloatGaussian
            machineTwoMax.Buttons machineTwoMax.Joltages 2 2
          = if 0 ≤ solveJoltageGreedy (buildJoltageMatrix machineTwoMax.Buttons 2 2)
                machineTwoMax.Joltages 2 2
            then solveJoltageGreedy (buildJoltageMatrix machineTwoMax.Buttons 2 2)
                machineTwoMax.Joltages 2 2
            else solveWithFloatGaussian (buildJoltageMatrix machineTwoMax.Buttons 2 2)
                machineTwoMax.Joltages 2 2 := by
  have h : solveGreedySimple (buildJoltageMatrix machineTwoMax.Buttons 2 2)
      machineTwoMax.Joltages 2 2 = -2 := by decide
  refine ⟨h, ?_⟩
  intro G F
  unfold solveMinJoltageInteger
  simp only [h]
  rfl

end Day10

namespace Cmd

theorem register_fold (day : Int) (l : List (Nat × SolveFunc)) (solvers : List solver) :
    l.foldl
      (fun solvers ip => solvers ++ [{ day := day, part := (ip.1 : Int) + 1, solve := ip.2 }])
      solvers
      = solvers ++ l.map (fun ip => { day := day, part := (ip.1 : Int) + 1, solve := ip.2 }) := by
  induction l generalizing solvers with
  | nil => simp
  | cons a l ih => rw [List.foldl_cons, ih]; simp

/-- The function `register` appends one solver per argument, numbered 1, 2,
... in argument order. -/
theorem register_spec (solvers : List solver) (day : Int) (parts : List SolveFunc) :
    register solvers day parts
      = solvers ++ (List.zip (List.range parts.length) parts).map
          (fun ip => { day := day, part := (ip.1 : Int) + 1, solve := ip.2 }) := by
  unfold register
  exact register_fold day _ solvers

theorem filter_fold (p : solver → Prop) [DecidablePred p] (l acc : List solver) :
    l.foldl (fun filtered s => if p s then filtered ++ [s] else filtered) acc
      = acc ++ l.filter (fun s => decide (p s)) := by
  induction l generalizing acc with
  | nil => simp
  | cons a l ih =>
    rw [List.foldl_cons, ih]
    by_cases h : p a
    · simp [h]
    · simp [h]

/-- For a day other than 0, `filterSolvers` returns, in registration order,
exactly the solvers that match the request. -/
theorem filterSolvers_of_day_ne_zero (solvers : List solver) (day part : Int) (hday : day ≠ 0) :
    filterSolvers solvers day part = solvers.filter (matchesRequest day part) := by
  unfold filterSolvers
  rw [if_neg hday, filter_fold]
  simp only [List.nil_append]
  apply List.filter_congr
  intro s _
  simp [matchesRequest, hday]

theorem subset_register (solvers : List solver) (day : Int) (parts : List SolveFunc)
    (s : solver) (h : s ∈ solvers) : s ∈ register solvers day parts := by
  rw [register_spec]
  exact List.mem_append_left _ h

theorem subset_fold_register (Parts : Int → List SolveFunc) (days : List Int)
    (solvers : List solver) (s : solver) (h : s ∈ solvers) :
    s ∈ days.foldl (fun solvers d => register solvers d (Parts d)) solvers := by
  induction days generalizing solvers with
  | nil => exact h
  | cons d days ih =>
    rw [List.foldl_cons]
    exact ih _ (subset_register solvers d (Parts d) s h)

theorem mem_fold_register (Parts : Int → List SolveFunc) (s : solver) (d : Int)
    (hd : ∀ solvers, s ∈ register solvers d (Parts d)) (days : List Int) (hmem : d ∈ days)
    (solvers : List solver) :
    s ∈ days.foldl (fun solvers d => register solvers d (Parts d)) solvers := by
  induction days generalizing solvers with
  | nil => simp at hmem
  | cons a days ih =>
    rw [List.foldl_cons]
    rcases List.mem_cons.1 hmem with h | h
    · subst h
      exact subset_fold_register Parts days _ s (hd solvers)
    · exact ih h _

/-- C22: with the two parts of day 8 registered as in `day8.Parts`, the
request for part 2 of every day (day 0, part 2) is answered with all the
registered solvers, part 1 of day 8 among them, although that solver does not
match the request. -/
theorem filterSolvers_day_zero_ignores_part (Parts : Int → List SolveFunc)
    (Part1 Part2 : SolveFunc) (h8 : Parts 8 = [Part1, Part2]) :
    filterSolvers (init Parts) 0 2 = init Parts ∧
      ∃ s, s ∈ filterSolvers (init Parts) 0 2 ∧ s.day = 8 ∧ s.part = 1 ∧
        matchesRequest 0 2 s = false := by
  have hf : filterSolvers (init Parts) 0 2 = init Parts := by
    unfold filterSolvers
    rw [if_pos rfl]
  refine ⟨hf, { day := 8, part := 1, solve := Part1 }, ?_, rfl, rfl, ?_⟩
  · rw [hf]
    unfold init
    apply mem_fold_register Parts _ 8 _ _ (by decide)
    intro solvers
    rw [register_spec, h8]
    apply List.mem_append_right
    refine List.mem_map.2 ⟨(0, Part1), ?_, rfl⟩
    show (0, Part1) ∈ [(0, Part1), (1, Part2)]
    exact List.mem_cons_self _ _
  · simp [matchesRequest]

/-- Witness for C22: every day has the two parts `Part1` and `Part2` that
fail with a message. -/
theorem filterSolvers_day_zero_ignores_part_witness :
    filterSolvers (init (fun _ => [fun _ => Except.error "1", fun _ => Except.error "2"])) 0 2
        = init (fun _ => [fun _ => Except.error "1", fun _ => Except.error "2"]) ∧
      ∃ s, s ∈ filterSolvers
          (init (fun _ => [fun _ => Except.error "1", fun _ => Except.error "2"])) 0 2 ∧
        s.day = 8 ∧ s.part = 1 ∧ matchesRequest 0 2 s = false :=
  filterSolvers_day_zero_ignores_part _ _ _ rfl

end Cmd

namespace Day10

theorem takeWhile_run (cls : Char → Bool) (run rest : List Char) (c : Char)
    (hrun : ∀ x ∈ run, cls x = true) (hc : cls c = false) :
    (run ++ c :: rest).takeWhile cls = run ∧ (run ++ c :: rest).dropWhile cls = c :: rest := by
  induction run with
  | nil => simp [List.takeWhile, List.dropWhile, hc]
  | cons a run ih =>
    have ha : cls a = true := hrun a (List.mem_cons_self _ _)
    obtain ⟨h1, h2⟩ := ih (fun x hx => hrun x (List.mem_cons_of_mem _ hx))
    constructor
    · rw [List.cons_append, List.takeWhile_cons, if_pos ha, h1]
    · rw [List.cons_append, List.dropWhile_cons, if_pos ha, h2]

theorem matchGroup_group (o c : Char) (cls : Char → Bool) (run rest : List Char)
    (hrun : ∀ x ∈ run, cls x = true) (hne : run ≠ []) (hc : cls c = false) :
    matchGroup o c cls (o :: (run ++ c :: rest)) = some (run, rest) := by
  obtain ⟨h1, h2⟩ := takeWhile_run cls run rest c hrun hc
  unfold matchGroup
  simp only [if_true, h1, h2]
  rw [if_pos ⟨hne, trivial⟩]

theorem findSubmatch_group (o c : Char) (cls : Char → Bool) (run rest : List Char)
    (hrun : ∀ x ∈ run, cls x = true) (hne : run ≠ []) (hc : cls c = false) :
    findSubmatch o c cls (o :: (run ++ c :: rest)) = some (run, rest) := by
  unfold findSubmatch
  rw [matchGroup_group o c cls run rest hrun hne hc]

theorem findSubmatch_skip (o c : Char) (cls : Char → Bool) (pre s : List Char)
    (hpre : ∀ x ∈ pre, x ≠ o) :
    findSubmatch o c cls (pre ++ s) = findSubmatch o c cls s := by
  induction pre with
  | nil => rfl
  | cons a pre ih =>
    have ha : a ≠ o := hpre a (List.mem_cons_self _ _)
    rw [List.cons_append, findSubmatch]
    have hm : matchGroup o c cls (a :: (pre ++ s)) = none := by
      unfold matchGroup
      simp only [ha, if_false]
    rw [hm]
    exact ih (fun x hx => hpre x (List.mem_cons_of_mem _ hx))

theorem findSubmatch_none (o c : Char) (cls : Char → Bool) (s : List Char)
    (hs : ∀ x ∈ s, x ≠ o) : findSubmatch o c cls s = none := by
  have h := findSubmatch_skip o c cls s [] hs
  rw [List.append_nil] at h
  rw [h]
  rfl

theorem matchGroup_some (o c : Char) (cls : Char → Bool) (s g rest : List Char)
    (h : matchGroup o c cls s = some (g, rest)) :
    s = o :: (g ++ c :: rest) ∧ g ≠ [] ∧ ∀ x ∈ g, cls x = true := by
  unfold matchGroup at h
  cases s with
  | nil => simp at h
  | cons a t =>
    simp only [] at h
    split at h
    · rename_i hao
      split at h
      · exact absurd h (by simp)
      · rename_i x rest1 hdrop
        split at h
        · rename_i hcond
          have hinj := Option.some.inj h
          have hg : List.takeWhile cls t = g := (Prod.mk.inj hinj).1
          have hr : rest1 = rest := (Prod.mk.inj hinj).2
          refine ⟨?_, ?_, ?_⟩
          · rw [hao, ← hg, ← hr, ← hcond.2, ← hdrop, List.takeWhile_append_dropWhile]
          · rw [← hg]
            exact hcond.1
          · intro y hy
            rw [← hg] at hy
            exact (List.mem_takeWhile_imp hy)
        · exact absurd h (by simp)
    · exact absurd h (by simp)

theorem findSubmatch_some (o c : Char) (cls : Char → Bool) (s g rest : List Char)
    (h : findSubmatch o c cls s = some (g, rest)) :
    ∃ pre, s = pre ++ o :: (g ++ c :: rest) ∧ g ≠ [] ∧ ∀ x ∈ g, cls x = true := by
  induction s with
  | nil => simp [findSubmatch] at h
  | cons a t ih =>
    rw [findSubmatch] at h
    cases hm : matchGroup o c cls (a :: t) with
    | some r =>
      rw [hm] at h
      simp only [Option.some.injEq] at h
      rw [h] at hm
      obtain ⟨h1, h2, h3⟩ := matchGroup_some o c cls (a :: t) g rest hm
      exact ⟨[], h1, h2, h3⟩
    | none =>
      rw [hm] at h
      obtain ⟨pre, h1, h2, h3⟩ := ih h
      exact ⟨a :: pre, by rw [h1]; rfl, h2, h3⟩

theorem findAllSubmatch_skip (o c : Char) (cls : Char → Bool) (pre s : List Char)
    (hpre : ∀ x ∈ pre, x ≠ o) (fuel : Nat) :
    findAllSubmatch o c cls fuel (pre ++ s) = findAllSubmatch o c cls fuel s := by
  cases fuel with
  | zero => rfl
  | succ fuel => rw [findAllSubmatch, findAllSubmatch, findSubmatch_skip o c cls pre s hpre]

theorem splitComma_plain (n : List Char) (hn : ∀ x ∈ n, x ≠ ',') : splitComma n = [n] := by
  induction n with
  | nil => rfl
  | cons a n ih =>
    have ha : a ≠ ',' := hn a (List.mem_cons_self _ _)
    rw [splitComma, if_neg ha, ih (fun x hx => hn x (List.mem_cons_of_mem _ hx))]

theorem splitComma_append_comma (n s : List Char) (hn : ∀ x ∈ n, x ≠ ',') :
    splitComma (n ++ ',' :: s) = n :: splitComma s := by
  induction n with
  | nil => simp [splitComma]
  | cons a n ih =>
    have ha : a ≠ ',' := hn a (List.mem_cons_self _ _)
    rw [List.cons_append, splitComma, if_neg ha,
      ih (fun x hx => hn x (List.mem_cons_of_mem _ hx))]

theorem splitComma_commaList (nums : List (List Char)) (hne : nums ≠ [])
    (hn : ∀ n ∈ nums, ∀ x ∈ n, x ≠ ',') : splitComma (commaList nums) = nums := by
  induction nums with
  | nil => exact absurd rfl hne
  | cons n rest ih =>
    cases rest with
    | nil =>
      rw [commaList]
      exact splitComma_plain n (hn n (List.mem_cons_self _ _))
    | cons m rest =>
      rw [commaList, splitComma_append_comma _ _ (hn n (List.mem_cons_self _ _)),
        ih (by simp) (fun k hk => hn k (List.mem_cons_of_mem _ hk))]

theorem isDigit_toNat (ch : Char) (h : isDigit ch = true) : 48 ≤ ch.toNat ∧ ch.toNat ≤ 57 := by
  simpa [isDigit] using h

theorem isDigit_ne (ch c : Char) (h : isDigit ch = true) (hc : c.toNat < 48 ∨ 57 < c.toNat) :
    ch ≠ c := by
  intro heq
  have := isDigit_toNat ch h
  rw [heq] at this
  omega

theorem isDigit_not_space (ch : Char) (h : isDigit ch = true) : isSpace ch = false := by
  have := isDigit_toNat ch h
  simp only [isSpace, decide_eq_false_iff_not]
  omega

theorem dropWhile_head (cls : Char → Bool) (s : List Char)
    (h : ∀ a t, s = a :: t → cls a = false) : s.dropWhile cls = s := by
  cases s with
  | nil => rfl
  | cons a t => rw [List.dropWhile_cons, h a t rfl]; simp

theorem TrimSpace_numeral (n : List Char) (hn : ∀ ch ∈ n, isDigit ch = true) :
    TrimSpace n = n := by
  unfold TrimSpace
  rw [dropWhile_head isSpace n, dropWhile_head isSpace n.reverse, List.reverse_reverse]
  · intro a t hat
    apply isDigit_not_space
    apply hn
    rw [← List.mem_reverse, hat]
    exact List.mem_cons_self _ _
  · intro a t hat
    apply isDigit_not_space
    apply hn
    rw [hat]
    exact List.mem_cons_self _ _

theorem Atoi_numeral (n : List Char) (hn : isNumeral n) (hv : decimalValue n < 2 ^ 63) :
    Atoi n = some (decimalValue n : Int) := by
  obtain ⟨hne, hd⟩ := hn
  cases n with
  | nil => exact absurd rfl hne
  | cons a t =>
    have ha : isDigit a = true := hd a (List.mem_cons_self _ _)
    have h1 : a ≠ '+' := isDigit_ne a '+' ha (by decide)
    have h2 : a ≠ '-' := isDigit_ne a '-' ha (by decide)
    have hall : (a :: t).all isDigit = true := by
      rw [List.all_eq_true]
      exact hd
    unfold Atoi
    simp only [List.head?_cons, Option.some.injEq, h1, h2, or_self, if_false, hall, if_true]
    rw [if_neg (by simp)]
    rw [if_pos]
    constructor
    · have : (0 : Int) ≤ (decimalValue (a :: t) : Int) := Int.natCast_nonneg _
      have h63 : (-2 : Int) ^ 63 < 0 := by norm_num
      omega
    · have : (decimalValue (a :: t) : Int) < 2 ^ 63 := by exact_mod_cast hv
      omega

theorem mem_commaList (nums : List (List Char)) (x : Char) (hx : x ∈ commaList nums) :
    x = ',' ∨ ∃ n ∈ nums, x ∈ n := by
  induction nums with
  | nil => simp [commaList] at hx
  | cons n rest ih =>
    cases rest with
    | nil =>
      rw [commaList] at hx
      exact Or.inr ⟨n, List.mem_cons_self _ _, hx⟩
    | cons m rest =>
      rw [commaList] at hx
      rcases List.mem_append.1 hx with h | h
      · exact Or.inr ⟨n, List.mem_cons_self _ _, h⟩
      · rcases List.mem_cons.1 h with h | h
        · exact Or.inl h
        · rcases ih h with h1 | ⟨k, hk, hxk⟩
          · exact Or.inl h1
          · exact Or.inr ⟨k, List.mem_cons_of_mem _ hk, hxk⟩

theorem commaList_ne_nil (nums : List (List Char)) (hne : nums ≠ [])
    (hn : ∀ n ∈ nums, isNumeral n) : commaList nums ≠ [] := by
  cases nums with
  | nil => exact absurd rfl hne
  | cons n rest =>
    have h := (hn n (List.mem_cons_self _ _)).1
    cases rest with
    | nil =>
      rw [commaList]
      exact h
    | cons m rest =>
      rw [commaList]
      simp [h]

theorem commaList_numChar (nums : List (List Char)) (hn : ∀ n ∈ nums, isNumeral n) :
    ∀ x ∈ commaList nums, isNumChar x = true := by
  intro x hx
  rcases mem_commaList nums x hx with h | ⟨n, hmem, hxn⟩
  · rw [h]
    decide
  · simp [isNumChar, (hn n hmem).2 x hxn]

theorem isNumChar_ne (x c : Char) (h : isNumChar x = true) (hc1 : c.toNat < 48 ∨ 57 < c.toNat)
    (hc2 : c ≠ ',') : x ≠ c := by
  simp only [isNumChar, Bool.or_eq_true, beq_iff_eq] at h
  rcases h with h | h
  · exact isDigit_ne x c h hc1
  · rw [h]
    exact fun h1 => hc2 h1.symm

theorem parseNumbers_fold (nums : List (List Char))
    (hn : ∀ n ∈ nums, isNumeral n ∧ decimalValue n < 2 ^ 63) (acc : List Int) :
    nums.foldl
      (fun (acc : Option (List Int)) numStr =>
        match acc with
        | none => none
        | some nums =>
          match Atoi (TrimSpace numStr) with
          | none => none
          | some num => some (nums ++ [num]))
      (some acc) = some (acc ++ nums.map (fun n => (decimalValue n : Int))) := by
  induction nums generalizing acc with
  | nil => simp
  | cons n rest ih =>
    obtain ⟨h1, h2⟩ := hn n (List.mem_cons_self _ _)
    rw [List.foldl_cons]
    simp only [TrimSpace_numeral n h1.2, Atoi_numeral n h1 h2]
    rw [ih (fun k hk => hn k (List.mem_cons_of_mem _ hk))]
    simp

theorem parseNumbers_commaList (nums : List (List Char)) (hne : nums ≠ [])
    (hn : ∀ n ∈ nums, isNumeral n ∧ decimalValue n < 2 ^ 63) :
    parseNumbers (commaList nums) = some (nums.map (fun n => (decimalValue n : Int))) := by
  unfold parseNumbers
  rw [splitComma_commaList nums hne, parseNumbers_fold nums hn]
  · simp
  · intro n hmem x hx
    exact isDigit_ne x ',' ((hn n hmem).1.2 x hx) (by decide)

theorem parseButtons_fold (buttons : List (Nat × List (List Char)))
    (hb : ∀ b ∈ buttons, b.2 ≠ [] ∧ ∀ n ∈ b.2, isNumeral n ∧ decimalValue n < 2 ^ 63)
    (acc : List (List Int)) :
    (buttons.map (fun b => commaList b.2)).foldl
      (fun (acc : Option (List (List Int))) group =>
        match acc with
        | none => none
        | some buttons =>
          match parseNumbers group with
          | none => none
          | some button => some (buttons ++ [button]))
      (some acc)
      = some (acc ++ buttons.map (fun b => b.2.map (fun n => (decimalValue n : Int)))) := by
  induction buttons generalizing acc with
  | nil => simp
  | cons b rest ih =>
    obtain ⟨h1, h2⟩ := hb b (List.mem_cons_self _ _)
    rw [List.map_cons, List.foldl_cons]
    simp only [parseNumbers_commaList b.2 h1 h2]
    rw [ih (fun k hk => hb k (List.mem_cons_of_mem _ hk))]
    simp

theorem mem_groupText (b : Nat × List (List Char)) (hb : ∀ n ∈ b.2, isNumeral n) (x : Char)
    (hx : x ∈ groupText b) : x = ' ' ∨ x = '(' ∨ x = ')' ∨ isNumChar x = true := by
  unfold groupText at hx
  rcases List.mem_append.1 hx with h | h
  · exact Or.inl (List.eq_of_mem_replicate h)
  · rcases List.mem_cons.1 h with h | h
    · exact Or.inr (Or.inl h)
    · rcases List.mem_append.1 h with h | h
      · exact Or.inr (Or.inr (Or.inr (commaList_numChar b.2 hb x h)))
      · exact Or.inr (Or.inr (Or.inl (List.mem_singleton.1 h)))

theorem length_flatMap_groupText (buttons : List (Nat × List (List Char))) :
    buttons.length ≤ (buttons.flatMap groupText).length := by
  induction buttons with
  | nil => simp
  | cons b rest ih =>
    rw [List.flatMap_cons, List.length_append, List.length_cons]
    have : 1 ≤ (groupText b).length := by
      unfold groupText
      simp only [List.length_append, List.length_cons, List.length_replicate, List.length_nil]
      omega
    omega

/-- The search for all buttons finds the parenthesised lists in order. -/
theorem findAllSubmatch_buttons (buttons : List (Nat × List (List Char))) (tail : List Char)
    (htail : ∀ x ∈ tail, x ≠ '(')
    (hb : ∀ b ∈ buttons, b.2 ≠ [] ∧ ∀ n ∈ b.2, isNumeral n) :
    ∀ fuel, buttons.length < fuel →
      findAllSubmatch '(' ')' isNumChar fuel (buttons.flatMap groupText ++ tail)
        = buttons.map (fun b => commaList b.2) := by
  induction buttons with
  | nil =>
    intro fuel hfuel
    cases fuel with
    | zero => simp at hfuel
    | succ fuel =>
      rw [List.flatMap_nil, List.nil_append, findAllSubmatch,
        findSubmatch_none '(' ')' isNumChar tail htail]
      rfl
  | cons b rest ih =>
    intro fuel hfuel
    cases fuel with
    | zero => simp at hfuel
    | succ fuel =>
      obtain ⟨h1, h2⟩ := hb b (List.mem_cons_self _ _)
      have htext : (b :: rest).flatMap groupText ++ tail
          = List.replicate b.1 ' ' ++
            '(' :: (commaList b.2 ++ ')' :: (rest.flatMap groupText ++ tail)) := by
        rw [List.flatMap_cons]
        unfold groupText
        simp
      rw [htext, findAllSubmatch,
        findSubmatch_skip '(' ')' isNumChar _ _
          (fun x hx => by rw [List.eq_of_mem_replicate hx]; decide),
        findSubmatch_group '(' ')' isNumChar _ _ (commaList_numChar b.2 h2)
          (commaList_ne_nil b.2 h1 h2) (by decide)]
      simp only [List.map_cons]
      rw [ih (fun k hk => hb k (List.mem_cons_of_mem _ hk)) fuel
        (by rw [List.length_cons] at hfuel; omega)]

theorem Atoi_nonneg (s : List Char) (v : Int) (h : Atoi s = some v) (hs : ∀ x ∈ s, x ≠ '-') :
    0 ≤ v := by
  have hhead : ¬ s.head? = some '-' := by
    intro hh
    exact hs '-' (List.mem_of_mem_head? hh) rfl
  unfold Atoi at h
  simp only [hhead, if_false, or_false] at h
  generalize (if s.head? = some '+' then s.tail else s) = digits at h
  by_cases h1 : digits = []
  · rw [if_pos h1] at h
    exact absurd h (by simp)
  · rw [if_neg h1] at h
    by_cases h2 : digits.all isDigit = true
    · rw [if_pos h2] at h
      by_cases h3 : -2 ^ 63 ≤ (decimalValue digits : Int) ∧ (decimalValue digits : Int) ≤ 2 ^ 63 - 1
      · rw [if_pos h3] at h
        rw [← Option.some.inj h]
        exact Int.natCast_nonneg _
      · rw [if_neg h3] at h
        exact absurd h (by simp)
    · rw [if_neg h2] at h
      exact absurd h (by simp)

theorem mem_splitComma (s : List Char) :
    ∀ piece ∈ splitComma s, ∀ x ∈ piece, x ∈ s := by
  induction s with
  | nil =>
    intro piece hp x hx
    simp only [splitComma, List.mem_singleton] at hp
    rw [hp] at hx
    exact hx
  | cons a s ih =>
    intro piece hp x hx
    rw [splitComma] at hp
    split at hp
    · rcases List.mem_cons.1 hp with h | h
      · rw [h] at hx
        simp at hx
      · exact List.mem_cons_of_mem _ (ih piece h x hx)
    · split at hp
      · rw [List.mem_singleton] at hp
        rw [hp] at hx
        rcases List.mem_cons.1 hx with h | h
        · rw [h]
          exact List.mem_cons_self _ _
        · simp at h
      · rename_i piece1 pieces heq
        rcases List.mem_cons.1 hp with h | h
        · rw [h] at hx
          rcases List.mem_cons.1 hx with h1 | h1
          · rw [h1]
            exact List.mem_cons_self _ _
          · exact List.mem_cons_of_mem _ (ih piece1 (by rw [heq]; exact List.mem_cons_self _ _) x h1)
        · exact List.mem_cons_of_mem _
            (ih piece (by rw [heq]; exact List.mem_cons_of_mem _ h) x hx)

theorem mem_TrimSpace (s : List Char) (x : Char) (hx : x ∈ TrimSpace s) : x ∈ s := by
  unfold TrimSpace at hx
  rw [List.mem_reverse] at hx
  have h1 := (List.dropWhile_sublist isSpace).subset hx
  rw [List.mem_reverse] at h1
  exact (List.dropWhile_sublist isSpace).subset h1

theorem parseNumbers_nonneg (group : List Char) (nums : List Int)
    (hg : ∀ x ∈ group, isNumChar x = true) (h : parseNumbers group = some nums) :
    ∀ v ∈ nums, 0 ≤ v := by
  unfold parseNumbers at h
  have key : ∀ (pieces : List (List Char)) (acc res : List Int),
      (∀ piece ∈ pieces, ∀ x ∈ piece, x ≠ '-') → (∀ v ∈ acc, 0 ≤ v) →
      pieces.foldl
        (fun (acc : Option (List Int)) numStr =>
          match acc with
          | none => none
          | some nums =>
            match Atoi (TrimSpace numStr) with
            | none => none
            | some num => some (nums ++ [num]))
        (some acc) = some res →
      ∀ v ∈ res, 0 ≤ v := by
    intro pieces
    induction pieces with
    | nil =>
      intro acc res _ hacc hres
      rw [List.foldl_nil] at hres
      rw [← Option.some.inj hres]
      exact hacc
    | cons piece pieces ih =>
      intro acc res hpieces hacc hres
      rw [List.foldl_cons] at hres
      cases ha : Atoi (TrimSpace piece) with
      | none =>
        simp only [ha] at hres
        have hnone : ∀ l : List (List Char), l.foldl
            (fun (acc : Option (List Int)) numStr =>
              match acc with
              | none => none
              | some nums =>
                match Atoi (TrimSpace numStr) with
                | none => none
                | some num => some (nums ++ [num]))
            none = none := by
          intro l
          induction l with
          | nil => rfl
          | cons a l ihl => rw [List.foldl_cons]; exact ihl
        rw [hnone] at hres
        exact absurd hres (by simp)
      | some num =>
        simp only [ha] at hres
        refine ih (acc ++ [num]) res (fun q hq => hpieces q (List.mem_cons_of_mem _ hq)) ?_ hres
        intro v hv
        rcases List.mem_append.1 hv with h1 | h1
        · exact hacc v h1
        · rw [List.mem_singleton.1 h1]
          apply Atoi_nonneg _ _ ha
          intro x hx
          exact hpieces piece (List.mem_cons_self _ _) x (mem_TrimSpace piece x hx)
  refine key (splitComma group) [] nums ?_ (by simp) h
  intro piece hp x hx
  exact isNumChar_ne x '-' (hg x (mem_splitComma group piece hp x hx)) (by decide) (by decide)

theorem findAllSubmatch_class (o c : Char) (cls : Char → Bool) (fuel : Nat) :
    ∀ s : List Char, ∀ g ∈ findAllSubmatch o c cls fuel s, ∀ x ∈ g, cls x = true := by
  induction fuel with
  | zero =>
    intro s g hg
    simp [findAllSubmatch] at hg
  | succ fuel ih =>
    intro s g hg
    rw [findAllSubmatch] at hg
    cases hf : findSubmatch o c cls s with
    | none =>
      rw [hf] at hg
      simp at hg
    | some r =>
      obtain ⟨g1, rest⟩ := r
      rw [hf] at hg
      rcases List.mem_cons.1 hg with h | h
      · obtain ⟨_, _, _, h3⟩ := findSubmatch_some o c cls s g1 rest hf
        rw [h]
        exact h3
      · exact ih rest g h

theorem parseButtons_nonneg (groups : List (List Char)) (buttons : List (List Int))
    (hg : ∀ g ∈ groups, ∀ x ∈ g, isNumChar x = true) (h : parseButtons groups = some buttons) :
    ∀ b ∈ buttons, ∀ v ∈ b, 0 ≤ v := by
  unfold parseButtons at h
  have key : ∀ (gs : List (List Char)) (acc res : List (List Int)),
      (∀ g ∈ gs, ∀ x ∈ g, isNumChar x = true) → (∀ b ∈ acc, ∀ v ∈ b, 0 ≤ v) →
      gs.foldl
        (fun (acc : Option (List (List Int))) group =>
          match acc with
          | none => none
          | some buttons =>
            match parseNumbers group with
            | none => none
            | some button => some (buttons ++ [button]))
        (some acc) = some res →
      ∀ b ∈ res, ∀ v ∈ b, 0 ≤ v := by
    intro gs
    induction gs with
    | nil =>
      intro acc res _ hacc hres
      rw [List.foldl_nil] at hres
      rw [← Option.some.inj hres]
      exact hacc
    | cons g gs ih =>
      intro acc res hgs hacc hres
      rw [List.foldl_cons] at hres
      cases hp : parseNumbers g with
      | none =>
        simp only [hp] at hres
        have hnone : ∀ l : List (List Char), l.foldl
            (fun (acc : Option (List (List Int))) group =>
              match acc with
              | none => none
              | some buttons =>
                match parseNumbers group with
                | none => none
                | some button => some (buttons ++ [button]))
            none = none := by
          intro l
          induction l with
          | nil => rfl
          | cons a l ihl => rw [List.foldl_cons]; exact ihl
        rw [hnone] at hres
        exact absurd hres (by simp)
      | some button =>
        simp only [hp] at hres
        refine ih (acc ++ [button]) res (fun q hq => hgs q (List.mem_cons_of_mem _ hq)) ?_ hres
        intro b hb
        rcases List.mem_append.1 hb with h1 | h1
        · exact hacc b h1
        · rw [List.mem_singleton.1 h1]
          exact parseNumbers_nonneg g button (hgs g (List.mem_cons_self _ _)) hp
  exact key groups [] buttons hg (by simp) h

/-- Whatever the line, the numbers that `ParseMachine` reads for the buttons
are not negative, so nothing is lost by storing them as naturals. -/
theorem ParseMachine_buttons_nonneg (line : List Char) (m : Machine)
    (h : ParseMachine line = some m) :
    ∃ buttons : List (List Int),
      parseButtons (findAllSubmatch '(' ')' isNumChar line.length line) = some buttons ∧
      (∀ b ∈ buttons, ∀ v ∈ b, 0 ≤ v) ∧
      m.Buttons = buttons.map (fun button => button.map Int.toNat) := by
  unfold ParseMachine at h
  split at h
  · exact absurd h (by simp)
  · simp only [] at h
    split at h
    · exact absurd h (by simp)
    · rename_i buttons hb
      refine ⟨buttons, hb, parseButtons_nonneg _ buttons
        (findAllSubmatch_class '(' ')' isNumChar _ line) hb, ?_⟩
      split at h
      · rw [← Option.some.inj h]
      · split at h
        · exact absurd h (by simp)
        · rw [← Option.some.inj h]

theorem isLightChar_iff (ch : Char) : isLightChar ch = true ↔ (ch = '.' ∨ ch = '#') := by
  simp [isLightChar]

/-- Without a bracketed light pattern in the line `ParseMachine` returns an
error. -/
theorem ParseMachine_no_lights (line : List Char)
    (h : ¬ ∃ pre q post, line = pre ++ '[' :: (q ++ ']' :: post) ∧ q ≠ [] ∧
      ∀ ch ∈ q, ch = '.' ∨ ch = '#') :
    ParseMachine line = none := by
  cases hf : findSubmatch '[' ']' isLightChar line with
  | none =>
    unfold ParseMachine
    rw [hf]
  | some r =>
    obtain ⟨q, post⟩ := r
    obtain ⟨pre, h1, h2, h3⟩ := findSubmatch_some '[' ']' isLightChar line q post hf
    exact absurd ⟨pre, q, post, h1, h2, fun ch hch => (isLightChar_iff ch).1 (h3 ch hch)⟩ h

/-- C21 (as amended): for every line made of a bracketed pattern `p` of one
or more `.` and `#` characters, followed by parenthesised comma-separated
lists of decimal indices and one braced list of decimal joltages (the groups
separated by any number of spaces), every number being at most `2^63 - 1`,
`ParseMachine` succeeds with as many target lights as `p` has characters, a
light being true exactly where `p` has `#` (so rendering the lights back yields
`p`), one button per parenthesised list holding the listed indices in order of
appearance, and the joltages of the braced list; and it returns an error on
every line that contains no bracketed light pattern. -/
theorem ParseMachine_wellFormed (p : List Char) (buttons : List (Nat × List (List Char)))
    (gap : Nat) (joltages : List (List Char))
    (hp : p ≠ [] ∧ ∀ ch ∈ p, ch = '.' ∨ ch = '#')
    (hb : ∀ b ∈ buttons, b.2 ≠ [] ∧ ∀ n ∈ b.2, isNumeral n ∧ decimalValue n < 2 ^ 63)
    (hj : joltages ≠ [] ∧ ∀ n ∈ joltages, isNumeral n ∧ decimalValue n < 2 ^ 63) :
    (∃ m, ParseMachine (renderLine p buttons gap joltages) = some m ∧
      m.TargetLights.length = p.length ∧
      m.TargetLights = p.map (fun ch => ch == '#') ∧
      m.TargetLights.map (fun lit => if lit then '#' else '.') = p ∧
      m.Buttons.length = buttons.length ∧
      m.Buttons = buttons.map (fun b => b.2.map decimalValue) ∧
      m.Joltages = joltages.map (fun n => (decimalValue n : Int))) ∧
    ∀ line : List Char,
      (¬ ∃ pre q post, line = pre ++ '[' :: (q ++ ']' :: post) ∧ q ≠ [] ∧
        ∀ ch ∈ q, ch = '.' ∨ ch = '#') →
      ParseMachine line = none := by
  refine ⟨?_, ParseMachine_no_lights⟩
  have hb1 : ∀ b ∈ buttons, b.2 ≠ [] ∧ ∀ n ∈ b.2, isNumeral n :=
    fun b hmem => ⟨(hb b hmem).1, fun n hn => ((hb b hmem).2 n hn).1⟩
  have hj1 : ∀ n ∈ joltages, isNumeral n := fun n hn => (hj.2 n hn).1
  have hplight : ∀ x ∈ p, isLightChar x = true := fun x hx => (isLightChar_iff x).2 (hp.2 x hx)
  -- the lights
  have hlights : findSubmatch '[' ']' isLightChar (renderLine p buttons gap joltages)
      = some (p, buttons.flatMap groupText ++
          (List.replicate gap ' ' ++ '{' :: (commaList joltages ++ ['}']))) := by
    unfold renderLine
    exact findSubmatch_group '[' ']' isLightChar p _ hplight hp.1 (by decide)
  -- the buttons
  have hlen : buttons.length < (renderLine p buttons gap joltages).length := by
    have := length_flatMap_groupText buttons
    unfold renderLine
    simp only [List.length_cons, List.length_append]
    omega
  have hbuttons : findAllSubmatch '(' ')' isNumChar (renderLine p buttons gap joltages).length
      (renderLine p buttons gap joltages) = buttons.map (fun b => commaList b.2) := by
    have hline : renderLine p buttons gap joltages
        = ('[' :: (p ++ [']'])) ++ (buttons.flatMap groupText ++
          (List.replicate gap ' ' ++ '{' :: (commaList joltages ++ ['}']))) := by
      unfold renderLine
      simp
    rw [hline, findAllSubmatch_skip, findAllSubmatch_buttons buttons _ _ hb1 _ (hline ▸ hlen)]
    · intro x hx
      rcases List.mem_append.1 hx with h | h
      · rw [List.eq_of_mem_replicate h]
        decide
      · rcases List.mem_cons.1 h with h | h
        · rw [h]
          decide
        · rcases List.mem_append.1 h with h | h
          · exact isNumChar_ne x '(' (commaList_numChar joltages hj1 x h) (by decide) (by decide)
          · rw [List.mem_singleton.1 h]
            decide
    · intro x hx
      rcases List.mem_cons.1 hx with h | h
      · rw [h]
        decide
      · rcases List.mem_append.1 h with h | h
        · rcases hp.2 x h with h1 | h1
          · rw [h1]
            decide
          · rw [h1]
            decide
        · rw [List.mem_singleton.1 h]
          decide
  have hparsed : parseButtons (buttons.map (fun b => commaList b.2))
      = some (buttons.map (fun b => b.2.map (fun n => (decimalValue n : Int)))) := by
    unfold parseButtons
    rw [parseButtons_fold buttons hb []]
    simp
  -- the joltages
  have hjolt : findSubmatch '{' '}' isNumChar (renderLine p buttons gap joltages)
      = some (commaList joltages, []) := by
    have hline : renderLine p buttons gap joltages
        = ('[' :: (p ++ ']' :: (buttons.flatMap groupText ++ List.replicate gap ' '))) ++
          '{' :: (commaList joltages ++ ['}']) := by
      unfold renderLine
      simp
    rw [hline, findSubmatch_skip,
      findSubmatch_group '{' '}' isNumChar _ _ (commaList_numChar joltages hj1)
        (commaList_ne_nil joltages hj.1 hj1) (by decide)]
    intro x hx
    rcases List.mem_cons.1 hx with h | h
    · rw [h]
      decide
    · rcases List.mem_append.1 h with h | h
      · rcases hp.2 x h with h1 | h1
        · rw [h1]
          decide
        · rw [h1]
          decide
      · rcases List.mem_cons.1 h with h | h
        · rw [h]
          decide
        · rcases List.mem_append.1 h with h | h
          · obtain ⟨b, hbmem, hxb⟩ := List.mem_flatMap.1 h
            rcases mem_groupText b (hb1 b hbmem).2 x hxb with h1 | h1 | h1 | h1
            · rw [h1]
              decide
            · rw [h1]
              decide
            · rw [h1]
              decide
            · exact isNumChar_ne x '{' h1 (by decide) (by decide)
          · rw [List.eq_of_mem_replicate h]
            decide
  have hjparsed := parseNumbers_commaList joltages hj.1 hj.2
  refine ⟨{ TargetLights := p.map (fun ch => ch == '#')
            Buttons := (buttons.map (fun b => b.2.map (fun n => (decimalValue n : Int)))).map
              (fun button => button.map Int.toNat)
            Joltages := joltages.map (fun n => (decimalValue n : Int)) }, ?_, ?_, rfl, ?_, ?_, ?_,
    rfl⟩
  · unfold ParseMachine
    simp only [hlights, hbuttons, hparsed, hjolt, hjparsed]
  · simp
  · rw [List.map_map]
    conv_rhs => rw [← List.map_id p]
    apply List.map_congr_left
    intro ch hch
    rcases hp.2 ch hch with h | h
    · rw [h]
      rfl
    · rw [h]
      rfl
  · simp
  · simp [List.map_map, Function.comp_def]

set_option maxRecDepth 100000 in
/-- Witness for C21: the first line of the tests,
`[.##.] (3) (1,3) (2) (2,3) (0,2) (0,1) {3,5,4,7}`. -/
theorem ParseMachine_wellFormed_witness :
    (∃ m, ParseMachine (renderLine ['.', '#', '#', '.']
        [(1, [['3']]), (1, [['1'], ['3']]), (1, [['2']]), (1, [['2'], ['3']]),
          (1, [['0'], ['2']]), (1, [['0'], ['1']])]
        1 [['3'], ['5'], ['4'], ['7']]) = some m ∧
      m.TargetLights.length = ['.', '#', '#', '.'].length ∧
      m.TargetLights = ['.', '#', '#', '.'].map (fun ch => ch == '#') ∧
      m.TargetLights.map (fun lit => if lit then '#' else '.') = ['.', '#', '#', '.'] ∧
      m.Buttons.length
        = [(1, [['3']]), (1, [['1'], ['3']]), (1, [['2']]), (1, [['2'], ['3']]),
            (1, [['0'], ['2']]), (1, [['0'], ['1']])].length ∧
      m.Buttons
        = [(1, [['3']]), (1, [['1'], ['3']]), (1, [['2']]), (1, [['2'], ['3']]),
            (1, [['0'], ['2']]), (1, [['0'], ['1']])].map (fun b => b.2.map decimalValue) ∧
      m.Joltages = [['3'], ['5'], ['4'], ['7']].map (fun n => (decimalValue n : Int))) ∧
    ∀ line : List Char,
      (¬ ∃ pre q post, line = pre ++ '[' :: (q ++ ']' :: post) ∧ q ≠ [] ∧
        ∀ ch ∈ q, ch = '.' ∨ ch = '#') →
      ParseMachine line = none :=
  ParseMachine_wellFormed ['.', '#', '#', '.']
    [(1, [['3']]), (1, [['1'], ['3']]), (1, [['2']]), (1, [['2'], ['3']]),
      (1, [['0'], ['2']]), (1, [['0'], ['1']])]
    1 [['3'], ['5'], ['4'], ['7']] (by decide) (by decide) (by decide)

set_option maxRecDepth 100000 in
/-- The line `[#] (9223372036854775808) {1}` is made of a bracketed pattern,
one parenthesised list of one decimal index and a braced list of one decimal
joltage, yet `ParseMachine` returns an error on it: the index is `2^63` and
`strconv.Atoi` reports numbers that do not fit in an `int`. -/
theorem ParseMachine_number_out_of_range :
    renderLine ['#'] [(1, ["9223372036854775808".toList])] 1 [['1']]
        = "[#] (9223372036854775808) \x7b1\x7d".toList ∧
      isNumeral "9223372036854775808".toList ∧ isNumeral ['1'] ∧
      ParseMachine "[#] (9223372036854775808) \x7b1\x7d".toList = none := by
  refine ⟨by decide, by decide, by decide, ?_⟩
  rw [← Option.isNone_iff_eq_none]
  decide

set_option maxRecDepth 100000 in
/-- The three lines of the tests parse to the machines of the puzzle text. -/
theorem ParseMachine_examples :
    (ParseMachine "[.##.] (3) (1,3) (2) (2,3) (0,2) (0,1) \x7b3,5,4,7\x7d".toList).map
        (fun m => (m.TargetLights, m.Buttons, m.Joltages))
        = some ([false, true, true, false], [[3], [1, 3], [2], [2, 3], [0, 2], [0, 1]],
            [3, 5, 4, 7]) ∧
      (ParseMachine
          "[...#.] (0,2,3,4) (2,3) (0,4) (0,1,2) (1,2,3,4) \x7b7,5,12,7,2\x7d".toList).map
          (fun m => (m.TargetLights.length, m.Buttons.length)) = some (5, 5) ∧
      (ParseMachine
          "[.###.#] (0,1,2,3,4) (0,3,4) (0,1,2,4,5) (1,2) \x7b10,11,11,5,10,5\x7d".toList).map
          (fun m => (m.TargetLights.length, m.Buttons.length)) = some (6, 4) := by
  refine ⟨by decide, by decide, by decide⟩

end Day10
